import Mathlib

/-!
# Swarm stream synchronisation: handlers of `swarm/network/stream`

A shallow embedding of `messages.go` (the per-peer message handlers) and
`syncer.go` (the SYNC server), followed by the properties proved about them.

Conventions of the embedding.

* A Go `[]byte` is a `List Nat` (each element a byte value).  A slice expression
  `b[lo:hi]` is `(b.drop lo).take (hi - lo)` and is only evaluated when
  `hi ≤ len b`; the embedding takes `cap b = len b` (a freshly decoded message
  buffer), so a larger `hi` is a run-time failure, written `Outcome.crash`.
* `uint64` values are `Nat`; the only `uint64` arithmetic of these files,
  `req.To + 1`, is taken modulo `2 ^ 64`.
* Code of the repository that is not part of the embedded files (the bitvector
  package, `peer.go`, the store) is either taken as a parameter or introduced by
  a definition whose comment says which text of the specification it follows.
* Goroutines started by a handler are recorded in the handler's result (which
  call was launched with which arguments); interleavings are modelled by an
  explicit list of events.
-/

namespace SwarmStream

/-! ## Constants and wire types -/

/-- HashSize: the length in bytes of a chunk address. -/
def HashSize : Nat := 32

/-- BatchSize of `syncer.go`. -/
def BatchSize : Nat := 128

/-- The value `math.MaxUint64`. -/
def MaxUint64 : Nat := 2 ^ 64 - 1

/-- Stream of `messages.go`: the stream identifier. -/
structure Stream where
  Name : String
  Key : String
  Live : Bool
deriving DecidableEq, Repr

/-- Range: the `History` field of a subscription. -/
structure Range where
  From : Nat
  To : Nat
deriving DecidableEq, Repr

/-- SubscribeMsg of `messages.go`. -/
structure SubscribeMsg where
  Stream : Stream
  History : Option Range
  Priority : Nat
deriving DecidableEq, Repr

/-- OfferedHashesMsg of `messages.go` (the handover proof is not read by the handlers). -/
structure OfferedHashesMsg where
  Stream : Stream
  From : Nat
  To : Nat
  Hashes : List Nat
deriving DecidableEq, Repr

/-- WantedHashesMsg of `messages.go`. -/
structure WantedHashesMsg where
  Stream : Stream
  Want : List Nat
  From : Nat
  To : Nat
deriving DecidableEq, Repr

/-- The result of running a piece of Go code: a value, a returned `error`, or a
run-time failure (slice bounds out of range). -/
inductive Outcome (ε α : Type) where
  | ok (a : α)
  | err (e : ε)
  | crash
deriving DecidableEq, Repr

/-! ## Bitvector -/

/-- Modelled from the spec: the bitvector package (`swarm/network/bitvector`) is
not among the embedded files.  §4.1: "Fixed-size bitset constructed from a bit
length or from a byte buffer of exactly `ceil(n/8)` bytes." -/
structure BitVector where
  len : Nat
  b : List Nat
deriving DecidableEq, Repr

/-- Modelled from the spec: the number of bytes of a bitvector of `n` bits,
`ceil(n/8)` (§4.1). -/
def bvByteLen (n : Nat) : Nat := (n + 7) / 8

/-- Modelled from the spec: `bitvector.NewFromBytes`.  §4.1: built "from a byte
buffer of exactly `ceil(n/8)` bytes"; "Fails with `InvalidLength` when
construction size is non-positive or the buffer size mismatches." -/
def BitVector.NewFromBytes (b : List Nat) (l : Nat) : Except String BitVector :=
  if l = 0 then .error "invalid length"
  else if b.length ≠ bvByteLen l then .error "invalid length"
  else .ok { len := l, b := b }

/-- Modelled from the spec: `bitvector.New`, the all-clear bitvector of `l`
bits (§4.1, "constructed from a bit length"). -/
def BitVector.New (l : Nat) : Except String BitVector :=
  BitVector.NewFromBytes (List.replicate (bvByteLen l) 0) l

/-- Modelled from the spec: `BitVector.Get`.  §4.1: "Bit order is little-endian
within each byte"; §3: "LSB of byte 0 = index 0". -/
def BitVector.Get (bv : BitVector) (i : Nat) : Bool :=
  (bv.b.getD (i / 8) 0).testBit (i % 8)

/-- Modelled from the spec: `BitVector.Set` (§4.1, `set(i, bool)`): bit `i`
becomes `v`, every other bit is kept. -/
def BitVector.Set (bv : BitVector) (i : Nat) (v : Bool) : BitVector :=
  if bv.Get i = v then bv
  else { bv with b := bv.b.set (i / 8) (bv.b.getD (i / 8) 0 ^^^ (1 <<< (i % 8))) }

/-- Modelled from the spec: `BitVector.Bytes`, the serialisation (§4.1). -/
def BitVector.Bytes (bv : BitVector) : List Nat := bv.b

/-! ## Client side: `handleOfferedHashesMsg` -/

/-- The fields of the peer's `client` record (`peer.go`) that
`handleOfferedHashesMsg` reads or writes. -/
structure Client where
  stream : Stream
  priority : Nat
  sessionAt : Nat
deriving DecidableEq, Repr

/-- What `handleOfferedHashesMsg` is handed by code outside `messages.go`:
the result of `p.getOrSetClient`, the client's `NeedData` (it may change the
store `σ`, and says whether it returned a waiter) and `c.nextBatch`. -/
structure ClientEnv (σ : Type) where
  getOrSetClient : Stream → Nat → Nat → Except String Client
  NeedData : σ → List Nat → Bool × σ
  nextBatch : Client → Nat → Nat × Nat

/-- Errors returned by the handlers of `messages.go`. -/
inductive HandlerErr where
  /-- the error of `getOrSetClient` -/
  | client (e : String)
  /-- the error of `getServer` -/
  | server (e : String)
  /-- the error "error initiaising bitvector of length %v: %v" -/
  | bitvector (l : Nat) (e : String)
  /-- the error "handleWantedHashesMsg get data %x: %v" -/
  | getData (hash : List Nat) (e : String)
  /-- the error of `p.Deliver` -/
  | deliver (e : String)
deriving DecidableEq, Repr

/-- The variables of the loop of `handleOfferedHashesMsg` (lines 206-218):
the store, the `want` bitvector, the `NeedData` calls made so far with their
answers, and the indices for which a waiter goroutine was started. -/
structure OfferLoop (σ : Type) where
  store : σ
  want : BitVector
  calls : List (List Nat × Bool)
  waiters : List Nat

/-- The loop `for i := 0; i < len(hashes); i += HashSize` of
`handleOfferedHashesMsg`, started at index `i`; `fuel` bounds the number of
iterations (`len(hashes) + 1` is always enough). -/
def offeredLoop {σ : Type} (NeedData : σ → List Nat → Bool × σ) (hashes : List Nat) :
    Nat → Nat → OfferLoop σ → Outcome HandlerErr (OfferLoop σ)
  | 0, _, st => .ok st
  | fuel + 1, i, st =>
    if i < hashes.length then
      if i + HashSize ≤ hashes.length then
        let hash := (hashes.drop i).take HashSize
        let r := NeedData st.store hash
        if r.1 then
          offeredLoop NeedData hashes fuel (i + HashSize)
            { store := r.2, want := st.want.Set (i / HashSize) true,
              calls := st.calls ++ [(hash, true)], waiters := st.waiters ++ [i / HashSize] }
        else
          offeredLoop NeedData hashes fuel (i + HashSize)
            { st with store := r.2, calls := st.calls ++ [(hash, false)] }
      else .crash
    else .ok st

/-- What a run of `handleOfferedHashesMsg` that returns `nil` has done. -/
structure OfferedResult (σ : Type) where
  store : σ
  /-- the client record after the handler (`sessionAt` may be updated) -/
  client : Client
  /-- the `want` bitvector after the loop -/
  want : BitVector
  /-- the `NeedData` calls, in call order, with "a waiter was returned" -/
  calls : List (List Nat × Bool)
  /-- the hash indices whose waiter is awaited by the `WaitGroup` -/
  waiters : List Nat
  /-- the argument given to `c.nextBatch` -/
  nextBatchArg : Nat
  /-- the message handed to the reply goroutine with the priority it is sent on;
  `none` when the handler returned at `from == to` -/
  reply : Option (WantedHashesMsg × Nat)

/-- Peer.handleOfferedHashesMsg (`messages.go`, lines 187-279). -/
def handleOfferedHashesMsg {σ : Type} (env : ClientEnv σ) (store : σ) (req : OfferedHashesMsg) :
    Outcome HandlerErr (OfferedResult σ) :=
  match env.getOrSetClient req.Stream req.From req.To with
  | .error e => .err (.client e)
  | .ok c =>
    let hashes := req.Hashes
    match BitVector.New (hashes.length / HashSize) with
    | .error e => .err (.bitvector (hashes.length / HashSize) e)
    | .ok want =>
      match offeredLoop env.NeedData hashes (hashes.length + 1) 0
          { store := store, want := want, calls := [], waiters := [] } with
      | .err e => .err e
      | .crash => .crash
      | .ok st =>
        let c1 : Client := if c.stream.Live then { c with sessionAt := req.From } else c
        let arg := (req.To + 1) % 2 ^ 64
        let ft := env.nextBatch c1 arg
        if ft.1 = ft.2 then
          .ok { store := st.store, client := c1, want := st.want, calls := st.calls,
                waiters := st.waiters, nextBatchArg := arg, reply := none }
        else
          .ok { store := st.store, client := c1, want := st.want, calls := st.calls,
                waiters := st.waiters, nextBatchArg := arg,
                reply := some ({ Stream := req.Stream, Want := st.want.Bytes,
                                 From := ft.1, To := ft.2 }, c1.priority) }

/-! ## Server side: the peer's server table and `handleWantedHashesMsg` -/

/-- The fields of the peer's `server` record (`peer.go`) that the handlers of
`messages.go` read: the stream it serves, its priority and `currentBatch`. -/
structure Server where
  stream : Stream
  priority : Nat
  currentBatch : List Nat
deriving DecidableEq, Repr

/-- The peer's table `p.servers`, as an association list (first entry wins). -/
structure Peer where
  servers : List (Stream × Server)
deriving DecidableEq, Repr

/-- Modelled from the spec: `Peer.getServer` (`peer.go` is not among the
embedded files).  §4.5.4: "Fetch the ServerState; if none, fail with
`UnexpectedWant`." -/
def Peer.getServer (p : Peer) (s : Stream) : Except String Server :=
  match p.servers.lookup s with
  | some srv => .ok srv
  | none => .error "stream not registered"

/-- Modelled from the spec: `Peer.setServer` (`peer.go` is not among the
embedded files).  §4.5.1: the peer "records it under `servers[stream]`"; §4.5:
the state carries "the priority band, the current outstanding batch bounds".
When it refuses is not described, so the refusal is the parameter `reject`. -/
def Peer.setServer (reject : Peer → Stream → Option String) (p : Peer) (s : Stream)
    (priority : Nat) : Except String (Server × Peer) :=
  match reject p s with
  | some e => .error e
  | none =>
    let os : Server := { stream := s, priority := priority, currentBatch := [] }
    .ok (os, { servers := (s, os) :: p.servers })

/-- A chunk handed to `p.Deliver`: `storage.NewChunk(hash, nil)` with `SData` set. -/
structure Chunk where
  Addr : List Nat
  SData : List Nat
deriving DecidableEq, Repr

/-- A goroutine `go p.SendOfferedHashes(s, from, to)` started by a handler. -/
structure Launch where
  server : Server
  From : Nat
  To : Nat
deriving DecidableEq, Repr

/-- What `handleWantedHashesMsg` is handed by code outside `messages.go`: the
server endpoint's `GetData` and the peer's `Deliver` (`none` is a `nil` error). -/
structure ServerEnv where
  GetData : List Nat → Except String (List Nat)
  Deliver : Chunk → Nat → Option String

/-- The loop `for i := 0; i < l; i++` of `handleWantedHashesMsg` (lines 321-339),
started at index `i` with the deliveries made so far; returns the deliveries and
the returned error, if any.  `fuel` bounds the iterations (`l` is enough). -/
def wantedLoop (env : ServerEnv) (s : Server) (want : BitVector) (hashes : List Nat) (l : Nat) :
    Nat → Nat → List (Chunk × Nat) → List (Chunk × Nat) × Option HandlerErr
  | 0, _, acc => (acc, none)
  | fuel + 1, i, acc =>
    if i < l then
      if want.Get i then
        let hash := (hashes.drop (i * HashSize)).take HashSize
        match env.GetData hash with
        | .error e => (acc, some (.getData hash e))
        | .ok data =>
          let chunk : Chunk := { Addr := hash, SData := data }
          match env.Deliver chunk s.priority with
          | some e => (acc, some (.deliver e))
          | none => wantedLoop env s want hashes l fuel (i + 1) (acc ++ [(chunk, s.priority)])
      else wantedLoop env s want hashes l fuel (i + 1) acc
    else (acc, none)

/-- What a run of `handleWantedHashesMsg` has done. -/
structure WantedResult where
  /-- the offer goroutines started -/
  offers : List Launch
  /-- the chunks passed successfully to `p.Deliver`, with the priority, in order -/
  delivered : List (Chunk × Nat)
  /-- the returned error (`none` is `nil`) -/
  ret : Option HandlerErr
deriving DecidableEq, Repr

/-- Peer.handleWantedHashesMsg (`messages.go`, lines 297-341). -/
def handleWantedHashesMsg (env : ServerEnv) (p : Peer) (req : WantedHashesMsg) : WantedResult :=
  match p.getServer req.Stream with
  | .error e => { offers := [], delivered := [], ret := some (.server e) }
  | .ok s =>
    let hashes := s.currentBatch
    let offers : List Launch := [{ server := s, From := req.From, To := req.To }]
    let l := hashes.length / HashSize
    match BitVector.NewFromBytes req.Want l with
    | .error e => { offers := offers, delivered := [], ret := some (.bitvector l e) }
    | .ok want =>
      let r := wantedLoop env s want hashes l l 0 []
      { offers := offers, delivered := r.1, ret := r.2 }

/-! ## `handleSubscribeMsg` -/

/-- Modelled from the spec: `getHistoryStream` (`stream.go` is not among the
embedded files).  §4.5.1: the "derived stream id `history_stream(stream)` (same
name/key, `live=false`)". -/
def getHistoryStream (s : Stream) : Stream := { Name := s.Name, Key := s.Key, Live := false }

/-- What `handleSubscribeMsg` is handed by code outside `messages.go`: the
registry lookup `GetServerFunc` (a factory, given key and liveness, builds an
endpoint of type `α` or fails), when `setServer` refuses, and
`getHistoryPriority`. -/
structure SubscribeEnv (α : Type) where
  GetServerFunc : String → Except String (String → Bool → Except String α)
  reject : Peer → Stream → Option String
  getHistoryPriority : Nat → Nat

/-- What a run of `handleSubscribeMsg` has done. -/
structure SubscribeResult where
  /-- the peer's table afterwards -/
  peer : Peer
  /-- the offer goroutines started, in order -/
  offers : List Launch
  /-- the `Error` fields of the `SubscribeErrorMsg` sent by the deferred function -/
  sent : List String
  /-- the returned error (`none` is `nil`) -/
  ret : Option String
deriving DecidableEq, Repr

/-- The exit of `handleSubscribeMsg` with error `e`: the deferred function sends
`SubscribeErrorMsg{Error: err.Error()}`. -/
def subscribeFail (p : Peer) (offers : List Launch) (e : String) : SubscribeResult :=
  { peer := p, offers := offers, sent := [e], ret := some e }

/-- Peer.handleSubscribeMsg (`messages.go`, lines 82-145). -/
def handleSubscribeMsg {α : Type} (env : SubscribeEnv α) (p : Peer) (req : SubscribeMsg) :
    SubscribeResult :=
  match env.GetServerFunc req.Stream.Name with
  | .error e => subscribeFail p [] e
  | .ok f =>
    match f req.Stream.Key req.Stream.Live with
    | .error e => subscribeFail p [] e
    | .ok _ =>
      match p.setServer env.reject req.Stream req.Priority with
      | .error e => subscribeFail p [] e
      | .ok (os, p1) =>
        let ft : Nat × Nat :=
          match req.Stream.Live, req.History with
          | false, some h => (h.From, h.To)
          | _, _ => (0, 0)
        let first : Launch := { server := os, From := ft.1, To := ft.2 }
        match req.Stream.Live, req.History with
        | true, some h =>
          match f req.Stream.Key false with
          | .error e => subscribeFail p1 [first] e
          | .ok _ =>
            match p1.setServer env.reject (getHistoryStream req.Stream)
                (env.getHistoryPriority req.Priority) with
            | .error e => subscribeFail p1 [first] e
            | .ok (os2, p2) =>
              { peer := p2, offers := [first, { server := os2, From := h.From, To := h.To }],
                sent := [], ret := none }
        | _, _ => { peer := p1, offers := [first], sent := [], ret := none }

/-! ## Offers in flight for one stream -/

/-- What happens at one peer, as far as the offers of a stream are concerned:
a `SubscribeMsg` or a `WantedHashesMsg` is handled, or an offer goroutine
started earlier comes to its end. -/
inductive Event (α : Type) where
  /-- a `SubscribeMsg` is handled by `handleSubscribeMsg` -/
  | subscribeMsg (env : SubscribeEnv α) (req : SubscribeMsg)
  /-- a `WantedHashesMsg` is handled by `handleWantedHashesMsg` -/
  | wantedMsg (env : ServerEnv) (req : WantedHashesMsg)
  /-- a running `SendOfferedHashes` of the stream sends its `OfferedHashesMsg` -/
  | offerSent (hashes : List Nat)
  /-- a running `SendOfferedHashes` of the stream returns without sending
  (endpoint closed, or an error) -/
  | offerCancelled

/-- The offers of one stream at one peer: the peer's server table, the number of
`SendOfferedHashes` goroutines started and still running, and the number of
`OfferedHashesMsg` sent for which no `WantedHashesMsg` has been handled since. -/
structure OfferState where
  peer : Peer
  running : Nat
  unanswered : Nat
deriving DecidableEq, Repr

/-- The offers started for the stream and neither answered nor cancelled. -/
def OfferState.outstanding (st : OfferState) : Nat := st.running + st.unanswered

/-- The number of goroutines of `offers` that serve stream `x`. -/
def launchedFor (x : Stream) (offers : List Launch) : Nat :=
  (offers.filter (fun l => decide (l.server.stream = x))).length

/-- Modelled from the spec: the effect on the server table of `SendOfferedHashes`
(`peer.go` is not among the embedded files) when it sends.  §4.5.2, step 3:
"Record `currentBatch = hashes`". -/
def recordBatch (x : Stream) (hashes : List Nat) (p : Peer) : Peer :=
  { servers := p.servers.map
      (fun e => if e.1 = x then (e.1, { e.2 with currentBatch := hashes }) else e) }

/-- One event seen from stream `x`.  The handlers are run on the peer's table;
each goroutine they start for `x` is a running offer; a `WantedHashesMsg` for
`x` answers one sent offer, if there is one. -/
def step {α : Type} (x : Stream) (st : OfferState) : Event α → OfferState
  | .subscribeMsg env req =>
    let r := handleSubscribeMsg env st.peer req
    { st with peer := r.peer, running := st.running + launchedFor x r.offers }
  | .wantedMsg env req =>
    let r := handleWantedHashesMsg env st.peer req
    { st with running := st.running + launchedFor x r.offers,
              unanswered := if req.Stream = x then st.unanswered - 1 else st.unanswered }
  | .offerSent hashes =>
    if st.running = 0 then st
    else { peer := recordBatch x hashes st.peer, running := st.running - 1,
           unanswered := st.unanswered + 1 }
  | .offerCancelled =>
    if st.running = 0 then st else { st with running := st.running - 1 }

/-- The state of stream `x` after the events of `tr`, from state `st`. -/
def run {α : Type} (x : Stream) (st : OfferState) (tr : List (Event α)) : OfferState :=
  tr.foldl (step x) st

/-- A peer with no server and no offer. -/
def OfferState.init : OfferState := { peer := { servers := [] }, running := 0, unanswered := 0 }

/-- At no point of `tr` are two offers of stream `x` outstanding: no offer is
started while an earlier one is neither answered nor cancelled. -/
def AtMostOneOutstanding {α : Type} (x : Stream) (tr : List (Event α)) : Prop :=
  ∀ k, k ≤ tr.length → (run x OfferState.init (tr.take k)).outstanding ≤ 1

/-- The events of `tr` are those of a peer whose table takes a stream only once
and whose remote side answers each `OfferedHashesMsg` of stream `x` once: a
`SubscribeMsg` is handled with a `setServer` that refuses a stream already in
the table, and a `WantedHashesMsg` for `x` is handled only when an offer of `x`
was sent and not yet answered. -/
def Conformant {α : Type} (x : Stream) : OfferState → List (Event α) → Prop
  | _, [] => True
  | st, e :: tr =>
    (match e with
      | .subscribeMsg env _ =>
        ∀ (p : Peer) (s : Stream), (p.servers.lookup s).isSome → (env.reject p s).isSome
      | .wantedMsg _ req => req.Stream = x → 1 ≤ st.unanswered
      | _ => True) ∧ Conformant x (step x st e) tr

/-! ## The SYNC server: `syncer.go` -/

/-- SwarmSyncerServer of `syncer.go` (the store and the quit channel are given to
`SetNextBatch` as the rounds of its polling loop). -/
structure SwarmSyncerServer where
  po : Nat
  sessionAt : Nat
  start : Nat
deriving DecidableEq, Repr

/-- NewSwarmSyncerServer (`syncer.go`, lines 48-61); `currentIndex` is
`db.CurrentBucketStorageIndex`. -/
def NewSwarmSyncerServer (live : Bool) (po : Nat) (currentIndex : Nat → Nat) :
    Except String SwarmSyncerServer :=
  let sessionAt := currentIndex po
  let start := if live then sessionAt else 0
  .ok { po := po, sessionAt := sessionAt, start := start }

/-- One call of `db.Iterator`: the entries `(addr, idx)` the store holds for the
query, in iteration order, and the error the call returns at its end. -/
structure IterRun where
  items : List (List Nat × Nat)
  err : Option String

/-- One turn of the `for` loop of `SetNextBatch`: whether the `select` of a
waiting turn takes the `quit` branch, and the store queried by `db.Iterator`
at that time (arguments `from`, `to`, `po`). -/
structure Round where
  quit : Bool
  iter : Nat → Nat → Nat → IterRun

/-- The variables of `SetNextBatch` captured by the iterator callback. -/
structure BatchVars where
  batch : List Nat
  i : Nat
  to_ : Nat
deriving DecidableEq, Repr

/-- The callback given to `db.Iterator` (lines 122-127): the new variables and
the returned `i < BatchSize`. -/
def yieldHash (v : BatchVars) (addr : List Nat) (idx : Nat) : BatchVars × Bool :=
  ({ batch := v.batch ++ addr, i := v.i + 1, to_ := idx }, decide (v.i + 1 < BatchSize))

/-- Modelled from the spec: `db.Iterator` applied to a callback (the store is not
among the embedded files).  §4.3: "`yield(addr, idx) -> bool`; stop when `yield`
returns false or the range is exhausted." -/
def runIterator : List (List Nat × Nat) → BatchVars → BatchVars
  | [], v => v
  | (addr, idx) :: rest, v =>
    let r := yieldHash v addr idx
    if r.2 then runIterator rest r.1 else r.1

/-- The five values returned by `SetNextBatch`. -/
structure BatchReturn where
  hashes : List Nat
  from_ : Nat
  to_ : Nat
  proof : Option Unit
  err : Option String
deriving DecidableEq, Repr

/-- A run of `SetNextBatch`: the `db.Iterator` calls made (their `from`, `to`,
`po`), in order, and the values returned; `ret = none` when the rounds given
are used up and the call is still polling. -/
structure BatchRun where
  calls : List (Nat × Nat × Nat)
  ret : Option BatchReturn
deriving DecidableEq, Repr

/-- The `for` loop of `SetNextBatch` (lines 109-135) over the rounds offered by
the environment; `wait` is the variable of that name and `calls` the iterator
calls made so far. -/
def pollLoop (s : SwarmSyncerServer) (from_ : Nat) :
    List Round → Bool → BatchVars → List (Nat × Nat × Nat) → BatchRun
  | [], _, _, calls => { calls := calls, ret := none }
  | r :: rs, wait, v, calls =>
    if wait && r.quit then
      { calls := calls,
        ret := some { hashes := [], from_ := 0, to_ := 0, proof := none, err := none } }
    else
      let q := r.iter from_ v.to_ s.po
      let calls1 := calls ++ [(from_, v.to_, s.po)]
      let v1 := runIterator q.items v
      match q.err with
      | some e =>
        { calls := calls1,
          ret := some { hashes := [], from_ := 0, to_ := 0, proof := none, err := some e } }
      | none =>
        if v1.batch.length > 0 then
          { calls := calls1,
            ret := some { hashes := v1.batch, from_ := from_, to_ := v1.to_,
                          proof := none, err := none } }
        else pollLoop s from_ rs true v1 calls1

/-- The start index used by `SetNextBatch` (lines 96-98). -/
def effFrom (s : SwarmSyncerServer) (from_ : Nat) : Nat :=
  if from_ = 0 then s.start else from_

/-- The upper bound used by `SetNextBatch` (lines 99-101), `f` being the start
index already adjusted. -/
def effTo (s : SwarmSyncerServer) (f to_ : Nat) : Nat :=
  if to_ ≤ f ∨ f ≥ s.sessionAt then MaxUint64 else to_

/-- SwarmSyncerServer.SetNextBatch (`syncer.go`, lines 93-139). -/
def SwarmSyncerServer.SetNextBatch (s : SwarmSyncerServer) (from_ to_ : Nat)
    (rounds : List Round) : BatchRun :=
  let f := effFrom s from_
  let t := effTo s f to_
  pollLoop s f rounds false { batch := [], i := 0, to_ := t } []

/-! ## The SYNC server: `GetData` and the server factory -/

/-- The error returned by `db.Get`: `storage.ErrFetching`, or another one. -/
inductive DbErr where
  | fetching
  | other (e : String)
deriving DecidableEq, Repr

/-- The result of `db.Get` as `GetData` uses it: the field `SData` of the chunk
(for a chunk being fetched, as it is once `chunk.ReqC` is closed) and the error. -/
structure DbGet where
  SData : List Nat
  err : Option DbErr
deriving DecidableEq, Repr

/-- SwarmSyncerServer.GetData (`syncer.go`, lines 82-90), `dbGet` being `s.db.Get`;
the wait `<-chunk.ReqC` is taken to return. -/
def SwarmSyncerServer.GetData (dbGet : List Nat → DbGet) (key : List Nat) :
    Except String (List Nat) :=
  let chunk := dbGet key
  match chunk.err with
  | some .fetching => .ok chunk.SData
  | some (.other e) => .error e
  | none => .ok chunk.SData

/-- The value of a byte as a digit in `strconv.ParseUint`: `'0'..'9'` are 0 to 9
and, with `lower(c) = c | 0x20`, the letters are 10 to 35; any other byte (also
every byte of a non-ASCII character) is no digit. -/
def digitVal (c : Char) : Option Nat :=
  let b := c.toNat
  if 128 ≤ b then none
  else if 48 ≤ b ∧ b ≤ 57 then some (b - 48)
  else if 97 ≤ (b ||| 32) ∧ (b ||| 32) ≤ 122 then some ((b ||| 32) - 97 + 10)
  else none

/-- The loop of `strconv.ParseUint` over the bytes of the string, `n` being the
value read so far and `maxVal = 2^bitSize - 1`. -/
def parseUintLoop (base maxVal : Nat) : List Char → Nat → Except String Nat
  | [], n => .ok n
  | c :: cs, n =>
    match digitVal c with
    | none => .error "invalid syntax"
    | some d =>
      if d ≥ base then .error "invalid syntax"
      else if n ≥ MaxUint64 / base + 1 then .error "value out of range"
      else if n * base + d > maxVal then .error "value out of range"
      else parseUintLoop base maxVal cs (n * base + d)

/-- The Go library function `strconv.ParseUint(s, base, bitSize)` for an explicit
base between 2 and 36 (no prefix, no underscore, no sign). -/
def ParseUint (s : String) (base bitSize : Nat) : Except String Nat :=
  if s.toList = [] then .error "invalid syntax"
  else parseUintLoop base (2 ^ bitSize - 1) s.toList 0

/-- The constant syncBinKeyBase of `syncer.go`. -/
def syncBinKeyBase : Nat := 36

/-- ParseSyncBinKey (`syncer.go`, lines 292-298). -/
def ParseSyncBinKey (s : String) : Except String Nat :=
  match ParseUint s syncBinKeyBase 8 with
  | .error e => .error e
  | .ok bin => .ok (bin % 256)

/-- RegisterSwarmSyncerServer (`syncer.go`, lines 63-70): the name under which
the factory is registered, and the factory. -/
def RegisterSwarmSyncerServer (currentIndex : Nat → Nat) :
    String × (String → Bool → Except String SwarmSyncerServer) :=
  ("SYNC", fun t live =>
    match ParseSyncBinKey t with
    | .error e => .error e
    | .ok po => NewSwarmSyncerServer live po currentIndex)

/-! ## The goroutines of one offer -/

/-- What `handleOfferedHashesMsg` itself does, in program order (lines 205-278). -/
inductive HandlerStep where
  /-- the call `c.NeedData(ctx, hash)` on hash `i`, and whether it returned a waiter -/
  | needData (i : Nat) (waiter : Bool)
  /-- the statements `wg.Add(1)` and `go func(w func()) { w(); wg.Done() }(wait)` for hash `i` -/
  | goWaiter (i : Nat)
  /-- the statement `go func() { wg.Wait(); select { case c.next <- c.batchDone(...) ... } }()` -/
  | goBatchDone
  /-- the call `c.nextBatch(req.To + 1)` -/
  | nextBatch (arg : Nat)
  /-- the statement `go func() { select { ... } ... p.SendPriority(ctx, msg, c.priority) }()` -/
  | goReply (msg : WantedHashesMsg) (prio : Nat)
  /-- the statement `return nil` -/
  | ret
deriving DecidableEq, Repr

/-- The steps of the loop of `handleOfferedHashesMsg` for the `NeedData` answers
`calls`, the first of them being for hash `i`. -/
def loopSteps : Nat → List (List Nat × Bool) → List HandlerStep
  | _, [] => []
  | i, (_, true) :: cs => .needData i true :: .goWaiter i :: loopSteps (i + 1) cs
  | i, (_, false) :: cs => .needData i false :: loopSteps (i + 1) cs

/-- The steps of a run of `handleOfferedHashesMsg` that returns `nil` with the
result `r`, in program order. -/
def handlerSteps {σ : Type} (r : OfferedResult σ) : List HandlerStep :=
  loopSteps 0 r.calls ++ [.goBatchDone, .nextBatch r.nextBatchArg] ++
    (match r.reply with
      | some (m, p) => [.goReply m p]
      | none => []) ++ [.ret]

/-- The case taken by the `select` of the reply goroutine (lines 257-270): the
120 s timer, a value received from `c.next`, or `c.quit`. -/
inductive Selected where
  | timer
  | next (err : Option String)
  | quit
deriving DecidableEq, Repr

/-- What a goroutine of the handler does to the peer. -/
inductive PeerAction where
  /-- the call `p.Drop(err)` -/
  | drop (e : String)
  /-- the call `p.SendPriority(ctx, msg, priority)` -/
  | sendPriority (msg : WantedHashesMsg) (prio : Nat)
deriving DecidableEq, Repr

/-- The reply goroutine of `handleOfferedHashesMsg` (lines 256-277), given the
case its `select` takes and the error returned by `p.SendPriority` if it is
called (`none` is `nil`). -/
def replyTask (msg : WantedHashesMsg) (prio : Nat) (sel : Selected) (sendErr : Option String) :
    List PeerAction :=
  match sel with
  | .timer => [.drop "handle offered hashes timeout"]
  | .next (some e) => [.drop e]
  | .quit => []
  | .next none =>
    match sendErr with
    | some e => [.sendPriority msg prio, .drop e]
    | none => [.sendPriority msg prio]

/-- What can happen next while an offer is handled: the handler performs its
next step, or one of the goroutines it started moves. -/
inductive RunEvent where
  /-- the handler performs its next step -/
  | handler
  /-- the waiter of hash `i` returns and `wg.Done()` is called -/
  | waiterDone (i : Nat)
  /-- the batch-done goroutine, `wg.Wait()` having returned, sends
  `e = c.batchDone(p, req, hashes)` on `c.next` -/
  | post (e : Option String)
  /-- the batch-done goroutine, `wg.Wait()` having returned, takes `<-c.quit` -/
  | batchDoneQuit
  /-- the `select` of the reply goroutine takes a case -/
  | reply (sel : Selected) (sendErr : Option String)
deriving DecidableEq, Repr

/-- The handler and its goroutines at one moment: the steps the handler has
still to perform, the waiters counted by the `WaitGroup` (started, not
returned), whether the batch-done goroutine is running, the values waiting in
`c.next`, the reply goroutine waiting in its `select`, and what has been done to
the peer so far. -/
structure OfferRun where
  program : List HandlerStep
  wg : List Nat
  batchDone : Bool
  next : List (Option String)
  reply : Option (WantedHashesMsg × Nat)
  actions : List PeerAction
deriving DecidableEq, Repr

/-- One event; `none` when the event cannot happen in state `st` (the goroutine
is not there, `wg.Wait()` still blocks, or `c.next` holds no such value). -/
def runStep (st : OfferRun) : RunEvent → Option OfferRun
  | .handler =>
    match st.program with
    | [] => none
    | .goWaiter i :: rest => some { st with program := rest, wg := i :: st.wg }
    | .goBatchDone :: rest => some { st with program := rest, batchDone := true }
    | .goReply m p :: rest => some { st with program := rest, reply := some (m, p) }
    | _ :: rest => some { st with program := rest }
  | .waiterDone i =>
    if i ∈ st.wg then some { st with wg := st.wg.erase i } else none
  | .post e =>
    if st.batchDone = true ∧ st.wg = [] then
      some { st with batchDone := false, next := st.next ++ [e] }
    else none
  | .batchDoneQuit =>
    if st.batchDone = true ∧ st.wg = [] then some { st with batchDone := false } else none
  | .reply sel sendErr =>
    match st.reply with
    | none => none
    | some (m, p) =>
      match sel with
      | .next e =>
        match st.next with
        | [] => none
        | v :: rest =>
          if v = e then
            some { st with next := rest, reply := none,
                           actions := st.actions ++ replyTask m p (.next e) sendErr }
          else none
      | _ => some { st with reply := none, actions := st.actions ++ replyTask m p sel sendErr }

/-- The events of `evs` one after the other; `none` when one of them cannot happen. -/
def runEvents : OfferRun → List RunEvent → Option OfferRun
  | st, [] => some st
  | st, e :: evs =>
    match runStep st e with
    | none => none
    | some st1 => runEvents st1 evs

/-- The moment `handleOfferedHashesMsg` is entered for a run that will return
`r`, the channel `c.next` holding `next`. -/
def OfferRun.start {σ : Type} (r : OfferedResult σ) (next : List (Option String)) : OfferRun :=
  { program := handlerSteps r, wg := [], batchDone := false, next := next, reply := none,
    actions := [] }

/-! ## Vocabulary of the statements -/

/-- The `k`-th packed hash of `hashes`: the slice `hashes[k*HashSize : (k+1)*HashSize]`. -/
def hashAt (hashes : List Nat) (k : Nat) : List Nat := (hashes.drop (k * HashSize)).take HashSize

/-- The calls `NeedData(h)` for the hashes `h` of a list, one after the other,
each on the store left by the one before: the hashes asked with the answers
("a waiter was returned"), and the store at the end. -/
def needDataCalls {σ : Type} (NeedData : σ → List Nat → Bool × σ) :
    σ → List (List Nat) → List (List Nat × Bool) × σ
  | s, [] => ([], s)
  | s, h :: hs =>
    let r := NeedData s h
    let rest := needDataCalls NeedData r.2 hs
    ((h, r.1) :: rest.1, rest.2)

/-- What the server owes for index `i` of its current batch: the address
`currentBatch[i]`, the result of `GetData` on it, and the server's priority. -/
def wantedAt (env : ServerEnv) (s : Server) (i : Nat) : List Nat × Except String (List Nat) × Nat :=
  (hashAt s.currentBatch i, env.GetData (hashAt s.currentBatch i), s.priority)

/-- A delivery seen as (address, data, priority). -/
def deliveryView (d : Chunk × Nat) : List Nat × Except String (List Nat) × Nat :=
  (d.1.Addr, .ok d.1.SData, d.2)

/-- The entries passed to the callback by one `db.Iterator` call that starts
with `i = 0`: the callback returns `false` at the `BatchSize`-th entry. -/
def yielded (items : List (List Nat × Nat)) : List (List Nat × Nat) := items.take BatchSize

/-- The addresses of a list of entries, packed one after the other. -/
def packed (ys : List (List Nat × Nat)) : List Nat := (ys.map Prod.fst).flatten

/-- The rounds entered with `wait = true`: all of them when the loop is entered
waiting, all but the first otherwise. -/
def waitedRounds (wait : Bool) (rounds : List Round) : List Round :=
  if wait then rounds else rounds.tail

/-- Every address the store hands to the callback is a 32-byte address. -/
def Addresses32 (rounds : List Round) : Prop :=
  ∀ r ∈ rounds, ∀ f t po, ∀ it ∈ (r.iter f t po).items, it.1.length = HashSize

/-- The store iterator yields only indices inside the range it is asked for
(§4.3: "local index in `[from, to)`"). -/
def IteratorInRange (rounds : List Round) : Prop :=
  ∀ r ∈ rounds, ∀ f t po, ∀ it ∈ (r.iter f t po).items, f ≤ it.2 ∧ it.2 < t

/-- The store iterator yields its entries in increasing order of index (§4.3). -/
def IteratorIncreasing (rounds : List Round) : Prop :=
  ∀ r ∈ rounds, ∀ f t po, (r.iter f t po).items.Pairwise (fun a b => a.2 < b.2)

/-! ## Concrete inputs -/

/-- A live SYNC stream of bin 0. -/
def exStream : Stream := { Name := "SYNC", Key := "0", Live := true }

/-- A 32-byte address made of the byte `b`. -/
def exHash (b : Nat) : List Nat := List.replicate 32 b

/-- An offer of three hashes. -/
def exOffer : OfferedHashesMsg :=
  { Stream := exStream, From := 0, To := 3, Hashes := exHash 1 ++ exHash 2 ++ exHash 3 }

/-- A client whose store already holds `exHash 2` and nothing else. -/
def exClientEnv : ClientEnv Unit :=
  { getOrSetClient := fun s _ _ => .ok { stream := s, priority := 1, sessionAt := 0 },
    NeedData := fun _ h => (!decide (h = exHash 2), ()),
    nextBatch := fun _ n => (n, n + 128) }

/-- What `handleOfferedHashesMsg` does with `exOffer`. -/
def exOfferResult : OfferedResult Unit :=
  { store := (), client := { stream := exStream, priority := 1, sessionAt := 0 },
    want := { len := 3, b := [5] },
    calls := [(exHash 1, true), (exHash 2, false), (exHash 3, true)],
    waiters := [0, 2], nextBatchArg := 4,
    reply := some ({ Stream := exStream, Want := [5], From := 4, To := 132 }, 1) }

/-- A server record whose current batch is the three hashes of `exOffer`. -/
def exServer : Server := { stream := exStream, priority := 2, currentBatch := exOffer.Hashes }

/-- A peer serving `exStream`. -/
def exPeer : Peer := { servers := [(exStream, exServer)] }

/-- The answer to `exOffer`: hashes 0 and 2 are wanted. -/
def exWanted : WantedHashesMsg := { Stream := exStream, Want := [5], From := 4, To := 132 }

/-- A server whose store holds every chunk and whose deliveries succeed. -/
def exServerEnv : ServerEnv :=
  { GetData := fun h => .ok (h ++ [0, 0, 0, 0, 0, 0, 0, 0, 7]), Deliver := fun _ _ => none }

/-- A server whose store holds every chunk and whose connection is gone. -/
def closedServerEnv : ServerEnv :=
  { GetData := fun h => .ok (h ++ [0, 0, 0, 0, 0, 0, 0, 0, 7]),
    Deliver := fun _ _ => some "connection closed" }

/-- A peer whose current batch holds the same address twice. -/
def dupPeer : Peer :=
  { servers := [(exStream, { stream := exStream, priority := 2,
                             currentBatch := exHash 1 ++ exHash 1 })] }

/-- Modelled from the spec: a poll of a store that holds `entries`, the endpoint
staying open.  §4.3: `iterator(from, to, bin, yield)` iterates the "addresses
stored under proximity bin `bin` with local index in `[from, to)`". -/
def storeRound (entries : List (List Nat × Nat)) : Round :=
  { quit := false,
    iter := fun f t _ =>
      { items := entries.filter (fun e => decide (f ≤ e.2 ∧ e.2 < t)), err := none } }

/-- Five chunks, with local indices 0 to 4. -/
def exEntries : List (List Nat × Nat) :=
  [(exHash 0, 0), (exHash 1, 1), (exHash 2, 2), (exHash 3, 3), (exHash 4, 4)]

/-- A historical server of bin 0 created when the bin held three chunks. -/
def histServer : SwarmSyncerServer := { po := 0, sessionAt := 3, start := 0 }

/-- A registry that knows the SYNC stream, and a server table that refuses a
stream it already holds. -/
def exSubscribeEnv : SubscribeEnv Unit :=
  { GetServerFunc := fun name =>
      if name = "SYNC" then .ok (fun _ _ => .ok ()) else .error "stream not registered",
    reject := fun p s =>
      if (p.servers.lookup s).isSome then some "server already registered" else none,
    getHistoryPriority := fun n => n - 1 }

/-- A subscription to `exStream` without history. -/
def exSubscribe : SubscribeMsg := { Stream := exStream, History := none, Priority := 2 }

/-- A peer subscribes, gets the first offer, and sends two `WantedHashesMsg` in
a row. -/
def twoWanted : List (Event Unit) :=
  [.subscribeMsg exSubscribeEnv exSubscribe, .offerSent exOffer.Hashes,
   .wantedMsg exServerEnv exWanted, .wantedMsg exServerEnv exWanted]

/-- A peer subscribes and answers each of two offers once. -/
def answeredOnce : List (Event Unit) :=
  [.subscribeMsg exSubscribeEnv exSubscribe, .offerSent exOffer.Hashes,
   .wantedMsg exServerEnv exWanted, .offerSent exOffer.Hashes,
   .wantedMsg exServerEnv exWanted]

/-- The invariant of the offers of stream `x`: every entry of the server table
is filed under the stream of its server, at most one offer is outstanding, and
none is while the stream has no server. -/
def OfferInv (x : Stream) (st : OfferState) : Prop :=
  (∀ e ∈ st.peer.servers, e.2.stream = e.1) ∧ st.outstanding ≤ 1 ∧
  ((∀ e ∈ st.peer.servers, e.1 ≠ x) → st.outstanding = 0)

/-- A live server of bin 0 created when the bin held three chunks. -/
def liveServer : SwarmSyncerServer := { po := 0, sessionAt := 3, start := 3 }

/-- The handler of `exOffer` has called `c.nextBatch`; no waiter has returned. -/
def exRunAtNextBatch : OfferRun :=
  { program := [.goReply { Stream := exStream, Want := [5], From := 4, To := 132 } 1, .ret],
    wg := [2, 0], batchDone := true, next := [], reply := none, actions := [] }

/-- A whole run for `exOffer`: the handler returns, both waiters return, the
batch-done goroutine posts `nil` and the reply goroutine receives it. -/
def exRunEvents : List RunEvent :=
  List.replicate 9 .handler ++
    [.waiterDone 2, .waiterDone 0, .post none, .reply (.next none) none]

/-- The end of the run `exRunEvents`. -/
def exRunEnd : OfferRun :=
  { program := [], wg := [], batchDone := false, next := [], reply := none,
    actions := [.sendPriority { Stream := exStream, Want := [5], From := 4, To := 132 } 1] }

/-- A store that holds every chunk but the one of address `exHash 3`. -/
def exDbGet (key : List Nat) : DbGet :=
  if key = exHash 3 then { SData := [], err := some (.other "chunk not found") }
  else { SData := key ++ [0, 0, 0, 0, 0, 0, 0, 0, 7], err := none }

/-- A SYNC server on the store `exDbGet`, with deliveries that succeed. -/
def missingChunkEnv : ServerEnv :=
  { GetData := SwarmSyncerServer.GetData exDbGet, Deliver := fun _ _ => none }

/-- A SYNC server on the store `exDbGet`, with a connection that is gone. -/
def missingChunkClosedEnv : ServerEnv :=
  { GetData := SwarmSyncerServer.GetData exDbGet,
    Deliver := fun _ _ => some "connection closed" }

/-- An offer of 129 hashes. -/
def bigOffer : OfferedHashesMsg :=
  { Stream := exStream, From := 0, To := 129, Hashes := List.replicate (129 * 32) 0 }

/-- A subscription to the live stream `exStream` with a history range. -/
def exSubscribeLive : SubscribeMsg :=
  { Stream := exStream, History := some { From := 0, To := 100 }, Priority := 2 }

/-- The invariant of the runs of one offer: the handler has performed the steps
`done` of its program; every waiter it has started is counted by the
`WaitGroup` or has returned; the batch-done goroutine runs only once started;
the reply goroutine holds the message of the result; and a `SendPriority` was
made only with that message, after a `nil` was received from `c.next`. -/
def RunInv {σ : Type} (r : OfferedResult σ) (st : OfferRun) (done : List HandlerStep)
    (past : List RunEvent) : Prop :=
  handlerSteps r = done ++ st.program ∧
  (∀ i, HandlerStep.goWaiter i ∈ done → i ∈ st.wg ∨ RunEvent.waiterDone i ∈ past) ∧
  (st.batchDone = true → HandlerStep.goBatchDone ∈ done) ∧
  (∀ m p, st.reply = some (m, p) → r.reply = some (m, p)) ∧
  (∀ m p, PeerAction.sendPriority m p ∈ st.actions →
    r.reply = some (m, p) ∧ ∃ se, RunEvent.reply (.next none) se ∈ past)

/-! ## `Stream.String`, the SYNC client and the bin key -/

/-- Stream.String (`messages.go`, lines 53-60): `fmt.Sprintf("%s|%s|%s", ...)`
writes the three strings with a bar between them. -/
def Stream.String (s : Stream) : String :=
  let t := if s.Live then "l" else "h"
  s.Name ++ "|" ++ s.Key ++ "|" ++ t

/-- The fields of `storage.Chunk` that `NeedData` reads: `ReqC` is `none` for the
nil channel and names the request channel otherwise. -/
structure RequestChunk where
  Addr : List Nat
  ReqC : Option Nat
deriving DecidableEq, Repr

/-- SwarmSyncerClient of `syncer.go`, as far as `NeedData` could read it. -/
structure SwarmSyncerClient where
  ignoreExistingRequest : Bool
  stream : Stream
deriving DecidableEq, Repr

/-- What the function returned by `NeedData` does when it is called. -/
inductive Waiter where
  /-- The call `chunk.WaitToStore()` on that chunk. -/
  | waitToStore (chunk : RequestChunk)
deriving DecidableEq, Repr

/-- SwarmSyncerClient.NeedData (`syncer.go`, lines 213-227); `GetOrCreateRequest`
is `s.db.GetOrCreateRequest`, which returns the chunk and the flag `created`;
`none` is the nil function. -/
def SwarmSyncerClient.NeedData ( _s : SwarmSyncerClient)
    (GetOrCreateRequest : List Nat → RequestChunk × Bool) (key : List Nat) : Option Waiter :=
  let chunk := (GetOrCreateRequest key).1
  if chunk.ReqC = none then none
  else some (Waiter.waitToStore chunk)

/-- The digit table of `strconv`. -/
def digits : List Char := "0123456789abcdefghijklmnopqrstuvwxyz".toList

/-- The general case of `formatBits` of `strconv` (a base that is neither 10 nor a
power of two): the loop `for u >= b`, which writes the digits from the right,
and the write of the last digit `u < b`. The buffer `a` has 65 bytes, the fuel;
with `b ≥ 2` and `u < 2^64` at most 64 are written. -/
def formatBitsLoop (b : Nat) : Nat → Nat → List Char → List Char
  | 0, _, a => a
  | fuel + 1, u, a =>
    if u ≥ b then
      let q := u / b
      formatBitsLoop b fuel q (digits.getD (u - q * b) '0' :: a)
    else digits.getD u '0' :: a

/-- The Go library function `strconv.FormatUint(i, base)` for base 36, where it is
`formatBits` in its general case. -/
def FormatUint (i base : Nat) : String :=
  String.mk (formatBitsLoop base 65 i [])

/-- FormatSyncBinKey (`syncer.go`, lines 284-286); `bin` is a `uint8`. -/
def FormatSyncBinKey (bin : Nat) : String :=
  FormatUint bin syncBinKeyBase

/-- The two values that ParseSyncBinKey (`syncer.go`, lines 292-298) returns: the
bin and the error, `return 0, err` when `strconv.ParseUint` fails. -/
def ParseSyncBinKey.returned (s : String) : Nat × Option String :=
  match ParseUint s syncBinKeyBase 8 with
  | .error e => (0, some e)
  | .ok bin => (bin % 256, none)

/-- A base-36 digit: one of `0-9`, `a-z`, `A-Z`. -/
def isBase36Digit (c : Char) : Prop :=
  (48 ≤ c.toNat ∧ c.toNat ≤ 57) ∨ (97 ≤ c.toNat ∧ c.toNat ≤ 122) ∨
    (65 ≤ c.toNat ∧ c.toNat ≤ 90)

instance (c : Char) : Decidable (isBase36Digit c) := by
  unfold isBase36Digit; infer_instance

/-- The value of a base-36 digit: `0-9` are 0 to 9, `a-z` and `A-Z` are 10 to 35. -/
def base36DigitValue (c : Char) : Nat :=
  if c.toNat ≤ 57 then c.toNat - 48
  else if 97 ≤ c.toNat then c.toNat - 97 + 10
  else c.toNat - 65 + 10

/-- The value of a base-36 numeral, most significant digit first. -/
def base36Value (cs : List Char) : Nat :=
  cs.foldl (fun n c => n * 36 + base36DigitValue c) 0

/-- A lower-case base-36 digit: one of `0-9`, `a-z`. -/
def isLowerBase36Digit (c : Char) : Prop :=
  (48 ≤ c.toNat ∧ c.toNat ≤ 57) ∨ (97 ≤ c.toNat ∧ c.toNat ≤ 122)

instance (c : Char) : Decidable (isLowerBase36Digit c) := by
  unfold isLowerBase36Digit; infer_instance

/-- A valid bin key: a string that is not empty, made only of base-36 digits, of a
value that is at most 255. -/
def validBinKey (s : String) : Prop :=
  s.toList ≠ [] ∧ (∀ c ∈ s.toList, isBase36Digit c) ∧ base36Value s.toList ≤ 255

instance (s : String) : Decidable (validBinKey s) := by
  unfold validBinKey; infer_instance

/-! ## Further concrete inputs -/

/-- The offer `exOffer` with the open end `To = MaxUint64`. -/
def openOffer : OfferedHashesMsg :=
  { Stream := exStream, From := 0, To := MaxUint64, Hashes := exHash 1 ++ exHash 2 ++ exHash 3 }

/-- What `handleOfferedHashesMsg` does with `openOffer`. -/
def openOfferResult : OfferedResult Unit :=
  { store := (), client := { stream := exStream, priority := 1, sessionAt := 0 },
    want := { len := 3, b := [5] },
    calls := [(exHash 1, true), (exHash 2, false), (exHash 3, true)],
    waiters := [0, 2], nextBatchArg := 0,
    reply := some ({ Stream := exStream, Want := [5], From := 0, To := 128 }, 1) }

/-- A registry whose SYNC factory builds live servers only, and a server table that
refuses a stream it already holds. -/
def liveOnlyEnv : SubscribeEnv Unit :=
  { GetServerFunc := fun name =>
      if name = "SYNC" then .ok (fun _ live => if live then .ok () else .error "no history")
      else .error "stream not registered",
    reject := fun p s =>
      if (p.servers.lookup s).isSome then some "server already registered" else none,
    getHistoryPriority := fun n => n - 1 }

/-! ## The simulation: `randomNode` and `WaitTillHealthy` -/

/-- A Go slice of node IDs that starts at the first element of its backing array:
the array and the length of the slice. -/
structure IDSlice where
  array : List Nat
  len : Nat
deriving DecidableEq, Repr

/-- The statement `ids = append(ids[:i], ids[i+1:]...)` of `randomNode`: the
elements behind index `i` are copied one place down inside the backing array,
whose last of them stays where it was, and the slice is one shorter; `none` is
the run-time panic of `ids[i+1:]` out of range. -/
def IDSlice.remove (ids : IDSlice) (i : Nat) : Option IDSlice :=
  if i + 1 ≤ ids.len ∧ ids.len ≤ ids.array.length then
    some { array := ids.array.take i ++ (ids.array.take ids.len).drop (i + 1) ++
                      ids.array.drop (ids.len - 1),
           len := ids.len - 1 }
  else none

/-- The loop `for _, id := range ids` of `randomNode` (lines 347-353) for one
excluded `e`: the range runs over the slice as it was when the loop was entered
(`k` elements are left, the next one is at index `j`) and reads the backing
array, which the body rewrites; `ids` and `i` are the variables of the body. -/
def excludeLoop (e : Nat) : Nat → Nat → IDSlice → Nat → Option IDSlice
  | 0, _, ids, _ => some ids
  | k + 1, j, ids, i =>
    match ids.array[j]? with
    | none => none
    | some id =>
      if id = e then
        match ids.remove i with
        | none => none
        | some ids1 => excludeLoop e k (j + 1) ids1 i
      else excludeLoop e k (j + 1) ids (i + 1)

/-- The loop `for _, e := range exclude` of `randomNode` (lines 345-354). -/
def excludeAll : List Nat → IDSlice → Option IDSlice
  | [], ids => some ids
  | e :: es, ids =>
    match excludeLoop e ids.len 0 ids 0 with
    | none => none
    | some ids1 => excludeAll es ids1

/-- What `randomNode` returns. -/
inductive Picked where
  /-- a run-time panic (an index out of range) -/
  | crash
  /-- the value `nil` -/
  | nil
  /-- the node with that ID -/
  | node (id : Nat)
deriving DecidableEq, Repr

/-- Simulation.randomNode (`node.go`, lines 343-362); `intn` is `rand.Intn`, and
`s.Net.GetNode` is taken to find the `SimNode` of the ID it is given. The slice
`ids` is the whole of its backing array. -/
def randomNode (intn : Nat → Nat) (ids : List Nat) (exclude : List Nat) : Picked :=
  match excludeAll exclude { array := ids, len := ids.length } with
  | none => .crash
  | some r =>
    let l := r.len
    if l = 0 then .nil
    else
      match (r.array.take l)[intn l]? with
      | none => .crash
      | some id => .node id

/-- Simulation.RandomUpNode (`node.go`, lines 332-336); `upNodeIDs` is the result
of `s.UpNodeIDs()`. -/
def RandomUpNode (intn : Nat → Nat) (upNodeIDs : List Nat) (exclude : List Nat) : Picked :=
  randomNode intn upNodeIDs exclude

/-- The fields of `network.Health` that `WaitTillHealthy` reads. -/
structure Health where
  GotNN : Bool
  KnowNN : Bool
  Full : Bool
deriving DecidableEq, Repr

/-- The health that `WaitTillHealthy` logs (`kademlia.go`, line 70). -/
def Health.health (h : Health) : Bool := h.GotNN && h.KnowNN && h.Full

/-- One turn of the `select` of `WaitTillHealthy`: the context is done with the
error `ctx.Err()`, or the ticker fires while `k.Healthy(pp)` returns, for the
kademlia of each node ID, the given health. -/
inductive HealthEvent where
  | done (err : String)
  | tick (healthy : Nat → Health)

/-- The two values that `WaitTillHealthy` returns: the map `ill` by its node IDs
(`none` is the nil map) and the error. -/
structure WaitResult where
  ill : Option (List Nat)
  err : Option String
deriving DecidableEq, Repr

/-- The loop over `kademlias` at one tick (`kademlia.go`, lines 62-75): the IDs
put in the map `ill`, which was emptied before. -/
def illAt (kademlias : List Nat) (healthy : Nat → Health) : List Nat :=
  kademlias.filter (fun id => !(healthy id).GotNN || !(healthy id).Full)

/-- Simulation.WaitTillHealthy (`kademlia.go`, lines 52-80) over the turns of its
`select`; `kademlias` are the node IDs of `s.kademlias()` and `ill` the map of
that name. `none`: the turns given are used up and the call is still waiting. -/
def WaitTillHealthy (kademlias : List Nat) : List HealthEvent → List Nat → Option WaitResult
  | [], _ => none
  | .done err :: _, ill => some { ill := some ill, err := some err }
  | .tick healthy :: rest, _ =>
    let ill := illAt kademlias healthy
    if ill.length = 0 then some { ill := none, err := none }
    else WaitTillHealthy kademlias rest ill

/-! # Properties -/

/-! ## C1: offers outstanding for one stream -/

theorem handleSubscribeMsg_cases {α : Type} (env : SubscribeEnv α) (p : Peer) (req : SubscribeMsg) :
    ((handleSubscribeMsg env p req).peer = p ∧ (handleSubscribeMsg env p req).offers = [])
    ∨ (∃ a b, env.reject p req.Stream = none ∧
        (handleSubscribeMsg env p req).peer
          = ⟨(req.Stream, ⟨req.Stream, req.Priority, []⟩) :: p.servers⟩ ∧
        (handleSubscribeMsg env p req).offers = [⟨⟨req.Stream, req.Priority, []⟩, a, b⟩])
    ∨ (∃ a b c d pr, req.Stream.Live = true ∧ env.reject p req.Stream = none ∧
        env.reject ⟨(req.Stream, ⟨req.Stream, req.Priority, []⟩) :: p.servers⟩
          (getHistoryStream req.Stream) = none ∧
        (handleSubscribeMsg env p req).peer
          = ⟨(getHistoryStream req.Stream, ⟨getHistoryStream req.Stream, pr, []⟩) ::
              (req.Stream, ⟨req.Stream, req.Priority, []⟩) :: p.servers⟩ ∧
        (handleSubscribeMsg env p req).offers
          = [⟨⟨req.Stream, req.Priority, []⟩, a, b⟩,
             ⟨⟨getHistoryStream req.Stream, pr, []⟩, c, d⟩]) := by
  unfold handleSubscribeMsg
  cases hf : env.GetServerFunc req.Stream.Name with
  | error e => exact Or.inl ⟨rfl, rfl⟩
  | ok f =>
    simp only
    cases hs : f req.Stream.Key req.Stream.Live with
    | error e => exact Or.inl ⟨rfl, rfl⟩
    | ok srv =>
      simp only [Peer.setServer]
      cases hr : env.reject p req.Stream with
      | some e => exact Or.inl ⟨rfl, rfl⟩
      | none =>
        simp only
        cases hl : req.Stream.Live with
        | false =>
          cases hh : req.History with
          | none => exact Or.inr (Or.inl ⟨_, _, trivial, rfl, rfl⟩)
          | some h => exact Or.inr (Or.inl ⟨_, _, trivial, rfl, rfl⟩)
        | true =>
          cases hh : req.History with
          | none => exact Or.inr (Or.inl ⟨_, _, trivial, rfl, rfl⟩)
          | some h =>
            simp only
            cases hs2 : f req.Stream.Key false with
            | error e => exact Or.inr (Or.inl ⟨_, _, trivial, rfl, rfl⟩)
            | ok srv2 =>
              simp only
              cases hr2 : env.reject ⟨(req.Stream, ⟨req.Stream, req.Priority, []⟩) :: p.servers⟩
                  (getHistoryStream req.Stream) with
              | some e => exact Or.inr (Or.inl ⟨_, _, trivial, rfl, rfl⟩)
              | none => exact Or.inr (Or.inr ⟨_, _, _, _, _, trivial, trivial, rfl, rfl, rfl⟩)

theorem lookup_none_iff (l : List (Stream × Server)) (s : Stream) :
    l.lookup s = none ↔ ∀ e ∈ l, e.1 ≠ s := by
  induction l with
  | nil => simp
  | cons a l ih =>
    obtain ⟨k, v⟩ := a
    by_cases h : s = k
    · subst h; simp [List.lookup]
    · have h' : (s == k) = false := by simpa using h
      simp only [List.lookup, h', ih, List.mem_cons, forall_eq_or_imp]
      constructor
      · intro hh; exact ⟨fun hk => h hk.symm, hh⟩
      · intro hh; exact hh.2

theorem lookup_some_mem (l : List (Stream × Server)) (s : Stream) (v : Server)
    (h : l.lookup s = some v) : (s, v) ∈ l := by
  induction l with
  | nil => simp at h
  | cons a l ih =>
    obtain ⟨k, w⟩ := a
    by_cases hk : s = k
    · subst hk
      simp only [List.lookup, beq_self_eq_true, Option.some.injEq] at h
      subst h; exact List.mem_cons_self _ _
    · have h' : (s == k) = false := by simpa using hk
      simp only [List.lookup, h'] at h
      exact List.mem_cons_of_mem _ (ih h)

theorem handleWantedHashesMsg_offers (env : ServerEnv) (p : Peer) (req : WantedHashesMsg) :
    (handleWantedHashesMsg env p req).offers = [] ∨
    ∃ s, (req.Stream, s) ∈ p.servers ∧
      (handleWantedHashesMsg env p req).offers = [⟨s, req.From, req.To⟩] := by
  unfold handleWantedHashesMsg Peer.getServer
  cases hl : p.servers.lookup req.Stream with
  | none => exact Or.inl rfl
  | some s =>
    refine Or.inr ⟨s, lookup_some_mem _ _ _ hl, ?_⟩
    simp only
    split <;> rfl

theorem recordBatch_keys (x : Stream) (hashes : List Nat) (p : Peer) :
    ∀ e ∈ (recordBatch x hashes p).servers, ∃ e' ∈ p.servers, e.1 = e'.1 ∧
      e.2.stream = e'.2.stream := by
  intro e he
  simp only [recordBatch, List.mem_map] at he
  obtain ⟨e', he', rfl⟩ := he
  refine ⟨e', he', ?_⟩
  split <;> exact ⟨rfl, rfl⟩

theorem recordBatch_mem (x : Stream) (hashes : List Nat) (p : Peer) :
    ∀ e' ∈ p.servers, ∃ e ∈ (recordBatch x hashes p).servers, e.1 = e'.1 := by
  intro e' he'
  refine ⟨_, List.mem_map.2 ⟨e', he', rfl⟩, ?_⟩
  split <;> rfl

theorem step_inv {α : Type} (x : Stream) (st : OfferState) (e : Event α)
    (hinv : OfferInv x st)
    (hok : match e with
      | .subscribeMsg env _ =>
        ∀ (p : Peer) (s : Stream), (p.servers.lookup s).isSome → (env.reject p s).isSome
      | .wantedMsg _ req => req.Stream = x → 1 ≤ st.unanswered
      | _ => True) :
    OfferInv x (step x st e) := by
  obtain ⟨htab, hle, hreg⟩ := hinv
  have hfree : ∀ (env : SubscribeEnv α),
      (∀ (p : Peer) (s : Stream), (p.servers.lookup s).isSome → (env.reject p s).isSome) →
      ∀ (p : Peer) (s : Stream), env.reject p s = none → ∀ e ∈ p.servers, e.1 ≠ s := by
    intro env h p s hn
    apply (lookup_none_iff _ _).1
    cases hl : p.servers.lookup s with
    | none => rfl
    | some v =>
      have := h p s (by simp [hl])
      rw [hn] at this
      simp at this
  cases e with
  | subscribeMsg env req =>
    simp only at hok
    simp only [step]
    rcases handleSubscribeMsg_cases env st.peer req with ⟨h1, h2⟩ |
      ⟨a, b, hr, h1, h2⟩ | ⟨a, b, c, d, pr, hlive, hr, hr2, h1, h2⟩
    · rw [h1, h2]
      exact ⟨htab, by simpa [launchedFor, OfferState.outstanding] using hle,
        by simpa [launchedFor, OfferState.outstanding] using hreg⟩
    · have hnew := hfree env hok _ _ hr
      rw [h1, h2]
      refine ⟨?_, ?_, ?_⟩
      · intro e he
        rcases List.mem_cons.1 he with rfl | he
        · rfl
        · exact htab e he
      · by_cases hx : req.Stream = x
        · subst hx
          have h0 := hreg hnew
          simp only [OfferState.outstanding, launchedFor, List.filter, decide_True,
            List.length_cons, List.length_nil] at h0 ⊢
          omega
        · simp only [OfferState.outstanding, launchedFor, List.filter, hx, decide_False,
            List.length_nil] at hle ⊢
          omega
      · intro hall
        have hx : req.Stream ≠ x := hall _ (List.mem_cons_self _ _)
        have h0 := hreg (fun e he => hall e (List.mem_cons_of_mem _ he))
        simp only [OfferState.outstanding, launchedFor, List.filter, hx, decide_False,
          List.length_nil] at h0 ⊢
        omega
    · have hnew := hfree env hok _ _ hr
      have hnew2 := hfree env hok _ _ hr2
      have hdiff : getHistoryStream req.Stream ≠ req.Stream := by
        intro h
        have : (getHistoryStream req.Stream).Live = req.Stream.Live := by rw [h]
        rw [hlive] at this
        simp [getHistoryStream] at this
      rw [h1, h2]
      refine ⟨?_, ?_, ?_⟩
      · intro e he
        rcases List.mem_cons.1 he with rfl | he
        · rfl
        · rcases List.mem_cons.1 he with rfl | he
          · rfl
          · exact htab e he
      · by_cases hx : req.Stream = x
        · subst hx
          have h0 := hreg hnew
          simp only [OfferState.outstanding, launchedFor, List.filter, hdiff, decide_True,
            decide_False, List.length_cons, List.length_nil] at h0 ⊢
          omega
        · by_cases hx2 : getHistoryStream req.Stream = x
          · subst hx2
            have h0 := hreg (fun e he => hnew2 e (List.mem_cons_of_mem _ he))
            simp only [OfferState.outstanding, launchedFor, List.filter, hx, decide_True,
              decide_False, List.length_cons, List.length_nil] at h0 ⊢
            omega
          · simp only [OfferState.outstanding, launchedFor, List.filter, hx, hx2,
              decide_False, List.length_nil] at hle ⊢
            omega
      · intro hall
        have hx2 : getHistoryStream req.Stream ≠ x := hall _ (List.mem_cons_self _ _)
        have hx : req.Stream ≠ x := hall _ (List.mem_cons_of_mem _ (List.mem_cons_self _ _))
        have h0 := hreg (fun e he =>
          hall e (List.mem_cons_of_mem _ (List.mem_cons_of_mem _ he)))
        simp only [OfferState.outstanding, launchedFor, List.filter, hx, hx2, decide_False,
          List.length_nil] at h0 ⊢
        omega
  | wantedMsg env req =>
    simp only at hok
    simp only [step]
    rcases handleWantedHashesMsg_offers env st.peer req with h | ⟨s, hs, h⟩
    · rw [h]
      refine ⟨htab, ?_, ?_⟩
      · simp only [OfferState.outstanding, launchedFor, List.filter, List.length_nil] at hle ⊢
        split <;> omega
      · intro hall
        have h0 := hreg hall
        simp only [OfferState.outstanding, launchedFor, List.filter, List.length_nil] at h0 ⊢
        split <;> omega
    · have hstream : s.stream = req.Stream := htab _ hs
      rw [h]
      by_cases hx : req.Stream = x
      · have h1 := hok hx
        have hsx : s.stream = x := by rw [hstream, hx]
        refine ⟨htab, ?_, ?_⟩
        · simp only [OfferState.outstanding, launchedFor, List.filter, hsx, decide_True,
            List.length_cons, List.length_nil, hx, if_true] at hle ⊢
          omega
        · intro hall
          exact absurd hx (hall _ hs)
      · have hsx : s.stream ≠ x := by rw [hstream]; exact hx
        refine ⟨htab, ?_, ?_⟩
        · simp only [OfferState.outstanding, launchedFor, List.filter, hsx, decide_False,
            List.length_nil, hx, if_false] at hle ⊢
          omega
        · intro hall
          have h0 := hreg hall
          simp only [OfferState.outstanding, launchedFor, List.filter, hsx, decide_False,
            List.length_nil, hx, if_false] at h0 ⊢
          omega
  | offerSent hashes =>
    simp only [step]
    by_cases hr : st.running = 0
    · simp only [hr, if_true]; exact ⟨htab, hle, hreg⟩
    · simp only [hr, if_false]
      refine ⟨?_, ?_, ?_⟩
      · intro e he
        obtain ⟨e', he', h1, h2⟩ := recordBatch_keys x hashes st.peer e he
        rw [h1, h2]; exact htab e' he'
      · simp only [OfferState.outstanding] at hle ⊢; omega
      · intro hall
        have h0 := hreg (by
          intro e' he'
          obtain ⟨e, he, h1⟩ := recordBatch_mem x hashes st.peer e' he'
          rw [← h1]; exact hall e he)
        simp only [OfferState.outstanding] at h0 ⊢; omega
  | offerCancelled =>
    simp only [step]
    by_cases hr : st.running = 0
    · simp only [hr, if_true]; exact ⟨htab, hle, hreg⟩
    · simp only [hr, if_false]
      refine ⟨htab, ?_, ?_⟩
      · simp only [OfferState.outstanding] at hle ⊢; omega
      · intro hall
        have h0 := hreg hall
        simp only [OfferState.outstanding] at h0 ⊢; omega

theorem run_inv {α : Type} (x : Stream) :
    ∀ (tr : List (Event α)) (st : OfferState), OfferInv x st → Conformant x st tr →
      ∀ k, k ≤ tr.length → (run x st (tr.take k)).outstanding ≤ 1 := by
  intro tr
  induction tr with
  | nil => intro st hinv _ k _; simpa [run] using hinv.2.1
  | cons e tr ih =>
    intro st hinv hconf k hk
    cases k with
    | zero => simpa [run] using hinv.2.1
    | succ k =>
      obtain ⟨hhead, htail⟩ := hconf
      have := ih (step x st e) (step_inv x st e hinv hhead) htail k
        (by simpa using hk)
      simpa [run] using this

/-- C1, as stated, fails: after a subscription and a first offer, a peer that
sends two `WantedHashesMsg` in a row makes `handleWantedHashesMsg` start a
second offer goroutine while the one started by the first message is still
running: two offers of the stream are outstanding. -/
theorem two_wanted_counterexample :
    (run exStream OfferState.init twoWanted).running = 2 ∧
    ¬ AtMostOneOutstanding exStream twoWanted :=
  ⟨by decide, fun h => absurd (h 4 (by decide)) (by decide)⟩

theorem answeredOnce_conformant : Conformant exStream OfferState.init answeredOnce := by
  have hrej : ∀ (p : Peer) (s : Stream), (p.servers.lookup s).isSome →
      (exSubscribeEnv.reject p s).isSome := by
    intro p s h
    simp [exSubscribeEnv, h]
  exact ⟨hrej, trivial, fun _ => by decide, trivial, fun _ => by decide, trivial⟩

/-- C1 (amended). In every sequence of events at one peer in which `setServer`
refuses a stream that already has a server and every `WantedHashesMsg` of the
stream is handled only when an `OfferedHashesMsg` of the stream was sent and not
yet answered, no offer (`SendOfferedHashes`) is started while an offer started
before for that stream is neither answered nor cancelled. -/
theorem conformant_at_most_one {α : Type} (x : Stream) (tr : List (Event α))
    (h : Conformant x OfferState.init tr) : AtMostOneOutstanding x tr :=
  run_inv x tr OfferState.init
    ⟨by simp [OfferState.init], by simp [OfferState.init, OfferState.outstanding],
     by simp [OfferState.init, OfferState.outstanding]⟩ h

/-- C1 (amended), at a concrete input: two offers, each answered once. -/
theorem conformant_at_most_one_witness :
    Conformant exStream OfferState.init answeredOnce ∧
    AtMostOneOutstanding exStream answeredOnce :=
  ⟨answeredOnce_conformant, conformant_at_most_one exStream answeredOnce answeredOnce_conformant⟩

/-! ## Bitvector lemmas -/

theorem BitVector.Set_len (bv : BitVector) (i : Nat) (v : Bool) : (bv.Set i v).len = bv.len := by
  unfold BitVector.Set; split <;> rfl

theorem BitVector.Set_length (bv : BitVector) (i : Nat) (v : Bool) :
    (bv.Set i v).b.length = bv.b.length := by
  unfold BitVector.Set; split <;> simp

theorem BitVector.Get_Set_same (bv : BitVector) (i : Nat) (h : i / 8 < bv.b.length) :
    (bv.Set i true).Get i = true := by
  unfold BitVector.Set
  split
  · assumption
  · rename_i hne
    have hx : (bv.b.getD (i / 8) 0).testBit (i % 8) = false := by
      simpa [BitVector.Get] using hne
    simp only [BitVector.Get, List.getD_eq_getElem?_getD] at hx ⊢
    rw [List.getElem?_set_self h]
    simp [Nat.testBit_xor, hx, Nat.one_shiftLeft, Nat.testBit_two_pow_self]

theorem BitVector.Get_Set_other (bv : BitVector) (i j : Nat) (v : Bool) (h : j ≠ i) :
    (bv.Set i v).Get j = bv.Get j := by
  unfold BitVector.Set
  split
  · rfl
  · simp only [BitVector.Get, List.getD_eq_getElem?_getD]
    by_cases hq : j / 8 = i / 8
    · have hm : i % 8 ≠ j % 8 := by
        intro hm
        apply h
        rw [← Nat.div_add_mod j 8, ← Nat.div_add_mod i 8, hq, hm]
      rw [hq]
      by_cases hlt : i / 8 < bv.b.length
      · rw [List.getElem?_set_self hlt]
        simp [Nat.testBit_xor, Nat.one_shiftLeft, Nat.testBit_two_pow_of_ne hm]
      · rw [List.set_eq_of_length_le (by omega)]
    · rw [List.getElem?_set_ne (Ne.symm hq)]

theorem BitVector.Get_replicate (n l j : Nat) :
    BitVector.Get { len := l, b := List.replicate n 0 } j = false := by
  simp only [BitVector.Get, List.getD_eq_getElem?_getD]
  by_cases h : j / 8 < n
  · simp [List.getElem?_replicate, h]
  · simp [List.getElem?_replicate, h]

theorem offeredLoop_run {σ : Type} (ND : σ → List Nat → Bool × σ) (hashes : List Nat) (N : Nat)
    (hlen : hashes.length = N * HashSize) :
    ∀ (fuel k : Nat) (st : OfferLoop σ), k ≤ N → N - k < fuel → N ≤ 8 * st.want.b.length →
      (∀ j, k ≤ j → st.want.Get j = false) →
      ∃ st' tail, offeredLoop ND hashes fuel (k * HashSize) st = .ok st' ∧
        st'.want.len = st.want.len ∧ st'.want.b.length = st.want.b.length ∧
        st'.calls = st.calls ++ tail ∧ tail.length = N - k ∧
        (tail, st'.store) =
          needDataCalls ND st.store ((List.range' k (N - k)).map (hashAt hashes)) ∧
        (∀ j, j < N - k → ∃ a, tail[j]? = some (hashAt hashes (k + j), a) ∧
            st'.want.Get (k + j) = a) ∧
        (∀ j, j < k → st'.want.Get j = st.want.Get j) := by
  intro fuel
  induction fuel with
  | zero => intro k st _ h; omega
  | succ fuel ih =>
    intro k st hk hfuel hb hclear
    unfold offeredLoop
    by_cases hkN : k < N
    · have h1 : k * HashSize < hashes.length := by
        rw [hlen]; exact Nat.mul_lt_mul_of_pos_right hkN (by decide)
      have h2 : k * HashSize + HashSize ≤ hashes.length := by
        rw [hlen]
        calc k * HashSize + HashSize = (k + 1) * HashSize := by ring
          _ ≤ N * HashSize := Nat.mul_le_mul_right _ hkN
      have hdiv : k * HashSize / HashSize = k := Nat.mul_div_cancel k (by decide)
      have hsucc : k * HashSize + HashSize = (k + 1) * HashSize := by ring
      rw [hsucc] at h2
      simp only [h1, hsucc, h2, if_true, hdiv]
      by_cases ha : (ND st.store ((hashes.drop (k * HashSize)).take HashSize)).1 = true
      · simp only [ha, if_true]
        obtain ⟨st', tail, hrun, hl, hbl, hcalls, htl, hnd, hbits, hold⟩ :=
          ih (k + 1)
            { store := (ND st.store ((hashes.drop (k * HashSize)).take HashSize)).2,
              want := st.want.Set k true,
              calls := st.calls ++ [((hashes.drop (k * HashSize)).take HashSize, true)],
              waiters := st.waiters ++ [k] }
            hkN (by omega) (by simpa [BitVector.Set_length] using hb)
            (by
              intro j hj
              show (st.want.Set k true).Get j = false
              rw [BitVector.Get_Set_other _ _ _ _ (by omega)]
              exact hclear j (by omega))
        refine ⟨st', ((hashes.drop (k * HashSize)).take HashSize, true) :: tail, hrun, ?_, ?_, ?_,
          ?_, ?_, ?_, ?_⟩
        · simpa [BitVector.Set_len] using hl
        · simpa [BitVector.Set_length] using hbl
        · simpa using hcalls
        · simp [htl]; omega
        · rw [show N - k = (N - (k + 1)) + 1 by omega, List.range'_succ]
          simp only [List.map_cons, needDataCalls, hashAt] at hnd ⊢
          simp only [← hnd, ha]
        · intro j hj
          cases j with
          | zero =>
            refine ⟨true, by simp [hashAt], ?_⟩
            have := hold k (by omega)
            simp only [Nat.add_zero]
            rw [this]
            exact BitVector.Get_Set_same _ _ (by omega)
          | succ j =>
            obtain ⟨a, h1, h2⟩ := hbits j (by omega)
            refine ⟨a, ?_, ?_⟩
            · simpa [show k + (j + 1) = k + 1 + j by omega] using h1
            · simpa [show k + (j + 1) = k + 1 + j by omega] using h2
        · intro j hj
          have := hold j (by omega)
          rw [this]
          exact BitVector.Get_Set_other _ _ _ _ (by omega)
      · simp only [ha]
        obtain ⟨st', tail, hrun, hl, hbl, hcalls, htl, hnd, hbits, hold⟩ :=
          ih (k + 1)
            { st with
              store := (ND st.store ((hashes.drop (k * HashSize)).take HashSize)).2,
              calls := st.calls ++ [((hashes.drop (k * HashSize)).take HashSize, false)] }
            hkN (by omega) hb (fun j hj => hclear j (by omega))
        refine ⟨st', ((hashes.drop (k * HashSize)).take HashSize, false) :: tail, ?_, hl, hbl,
          ?_, ?_, ?_, ?_, ?_⟩
        · simpa using hrun
        · simpa using hcalls
        · simp [htl]; omega
        · rw [show N - k = (N - (k + 1)) + 1 by omega, List.range'_succ]
          simp only [List.map_cons, needDataCalls, hashAt] at hnd ⊢
          have ha' : (ND st.store ((hashes.drop (k * HashSize)).take HashSize)).1 = false := by
            simpa using ha
          simp only [← hnd, ha']
        · intro j hj
          cases j with
          | zero =>
            refine ⟨false, by simp [hashAt], ?_⟩
            have := hold k (by omega)
            simp only [Nat.add_zero]
            rw [this]
            exact hclear k (le_refl _)
          | succ j =>
            obtain ⟨a, h1, h2⟩ := hbits j (by omega)
            refine ⟨a, ?_, ?_⟩
            · simpa [show k + (j + 1) = k + 1 + j by omega] using h1
            · simpa [show k + (j + 1) = k + 1 + j by omega] using h2
        · intro j hj
          exact hold j (by omega)
    · have hkN' : k = N := by omega
      subst hkN'
      have h1 : ¬ (k * HashSize < hashes.length) := by rw [hlen]; omega
      simp only [h1, if_false]
      exact ⟨st, [], rfl, rfl, rfl, by simp, by simp, by simp [needDataCalls],
        by intro j hj; omega, fun _ _ => rfl⟩

theorem offeredLoop_want {σ : Type} (ND : σ → List Nat → Bool × σ) (hashes : List Nat) :
    ∀ (fuel i : Nat) (st st' : OfferLoop σ), offeredLoop ND hashes fuel i st = .ok st' →
      st'.want.len = st.want.len ∧ st'.want.b.length = st.want.b.length := by
  intro fuel
  induction fuel with
  | zero =>
    intro i st st' h
    simp only [offeredLoop, Outcome.ok.injEq] at h
    subst h; exact ⟨rfl, rfl⟩
  | succ fuel ih =>
    intro i st st' h
    unfold offeredLoop at h
    dsimp only at h
    split_ifs at h
    · have := ih _ _ _ h
      simpa [BitVector.Set_len, BitVector.Set_length] using this
    · have := ih _ _ _ h
      simpa using this
    · simp only [Outcome.ok.injEq] at h
      subst h; exact ⟨rfl, rfl⟩

theorem New_ok (l : Nat) (bv : BitVector) (h : BitVector.New l = .ok bv) :
    1 ≤ l ∧ bv = { len := l, b := List.replicate (bvByteLen l) 0 } := by
  unfold BitVector.New BitVector.NewFromBytes at h
  split_ifs at h with h0 h1
  simp only [Except.ok.injEq] at h
  exact ⟨by omega, h.symm⟩

theorem NewFromBytes_self (bv : BitVector) (h0 : 1 ≤ bv.len)
    (hb : bv.b.length = bvByteLen bv.len) : BitVector.NewFromBytes bv.Bytes bv.len = .ok bv := by
  unfold BitVector.NewFromBytes BitVector.Bytes
  have h0' : ¬ (bv.len = 0) := by omega
  simp [h0', hb]

/-! ## C2, C3: the `want` bitvector of `handleOfferedHashesMsg` -/

/-- C2. Bit-length agreement: when `handleOfferedHashesMsg` accepts an offer of
`N = len(hashes)/32` hashes, then `N ≥ 1`, the `want` bitvector it has built has
exactly `N` bits and is serialised in exactly `ceil(N/8)` bytes, and the `Want`
field of the `WantedHashesMsg` it builds is that serialisation: it decodes, as a
bitvector of `N` bits, to `want`. -/
theorem want_bitvector_length {σ : Type} (env : ClientEnv σ) (store : σ) (req : OfferedHashesMsg)
    (r : OfferedResult σ) (h : handleOfferedHashesMsg env store req = .ok r) :
    1 ≤ req.Hashes.length / HashSize ∧
    r.want.len = req.Hashes.length / HashSize ∧
    r.want.Bytes.length = (req.Hashes.length / HashSize + 7) / 8 ∧
    ∀ msg prio, r.reply = some (msg, prio) →
      msg.Want = r.want.Bytes ∧
      BitVector.NewFromBytes msg.Want (req.Hashes.length / HashSize) = .ok r.want := by
  unfold handleOfferedHashesMsg at h
  cases hc : env.getOrSetClient req.Stream req.From req.To with
  | error e => simp [hc] at h
  | ok c =>
    cases hnew : BitVector.New (req.Hashes.length / HashSize) with
    | error e => simp [hc, hnew] at h
    | ok want =>
      obtain ⟨hN, hw⟩ := New_ok _ _ hnew
      cases hloop : offeredLoop env.NeedData req.Hashes (req.Hashes.length + 1) 0
          { store := store, want := want, calls := [], waiters := [] } with
      | err e => simp [hc, hnew, hloop] at h
      | crash => simp [hc, hnew, hloop] at h
      | ok st =>
        obtain ⟨hl, hb⟩ := offeredLoop_want _ _ _ _ _ _ hloop
        simp only [hw, List.length_replicate] at hl hb
        have key := NewFromBytes_self st.want (by omega) (by rw [hb, hl])
        rw [hl] at key
        simp only [hc, hnew, hloop] at h
        split_ifs at h <;>
          (simp only [Outcome.ok.injEq] at h
           subst h
           refine ⟨hN, hl, hb, ?_⟩
           intro msg prio hr
           dsimp only at hr
           cases hr <;> exact ⟨rfl, key⟩)


/-- C2, at a concrete input: the offer of three hashes is accepted and its
bitvector has three bits in one byte. -/
theorem want_bitvector_length_witness :
    handleOfferedHashesMsg exClientEnv () exOffer = .ok exOfferResult ∧
    1 ≤ exOffer.Hashes.length / HashSize ∧
    exOfferResult.want.len = exOffer.Hashes.length / HashSize ∧
    exOfferResult.want.Bytes.length = (exOffer.Hashes.length / HashSize + 7) / 8 ∧
    ∀ msg prio, exOfferResult.reply = some (msg, prio) →
      msg.Want = exOfferResult.want.Bytes ∧
      BitVector.NewFromBytes msg.Want (exOffer.Hashes.length / HashSize) = .ok exOfferResult.want :=
  ⟨by rfl, want_bitvector_length exClientEnv () exOffer exOfferResult (by rfl)⟩

/-- C3. For an offer of `N ≥ 1` packed 32-byte hashes (and a client that is
found), `handleOfferedHashesMsg` returns normally; `NeedData` has been called
exactly `N` times, the `i`-th call on hash `i`, each on the store left by the
call before; and bit `i` of `want` is set if and only if the `i`-th call returned
a waiter. -/
theorem want_bits_follow_NeedData {σ : Type} (env : ClientEnv σ) (store : σ)
    (req : OfferedHashesMsg) (c : Client)
    (N : Nat) (hc : env.getOrSetClient req.Stream req.From req.To = .ok c) (hN : 1 ≤ N)
    (hlen : req.Hashes.length = N * HashSize) :
    ∃ r, handleOfferedHashesMsg env store req = .ok r ∧
      r.calls = (needDataCalls env.NeedData store ((List.range N).map (hashAt req.Hashes))).1 ∧
      r.calls.length = N ∧
      ∀ i, i < N → ∃ a, r.calls[i]? = some (hashAt req.Hashes i, a) ∧
        (r.want.Get i = true ↔ a = true) := by
  have hdiv : req.Hashes.length / HashSize = N := by
    rw [hlen]; exact Nat.mul_div_cancel N (by decide)
  have hnew : BitVector.New N = .ok { len := N, b := List.replicate (bvByteLen N) 0 } := by
    unfold BitVector.New BitVector.NewFromBytes
    have h0 : ¬ (N = 0) := by omega
    simp [h0]
  obtain ⟨st', tail, hrun, _, _, hcalls, htl, hnd, hbits, _⟩ :=
    offeredLoop_run env.NeedData req.Hashes N hlen (req.Hashes.length + 1) 0
      { store := store, want := { len := N, b := List.replicate (bvByteLen N) 0 },
        calls := [], waiters := [] } (Nat.zero_le _)
      (by rw [hlen]; simp only [HashSize]; omega)
      (by simp only [List.length_replicate, bvByteLen]; omega)
      (by intro j _; exact BitVector.Get_replicate _ _ _)
  simp only [Nat.zero_mul, List.nil_append, Nat.sub_zero, Nat.zero_add] at hrun hcalls htl hnd hbits
  have hcallsEq : st'.calls =
      (needDataCalls env.NeedData store ((List.range N).map (hashAt req.Hashes))).1 := by
    rw [List.range_eq_range', ← hnd, hcalls]
  have hfin : ∀ i, i < N → ∃ a, st'.calls[i]? = some (hashAt req.Hashes i, a) ∧
      (st'.want.Get i = true ↔ a = true) := by
    intro i hi
    obtain ⟨a, h1, h2⟩ := hbits i hi
    exact ⟨a, by rw [hcalls]; exact h1, by rw [h2]⟩
  unfold handleOfferedHashesMsg
  simp only [hc, hdiv, hnew, hrun]
  split_ifs <;> exact ⟨_, rfl, hcallsEq, by rw [hcalls, htl], hfin⟩


/-- C3, at a concrete input: three hashes, the second already stored. -/
theorem want_bits_follow_NeedData_witness :
    ∃ r, handleOfferedHashesMsg exClientEnv () exOffer = .ok r ∧
      r.calls = (needDataCalls exClientEnv.NeedData ()
        ((List.range 3).map (hashAt exOffer.Hashes))).1 ∧
      r.calls.length = 3 ∧
      ∀ i, i < 3 → ∃ a, r.calls[i]? = some (hashAt exOffer.Hashes i, a) ∧
        (r.want.Get i = true ↔ a = true) :=
  want_bits_follow_NeedData exClientEnv () exOffer
    { stream := exStream, priority := 1, sessionAt := 0 } 3 (by rfl) (by decide) (by decide)

/-! ## C4, C5: the deliveries of `handleWantedHashesMsg` -/

theorem wantedLoop_all (env : ServerEnv) (s : Server) (want : BitVector) (hashes : List Nat)
    (l : Nat) (hs : hashes = s.currentBatch)
    (hget : ∀ i, i < l → want.Get i = true → ∃ d, env.GetData (hashAt hashes i) = .ok d)
    (hdel : ∀ c, env.Deliver c s.priority = none) :
    ∀ (fuel i : Nat) (acc : List (Chunk × Nat)), l - i ≤ fuel →
      ∃ out, wantedLoop env s want hashes l fuel i acc = (acc ++ out, none) ∧
        out.map deliveryView =
          ((List.range' i (l - i)).filter (fun j => want.Get j)).map (wantedAt env s) := by
  intro fuel
  induction fuel with
  | zero =>
    intro i acc h
    have : l - i = 0 := by omega
    exact ⟨[], by simp [wantedLoop], by simp [this]⟩
  | succ fuel ih =>
    intro i acc h
    unfold wantedLoop
    by_cases hil : i < l
    · have hr : l - i = (l - (i + 1)) + 1 := by omega
      simp only [hil, if_true]
      by_cases hw : want.Get i = true
      · obtain ⟨d, hd⟩ := hget i hil hw
        have hd' : env.GetData ((hashes.drop (i * HashSize)).take HashSize) = .ok d := hd
        simp only [hw, if_true, hd', hdel]
        obtain ⟨out, h1, h2⟩ := ih (i + 1)
          (acc ++ [({ Addr := (hashes.drop (i * HashSize)).take HashSize, SData := d }, s.priority)])
          (by omega)
        refine ⟨({ Addr := (hashes.drop (i * HashSize)).take HashSize, SData := d }, s.priority)
          :: out, by simpa using h1, ?_⟩
        rw [hr, List.range'_succ, List.filter_cons_of_pos (by simpa using hw)]
        simp only [List.map_cons, h2]
        congr 1
        simp only [deliveryView, wantedAt, ← hs, hashAt, hd']
      · obtain ⟨out, h1, h2⟩ := ih (i + 1) acc (by omega)
        refine ⟨out, by simpa [hw] using h1, ?_⟩
        rw [hr, List.range'_succ, List.filter_cons_of_neg (by simpa using hw)]
        exact h2
    · have : l - i = 0 := by omega
      simp only [hil, if_false]
      exact ⟨[], by simp, by simp [this]⟩

theorem wantedLoop_sub (env : ServerEnv) (s : Server) (want : BitVector) (hashes : List Nat)
    (l : Nat) :
    ∀ (fuel i : Nat) (acc : List (Chunk × Nat)),
      ∃ out, (wantedLoop env s want hashes l fuel i acc).1 = acc ++ out ∧
        List.Sublist (out.map (fun d => d.1.Addr)) ((List.range' i (l - i)).map (hashAt hashes)) := by
  intro fuel
  induction fuel with
  | zero => intro i acc; exact ⟨[], by simp [wantedLoop], by simp⟩
  | succ fuel ih =>
    intro i acc
    unfold wantedLoop
    by_cases hil : i < l
    · have hr : l - i = (l - (i + 1)) + 1 := by omega
      simp only [hil, if_true]
      rw [hr, List.range'_succ, List.map_cons]
      by_cases hw : want.Get i = true
      · simp only [hw, if_true]
        cases hd : env.GetData ((hashes.drop (i * HashSize)).take HashSize) with
        | error e => exact ⟨[], by simp, by simp⟩
        | ok d =>
          cases hdl : env.Deliver { Addr := (hashes.drop (i * HashSize)).take HashSize, SData := d }
              s.priority with
          | some e => exact ⟨[], by simp [hdl], by simp⟩
          | none =>
            obtain ⟨out, h1, h2⟩ := ih (i + 1)
              (acc ++ [({ Addr := (hashes.drop (i * HashSize)).take HashSize, SData := d },
                s.priority)])
            refine ⟨({ Addr := (hashes.drop (i * HashSize)).take HashSize, SData := d },
              s.priority) :: out, by simpa [hdl] using h1, ?_⟩
            simp only [List.map_cons]
            exact List.Sublist.cons₂ _ h2
      · obtain ⟨out, h1, h2⟩ := ih (i + 1) acc
        exact ⟨out, by simpa [hw] using h1, List.Sublist.cons _ h2⟩
    · simp only [hil, if_false]
      exact ⟨[], by simp, by simp⟩

/-- C4, as stated, fails: `GetData` succeeds for every hash, yet `Deliver`
returns an error on the first wanted chunk, so the handler returns that error
and has delivered nothing. -/
theorem wanted_delivery_error_counterexample :
    exPeer.getServer exWanted.Stream = .ok exServer ∧
    BitVector.NewFromBytes exWanted.Want (exServer.currentBatch.length / HashSize)
      = .ok { len := 3, b := [5] } ∧
    (∀ i, ∃ d, closedServerEnv.GetData (hashAt exServer.currentBatch i) = .ok d) ∧
    (handleWantedHashesMsg closedServerEnv exPeer exWanted).ret
      = some (.deliver "connection closed") ∧
    (handleWantedHashesMsg closedServerEnv exPeer exWanted).delivered = [] :=
  ⟨by rfl, by rfl, fun _ => ⟨_, rfl⟩, by decide, by decide⟩

/-- C4 (amended). If the server of the stream is found, `Want` decodes to a
bitvector of `l = len(currentBatch)/32` bits, `GetData` succeeds on every wanted
hash and `Deliver` succeeds, then `handleWantedHashesMsg` returns no error and
its deliveries are exactly, in increasing index order, the chunks
`(currentBatch[i], GetData(currentBatch[i]))` for the `i < l` whose bit is set,
each on the server's priority. -/
theorem wanted_chunks_delivered (env : ServerEnv) (p : Peer) (req : WantedHashesMsg)
    (s : Server) (want : BitVector)
    (hs : p.getServer req.Stream = .ok s)
    (hw : BitVector.NewFromBytes req.Want (s.currentBatch.length / HashSize) = .ok want)
    (hget : ∀ i, i < s.currentBatch.length / HashSize → want.Get i = true →
      ∃ d, env.GetData (hashAt s.currentBatch i) = .ok d)
    (hdel : ∀ c, env.Deliver c s.priority = none) :
    (handleWantedHashesMsg env p req).ret = none ∧
    (handleWantedHashesMsg env p req).delivered.map deliveryView =
      ((List.range (s.currentBatch.length / HashSize)).filter (fun i => want.Get i)).map
        (wantedAt env s) := by
  obtain ⟨out, h1, h2⟩ := wantedLoop_all env s want s.currentBatch
    (s.currentBatch.length / HashSize) rfl hget hdel (s.currentBatch.length / HashSize) 0 []
    (Nat.sub_le _ _)
  simp only [handleWantedHashesMsg, hs, hw, h1, List.nil_append, Nat.sub_zero] at h2 ⊢
  exact ⟨trivial, by rw [h2, List.range_eq_range']⟩


/-- C4 (amended), at a concrete input: hashes 0 and 2 of three are wanted. -/
theorem wanted_chunks_delivered_witness :
    (handleWantedHashesMsg exServerEnv exPeer exWanted).ret = none ∧
    (handleWantedHashesMsg exServerEnv exPeer exWanted).delivered.map deliveryView =
      ((List.range (exServer.currentBatch.length / HashSize)).filter
        (fun i => BitVector.Get { len := 3, b := [5] } i)).map (wantedAt exServerEnv exServer) :=
  wanted_chunks_delivered exServerEnv exPeer exWanted exServer { len := 3, b := [5] }
    (by rfl) (by rfl) (fun _ _ _ => ⟨_, rfl⟩) (fun _ => rfl)

theorem hashAt_nodup (hashes : List Nat) (l : Nat)
    (hinj : ∀ i j, i < l → j < l → hashAt hashes i = hashAt hashes j → i = j) :
    ((List.range' 0 l).map (hashAt hashes)).Nodup := by
  refine List.Nodup.map_on ?_ (List.nodup_range' 0 l)
  intro i hi j hj h
  simp only [List.mem_range'_1] at hi hj
  exact hinj i j (by omega) (by omega) h

/-- C5, as stated, fails: for a current batch that holds the same address
twice, a `WantedHashesMsg` asking for both delivers that address twice. -/
theorem duplicate_address_counterexample :
    ¬ ((handleWantedHashesMsg exServerEnv dupPeer
        { Stream := exStream, Want := [3], From := 0, To := 0 }).delivered.map
          (fun d => d.1.Addr)).Nodup := by
  decide

/-- C5 (amended). If the addresses packed in the current batch are pairwise
distinct, no two chunks delivered by one `handleWantedHashesMsg` carry the same
address (whatever `Want` is, and whether or not the handler ends in an error). -/
theorem deliveries_distinct (env : ServerEnv) (p : Peer) (req : WantedHashesMsg) (s : Server)
    (hs : p.getServer req.Stream = .ok s)
    (hinj : ∀ i j, i < s.currentBatch.length / HashSize → j < s.currentBatch.length / HashSize →
      hashAt s.currentBatch i = hashAt s.currentBatch j → i = j) :
    ((handleWantedHashesMsg env p req).delivered.map (fun d => d.1.Addr)).Nodup := by
  simp only [handleWantedHashesMsg, hs]
  cases hw : BitVector.NewFromBytes req.Want (s.currentBatch.length / HashSize) with
  | error e => simp
  | ok want =>
    obtain ⟨out, h1, h2⟩ := wantedLoop_sub env s want s.currentBatch
      (s.currentBatch.length / HashSize) (s.currentBatch.length / HashSize) 0 []
    simp only [h1, List.nil_append, Nat.sub_zero] at h2 ⊢
    exact List.Nodup.sublist h2 (hashAt_nodup _ _ hinj)


/-- C5 (amended), at a concrete input: three distinct addresses. -/
theorem deliveries_distinct_witness :
    ((handleWantedHashesMsg exServerEnv exPeer exWanted).delivered.map
      (fun d => d.1.Addr)).Nodup :=
  deliveries_distinct exServerEnv exPeer exWanted exServer (by rfl) (by
    have h3 : exServer.currentBatch.length / HashSize = 3 := by decide
    rw [h3]
    intro i j hi hj
    interval_cases i <;> interval_cases j <;> decide)
/-! ## C6 to C10: `SetNextBatch` -/

theorem getLast_cons_getD {α β : Type} (x : α) (l : List α) (g : α → β) (d : β) :
    ((x :: l).getLast?.map g).getD d = (l.getLast?.map g).getD (g x) := by
  cases l with
  | nil => simp
  | cons y l => rw [List.getLast?_cons_cons]; simp [List.getLast?_cons]

theorem runIterator_eq : ∀ (items : List (List Nat × Nat)) (v : BatchVars), v.i < BatchSize →
    runIterator items v =
      { batch := v.batch ++ packed (items.take (BatchSize - v.i)),
        i := v.i + (items.take (BatchSize - v.i)).length,
        to_ := ((items.take (BatchSize - v.i)).getLast?.map Prod.snd).getD v.to_ } := by
  intro items
  induction items with
  | nil => intro v _; simp [runIterator, packed]
  | cons x rest ih =>
    intro v hv
    obtain ⟨a, idx⟩ := x
    have hm : BatchSize - v.i = (BatchSize - (v.i + 1)) + 1 := by omega
    rw [hm, List.take_succ_cons, getLast_cons_getD]
    simp only [runIterator, yieldHash]
    by_cases h : v.i + 1 < BatchSize
    · simp only [h, decide_True, if_true]
      rw [ih _ h]
      simp [packed, Nat.add_assoc, Nat.add_comm 1]
    · have h0 : BatchSize - (v.i + 1) = 0 := by omega
      simp [h, h0, packed]

theorem packed_length (ys : List (List Nat × Nat)) (h : ∀ it ∈ ys, it.1.length = HashSize) :
    (packed ys).length = ys.length * HashSize := by
  induction ys with
  | nil => simp [packed]
  | cons y ys ih =>
    have h1 := h y (List.mem_cons_self _ _)
    have h2 := ih (fun it hit => h it (List.mem_cons_of_mem _ hit))
    simp only [packed, List.map_cons, List.flatten_cons, List.length_append, List.length_cons] at h2 ⊢
    rw [h1, h2]; ring

theorem pollLoop_spec (s : SwarmSyncerServer) (f t : Nat) :
    ∀ (rounds : List Round),
      (∀ r ∈ rounds, ∀ it ∈ (r.iter f t s.po).items, it.1.length = HashSize) →
    ∀ (wait : Bool) (calls : List (Nat × Nat × Nat)),
      (∃ n, (pollLoop s f rounds wait { batch := [], i := 0, to_ := t } calls).calls
          = calls ++ List.replicate n (f, t, s.po)) ∧
      ((pollLoop s f rounds wait { batch := [], i := 0, to_ := t } calls).ret = none ∧
          (∀ r ∈ waitedRounds wait rounds, r.quit = false) ∧
          (∀ r ∈ rounds, (r.iter f t s.po).items = [] ∧ (r.iter f t s.po).err = none)
        ∨ (∃ e, (pollLoop s f rounds wait { batch := [], i := 0, to_ := t } calls).ret
              = some { hashes := [], from_ := 0, to_ := 0, proof := none, err := some e } ∧
            ∃ r ∈ rounds, (r.iter f t s.po).err = some e)
        ∨ ((pollLoop s f rounds wait { batch := [], i := 0, to_ := t } calls).ret
              = some { hashes := [], from_ := 0, to_ := 0, proof := none, err := none } ∧
            ∃ r ∈ waitedRounds wait rounds, r.quit = true)
        ∨ (∃ r ∈ rounds, (r.iter f t s.po).err = none ∧
            yielded (r.iter f t s.po).items ≠ [] ∧
            (pollLoop s f rounds wait { batch := [], i := 0, to_ := t } calls).ret
              = some { hashes := packed (yielded (r.iter f t s.po).items), from_ := f,
                       to_ := ((yielded (r.iter f t s.po).items).getLast?.map Prod.snd).getD t,
                       proof := none, err := none })) := by
  intro rounds
  induction rounds with
  | nil =>
    intro _ wait calls
    refine ⟨⟨0, by simp [pollLoop]⟩, Or.inl ⟨by simp [pollLoop], ?_, by simp⟩⟩
    cases wait <;> simp [waitedRounds]
  | cons r rs ih =>
    intro h32 wait calls
    have h32r := h32 r (List.mem_cons_self _ _)
    have h32rs : ∀ r ∈ rs, ∀ it ∈ (r.iter f t s.po).items, it.1.length = HashSize :=
      fun r' hr' => h32 r' (List.mem_cons_of_mem _ hr')
    unfold pollLoop
    cases hq : (wait && r.quit) with
    | true =>
      simp only [if_true]
      refine ⟨⟨0, by simp⟩, Or.inr (Or.inr (Or.inl ⟨by trivial, r, ?_, ?_⟩))⟩
      · simp only [Bool.and_eq_true] at hq
        simp [waitedRounds, hq.1]
      · simp only [Bool.and_eq_true] at hq
        exact hq.2
    | false =>
        simp only [Bool.false_eq_true, if_false]
        have hrun := runIterator_eq (r.iter f t s.po).items { batch := [], i := 0, to_ := t }
          (show (0 : Nat) < BatchSize by decide)
        simp only [Nat.sub_zero, List.nil_append, Nat.zero_add] at hrun
        cases herr : (r.iter f t s.po).err with
        | some e =>
          refine ⟨⟨1, by simp⟩, Or.inr (Or.inl ⟨e, by simp, r, List.mem_cons_self _ _, herr⟩)⟩
        | none =>
          by_cases hb : (runIterator (r.iter f t s.po).items { batch := [], i := 0, to_ := t }).batch.length > 0
          · simp only [hb, if_true]
            refine ⟨⟨1, by simp⟩, Or.inr (Or.inr (Or.inr ⟨r, List.mem_cons_self _ _, herr, ?_, ?_⟩))⟩
            · intro hy
              rw [hrun] at hb
              simp only [yielded] at hy
              simp [hy, packed] at hb
            · rw [hrun]; rfl
          · have hitems : (r.iter f t s.po).items = [] := by
              cases hi : (r.iter f t s.po).items with
              | nil => rfl
              | cons x xs =>
                exfalso
                apply hb
                rw [hrun, hi]
                have hx : x.1.length = HashSize := h32r x (by rw [hi]; exact List.mem_cons_self _ _)
                simp only [BatchSize, List.take_succ_cons, packed, List.map_cons, List.flatten_cons,
                  List.length_append, hx, HashSize]
                omega
            have hv : runIterator (r.iter f t s.po).items { batch := [], i := 0, to_ := t }
                = { batch := [], i := 0, to_ := t } := by
              rw [hitems]; rfl
            simp only [hv, List.length_nil, gt_iff_lt, lt_self_iff_false, if_false]
            obtain ⟨⟨n, hn⟩, hcases⟩ := ih h32rs true (calls ++ [(f, t, s.po)])
            refine ⟨⟨n + 1, by rw [hn]; simp [List.replicate_succ]⟩, ?_⟩
            rcases hcases with ⟨h1, h2, h3⟩ | ⟨e, h1, r', hr', h2⟩ | ⟨h1, r', hr', h2⟩ |
              ⟨r', hr', h1, h2, h3⟩
            · refine Or.inl ⟨h1, ?_, ?_⟩
              · intro r' hr'
                cases wait with
                | false => exact h2 r' (by simpa [waitedRounds] using hr')
                | true =>
                  simp only [waitedRounds, if_true, List.mem_cons] at hr'
                  rcases hr' with rfl | hr'
                  · simpa using hq
                  · exact h2 r' (by simpa [waitedRounds] using hr')
              · intro r' hr'
                simp only [List.mem_cons] at hr'
                rcases hr' with rfl | hr'
                · exact ⟨hitems, herr⟩
                · exact h3 r' hr'
            · exact Or.inr (Or.inl ⟨e, h1, r', List.mem_cons_of_mem _ hr', h2⟩)
            · refine Or.inr (Or.inr (Or.inl ⟨h1, r', ?_, h2⟩))
              simp only [waitedRounds, if_true] at hr'
              cases wait <;> simp [waitedRounds, hr']
            · exact Or.inr (Or.inr (Or.inr ⟨r', List.mem_cons_of_mem _ hr', h1, h2, h3⟩))

theorem effTo_cases (s : SwarmSyncerServer) (f t : Nat) :
    effTo s f t = MaxUint64 ∨ effTo s f t = t := by
  unfold effTo; split <;> simp

theorem last_bound : ∀ (l : List (List Nat × Nat)) (d : Nat),
    l.Pairwise (fun a b => a.2 < b.2) →
    ∀ it ∈ l, it.2 ≤ (l.getLast?.map Prod.snd).getD d := by
  intro l
  induction l with
  | nil => intro d _ it hit; simp at hit
  | cons x l ih =>
    intro d hp it hit
    rw [getLast_cons_getD]
    rw [List.pairwise_cons] at hp
    rcases List.mem_cons.1 hit with rfl | hit
    · cases l with
      | nil => simp
      | cons y l =>
        have h1 := ih it.2 hp.2 y (List.mem_cons_self _ _)
        have h2 := hp.1 y (List.mem_cons_self _ _)
        omega
    · exact ih x.2 hp.2 it hit

theorem SetNextBatch_batch (s : SwarmSyncerServer) (from_ to_ : Nat) (rounds : List Round)
    (ret : BatchReturn) (h32 : Addresses32 rounds)
    (hret : (s.SetNextBatch from_ to_ rounds).ret = some ret) (hne : ret.hashes ≠ []) :
    ∃ r ∈ rounds,
      ret.hashes = packed (yielded
        (r.iter (effFrom s from_) (effTo s (effFrom s from_) to_) s.po).items) ∧
      ret.from_ = effFrom s from_ ∧
      ret.to_ = ((yielded (r.iter (effFrom s from_)
          (effTo s (effFrom s from_) to_) s.po).items).getLast?.map Prod.snd).getD
            (effTo s (effFrom s from_) to_) ∧
      yielded (r.iter (effFrom s from_) (effTo s (effFrom s from_) to_) s.po).items ≠ [] := by
  obtain ⟨_, h⟩ := pollLoop_spec s (effFrom s from_) (effTo s (effFrom s from_) to_) rounds
    (fun r hr it hit => h32 r hr _ _ _ it hit) false []
  have hret' : (pollLoop s (effFrom s from_) rounds false
      { batch := [], i := 0, to_ := effTo s (effFrom s from_) to_ } []).ret = some ret := hret
  rcases h with ⟨h, _⟩ | ⟨e, h, _⟩ | ⟨h, _⟩ | ⟨r, hr, herr, hy, h⟩
  · rw [h] at hret'; exact absurd hret' (by simp)
  · rw [h] at hret'; simp only [Option.some.injEq] at hret'; subst hret'; exact absurd rfl hne
  · rw [h] at hret'; simp only [Option.some.injEq] at hret'; subst hret'; exact absurd rfl hne
  · rw [h] at hret'; simp only [Option.some.injEq] at hret'; subst hret'
    exact ⟨r, hr, rfl, rfl, rfl, hy⟩

theorem storeRound_addresses (entries : List (List Nat × Nat))
    (h : ∀ e ∈ entries, e.1.length = HashSize) : Addresses32 [storeRound entries] := by
  intro r hr f t po it hit
  simp only [List.mem_singleton] at hr
  subst hr
  exact h it (List.mem_of_mem_filter hit)

theorem storeRound_inRange (entries : List (List Nat × Nat)) :
    IteratorInRange [storeRound entries] := by
  intro r hr f t po it hit
  simp only [List.mem_singleton] at hr
  subst hr
  simpa using (List.mem_filter.1 hit).2

theorem storeRound_increasing (entries : List (List Nat × Nat))
    (h : entries.Pairwise (fun a b => a.2 < b.2)) : IteratorIncreasing [storeRound entries] := by
  intro r hr f t po
  simp only [List.mem_singleton] at hr
  subst hr
  exact List.Pairwise.sublist (List.filter_sublist _) h

theorem exEntries_addresses : Addresses32 [storeRound exEntries] :=
  storeRound_addresses exEntries (by decide)

theorem exEntries_increasing : IteratorIncreasing [storeRound exEntries] :=
  storeRound_increasing exEntries (by decide)

theorem pollLoop_from (s : SwarmSyncerServer) (f : Nat) :
    ∀ (rounds : List Round) (wait : Bool) (v : BatchVars) (calls : List (Nat × Nat × Nat)),
      (∃ rest, (pollLoop s f rounds wait v calls).calls = calls ++ rest ∧
        (∀ c ∈ rest, c.1 = f) ∧
        (wait = false → rounds ≠ [] → rest.head? = some (f, v.to_, s.po))) ∧
      (∀ ret, (pollLoop s f rounds wait v calls).ret = some ret → ret.hashes ≠ [] →
        ret.from_ = f) := by
  intro rounds
  induction rounds with
  | nil =>
    intro wait v calls
    exact ⟨⟨[], by simp [pollLoop], by simp, by simp⟩, by simp [pollLoop]⟩
  | cons r rs ih =>
    intro wait v calls
    unfold pollLoop
    cases hq : (wait && r.quit) with
    | true =>
      simp only [if_true]
      refine ⟨⟨[], by simp, by simp, ?_⟩, ?_⟩
      · intro hw; rw [hw] at hq; simp at hq
      · intro ret hret hne
        simp only [Option.some.injEq] at hret
        subst hret
        exact absurd rfl hne
    | false =>
      simp only [Bool.false_eq_true, if_false]
      cases herr : (r.iter f v.to_ s.po).err with
      | some e =>
        refine ⟨⟨[(f, v.to_, s.po)], by simp, by simp, by simp⟩, ?_⟩
        intro ret hret hne
        simp only [Option.some.injEq] at hret
        subst hret
        exact absurd rfl hne
      | none =>
        by_cases hb : (runIterator (r.iter f v.to_ s.po).items v).batch.length > 0
        · simp only [hb, if_true]
          refine ⟨⟨[(f, v.to_, s.po)], by simp, by simp, by simp⟩, ?_⟩
          intro ret hret _
          simp only [Option.some.injEq] at hret
          subst hret
          rfl
        · simp only [hb, if_false]
          obtain ⟨⟨rest, h1, h2, _⟩, h4⟩ :=
            ih true (runIterator (r.iter f v.to_ s.po).items v) (calls ++ [(f, v.to_, s.po)])
          refine ⟨⟨(f, v.to_, s.po) :: rest, by rw [h1]; simp, ?_, by simp⟩, h4⟩
          intro c hc
          rcases List.mem_cons.1 hc with rfl | hc
          · rfl
          · exact h2 c hc

/-- C6. With a store that yields 32-byte addresses, a `SetNextBatch` call over any
rounds of polling either is still polling (then no round has shown a hash, an
error or a closed endpoint), or has ended in exactly one of three ways: with the
iterator's error (no batch); with the empty batch, `from' = to' = 0` and no
error, the endpoint having been closed in a waiting round; or with no error and
a non-empty batch that is the concatenation, in iteration order, of the
addresses yielded by one iterator call, `len(hashes) % 32 = 0` and
`1 ≤ len(hashes)/32 ≤ BatchSize`. -/
theorem SetNextBatch_outcomes (s : SwarmSyncerServer) (from_ to_ : Nat) (rounds : List Round)
    (h32 : Addresses32 rounds) :
    ((s.SetNextBatch from_ to_ rounds).ret = none ∧
        (∀ r ∈ rounds.tail, r.quit = false) ∧
        (∀ r ∈ rounds,
          (r.iter (effFrom s from_) (effTo s (effFrom s from_) to_) s.po).items = [] ∧
          (r.iter (effFrom s from_) (effTo s (effFrom s from_) to_) s.po).err = none))
    ∨ (∃ e, (s.SetNextBatch from_ to_ rounds).ret
          = some { hashes := [], from_ := 0, to_ := 0, proof := none, err := some e } ∧
        ∃ r ∈ rounds,
          (r.iter (effFrom s from_) (effTo s (effFrom s from_) to_) s.po).err = some e)
    ∨ ((s.SetNextBatch from_ to_ rounds).ret
          = some { hashes := [], from_ := 0, to_ := 0, proof := none, err := none } ∧
        ∃ r ∈ rounds.tail, r.quit = true)
    ∨ (∃ r ∈ rounds, ∃ ret, (s.SetNextBatch from_ to_ rounds).ret = some ret ∧
        ret.err = none ∧
        ret.hashes = packed (yielded
          (r.iter (effFrom s from_) (effTo s (effFrom s from_) to_) s.po).items) ∧
        ret.hashes.length % HashSize = 0 ∧
        1 ≤ ret.hashes.length / HashSize ∧ ret.hashes.length / HashSize ≤ BatchSize) := by
  obtain ⟨_, h⟩ := pollLoop_spec s (effFrom s from_) (effTo s (effFrom s from_) to_) rounds
    (fun r hr it hit => h32 r hr _ _ _ it hit) false []
  rcases h with h | h | h | ⟨r, hr, herr, hy, hret⟩
  · exact Or.inl h
  · exact Or.inr (Or.inl h)
  · exact Or.inr (Or.inr (Or.inl h))
  · refine Or.inr (Or.inr (Or.inr ⟨r, hr, _, hret, rfl, rfl, ?_⟩))
    have hlen := packed_length
      (yielded (r.iter (effFrom s from_) (effTo s (effFrom s from_) to_) s.po).items)
      (fun it hit => h32 r hr _ _ _ it (List.mem_of_mem_take hit))
    have hpos : 1 ≤ (yielded
        (r.iter (effFrom s from_) (effTo s (effFrom s from_) to_) s.po).items).length := by
      cases hyy : yielded (r.iter (effFrom s from_) (effTo s (effFrom s from_) to_) s.po).items with
      | nil => exact absurd hyy hy
      | cons _ _ => simp
    have hle : (yielded
        (r.iter (effFrom s from_) (effTo s (effFrom s from_) to_) s.po).items).length
          ≤ BatchSize := by
      simp only [yielded, List.length_take]; exact Nat.min_le_left _ _
    simp only [hlen]
    refine ⟨Nat.mul_mod_left _ _, ?_, ?_⟩
    · rw [Nat.mul_div_cancel _ (by decide : 0 < HashSize)]; exact hpos
    · rw [Nat.mul_div_cancel _ (by decide : 0 < HashSize)]; exact hle

/-- C6, at a concrete input: a historical server asked for `(1, 3)` on a store
of five chunks. -/
theorem SetNextBatch_outcomes_witness :
    Addresses32 [storeRound exEntries] ∧
    (((histServer.SetNextBatch 1 3 [storeRound exEntries]).ret = none ∧
        (∀ r ∈ [storeRound exEntries].tail, r.quit = false) ∧
        (∀ r ∈ [storeRound exEntries],
          (r.iter (effFrom histServer 1) (effTo histServer (effFrom histServer 1) 3)
            histServer.po).items = [] ∧
          (r.iter (effFrom histServer 1) (effTo histServer (effFrom histServer 1) 3)
            histServer.po).err = none))
    ∨ (∃ e, (histServer.SetNextBatch 1 3 [storeRound exEntries]).ret
          = some { hashes := [], from_ := 0, to_ := 0, proof := none, err := some e } ∧
        ∃ r ∈ [storeRound exEntries],
          (r.iter (effFrom histServer 1) (effTo histServer (effFrom histServer 1) 3)
            histServer.po).err = some e)
    ∨ ((histServer.SetNextBatch 1 3 [storeRound exEntries]).ret
          = some { hashes := [], from_ := 0, to_ := 0, proof := none, err := none } ∧
        ∃ r ∈ [storeRound exEntries].tail, r.quit = true)
    ∨ (∃ r ∈ [storeRound exEntries], ∃ ret,
        (histServer.SetNextBatch 1 3 [storeRound exEntries]).ret = some ret ∧
        ret.err = none ∧
        ret.hashes = packed (yielded
          (r.iter (effFrom histServer 1) (effTo histServer (effFrom histServer 1) 3)
            histServer.po).items) ∧
        ret.hashes.length % HashSize = 0 ∧
        1 ≤ ret.hashes.length / HashSize ∧ ret.hashes.length / HashSize ≤ BatchSize)) :=
  ⟨exEntries_addresses,
    SetNextBatch_outcomes histServer 1 3 [storeRound exEntries] exEntries_addresses⟩

/-- C7, as stated, fails: a historical server asked for `(1, 3)` on a store
whose iterator stays inside `[1, 3)` in increasing order returns the hashes of
indices 1 and 2 with `from' = 1` and `to' = 2`; the hash of index 2 is not
strictly below `to'`. -/
theorem half_open_counterexample :
    IteratorInRange [storeRound exEntries] ∧ IteratorIncreasing [storeRound exEntries] ∧
    (histServer.SetNextBatch 1 3 [storeRound exEntries]).ret
      = some { hashes := exHash 1 ++ exHash 2, from_ := 1, to_ := 2,
               proof := none, err := none } ∧
    yielded ((storeRound exEntries).iter (effFrom histServer 1)
      (effTo histServer (effFrom histServer 1) 3) histServer.po).items
      = [(exHash 1, 1), (exHash 2, 2)] ∧
    ¬ (∀ it ∈ [(exHash 1, 1), (exHash 2, 2)], 1 ≤ it.2 ∧ it.2 < 2) :=
  ⟨storeRound_inRange exEntries, exEntries_increasing, by decide, by decide, by decide⟩

/-- C7 (amended). Batch coordinates are closed: when `SetNextBatch` returns a
non-empty batch `(hashes, from', to')`, the store yielding 32-byte addresses,
only indices inside the range asked for and in increasing order, the batch packs
the entries yielded by one iterator call, every one of them has a local index
`idx` with `from' ≤ idx ≤ to'`, and `to'` is the index of one of them. -/
theorem batch_indices_closed (s : SwarmSyncerServer) (from_ to_ : Nat) (rounds : List Round)
    (ret : BatchReturn) (h32 : Addresses32 rounds) (hrange : IteratorInRange rounds)
    (hincr : IteratorIncreasing rounds)
    (hret : (s.SetNextBatch from_ to_ rounds).ret = some ret) (hne : ret.hashes ≠ []) :
    ∃ r ∈ rounds,
      ret.hashes = packed (yielded
        (r.iter (effFrom s from_) (effTo s (effFrom s from_) to_) s.po).items) ∧
      (∀ it ∈ yielded (r.iter (effFrom s from_) (effTo s (effFrom s from_) to_) s.po).items,
        ret.from_ ≤ it.2 ∧ it.2 ≤ ret.to_) ∧
      ∃ it ∈ yielded (r.iter (effFrom s from_) (effTo s (effFrom s from_) to_) s.po).items,
        it.2 = ret.to_ := by
  obtain ⟨r, hr, hh, hf, ht, hy⟩ := SetNextBatch_batch s from_ to_ rounds ret h32 hret hne
  refine ⟨r, hr, hh, ?_, ?_⟩
  · intro it hit
    refine ⟨?_, ?_⟩
    · rw [hf]; exact (hrange r hr _ _ _ it (List.mem_of_mem_take hit)).1
    · rw [ht]
      exact last_bound _ _ (List.Pairwise.sublist (List.take_sublist _ _) (hincr r hr _ _ _)) it hit
  · cases hl : (yielded (r.iter (effFrom s from_)
        (effTo s (effFrom s from_) to_) s.po).items).getLast? with
    | none => exact absurd (List.getLast?_eq_none_iff.1 hl) hy
    | some last =>
      exact ⟨last, List.mem_of_getLast?_eq_some hl, by rw [ht, hl]; rfl⟩


/-- C7 (amended), at a concrete input: the batch of indices 1 and 2. -/
theorem batch_indices_closed_witness :
    ∃ r ∈ [storeRound exEntries],
      exHash 1 ++ exHash 2 = packed (yielded
        (r.iter (effFrom histServer 1) (effTo histServer (effFrom histServer 1) 3)
          histServer.po).items) ∧
      (∀ it ∈ yielded (r.iter (effFrom histServer 1)
          (effTo histServer (effFrom histServer 1) 3) histServer.po).items,
        1 ≤ it.2 ∧ it.2 ≤ 2) ∧
      ∃ it ∈ yielded (r.iter (effFrom histServer 1)
          (effTo histServer (effFrom histServer 1) 3) histServer.po).items,
        it.2 = 2 :=
  batch_indices_closed histServer 1 3 [storeRound exEntries]
    { hashes := exHash 1 ++ exHash 2, from_ := 1, to_ := 2, proof := none, err := none }
    exEntries_addresses (storeRound_inRange exEntries) exEntries_increasing
    (by decide) (by decide)

/-- C8, as stated, fails: a historical server (`sessionAt = 3`) asked for
`(0, 0)`, so that `to ≤ from`, returns the five hashes of the store with
`to' = 4`, the index of the last one, and not `MaxUint64`. -/
theorem returned_to_counterexample :
    NewSwarmSyncerServer false 0 (fun _ => 3) = .ok histServer ∧
    (0 ≤ effFrom histServer 0) ∧
    (histServer.SetNextBatch 0 0 [storeRound exEntries]).ret
      = some { hashes := exHash 0 ++ exHash 1 ++ exHash 2 ++ exHash 3 ++ exHash 4,
               from_ := 0, to_ := 4, proof := none, err := none } ∧
    4 ≠ MaxUint64 := by
  refine ⟨by rfl, by decide, ?_, by decide⟩
  set_option maxRecDepth 100000 in decide

/-- C8 (amended). When, after `from = 0` has been replaced by the server's
start, `to ≤ from` or `from ≥ sessionAt`, every call of the store iterator is
made with the upper bound `MaxUint64`; a non-empty batch is returned with `to'`
equal to the index of the last hash it holds. -/
theorem open_window_queries_MaxUint64 (s : SwarmSyncerServer) (from_ to_ : Nat)
    (rounds : List Round) (h32 : Addresses32 rounds)
    (hcond : to_ ≤ effFrom s from_ ∨ effFrom s from_ ≥ s.sessionAt) :
    (∀ c ∈ (s.SetNextBatch from_ to_ rounds).calls, c = (effFrom s from_, MaxUint64, s.po)) ∧
    ∀ ret, (s.SetNextBatch from_ to_ rounds).ret = some ret → ret.hashes ≠ [] →
      ∃ r ∈ rounds, ∃ last,
        (yielded (r.iter (effFrom s from_) MaxUint64 s.po).items).getLast? = some last ∧
        ret.hashes = packed (yielded (r.iter (effFrom s from_) MaxUint64 s.po).items) ∧
        ret.to_ = last.2 := by
  have ht : effTo s (effFrom s from_) to_ = MaxUint64 := by
    unfold effTo; simp [hcond]
  constructor
  · obtain ⟨⟨n, hn⟩, _⟩ := pollLoop_spec s (effFrom s from_) (effTo s (effFrom s from_) to_) rounds
      (fun r hr it hit => h32 r hr _ _ _ it hit) false []
    intro c hc
    have hcalls : (s.SetNextBatch from_ to_ rounds).calls
        = [] ++ List.replicate n (effFrom s from_, effTo s (effFrom s from_) to_, s.po) := hn
    rw [hcalls, ht] at hc
    simp only [List.nil_append] at hc
    exact List.eq_of_mem_replicate hc
  · intro ret hret hne
    obtain ⟨r, hr, hh, _, hto, hy⟩ := SetNextBatch_batch s from_ to_ rounds ret h32 hret hne
    rw [ht] at hh hto hy
    cases hl : (yielded (r.iter (effFrom s from_) MaxUint64 s.po).items).getLast? with
    | none => exact absurd (List.getLast?_eq_none_iff.1 hl) hy
    | some last => exact ⟨r, hr, last, hl, hh, by rw [hto, hl]; rfl⟩

/-- C8 (amended), at a concrete input: the request `(0, 0)`. -/
theorem open_window_queries_MaxUint64_witness :
    (∀ c ∈ (histServer.SetNextBatch 0 0 [storeRound exEntries]).calls,
      c = (effFrom histServer 0, MaxUint64, histServer.po)) ∧
    ∀ ret, (histServer.SetNextBatch 0 0 [storeRound exEntries]).ret = some ret →
      ret.hashes ≠ [] →
      ∃ r ∈ [storeRound exEntries], ∃ last,
        (yielded (r.iter (effFrom histServer 0) MaxUint64 histServer.po).items).getLast?
          = some last ∧
        ret.hashes = packed (yielded (r.iter (effFrom histServer 0) MaxUint64
          histServer.po).items) ∧
        ret.to_ = last.2 :=
  open_window_queries_MaxUint64 histServer 0 0 [storeRound exEntries] exEntries_addresses
    (Or.inl (by decide))

/-- C9. `NewSwarmSyncerServer(live, po, db)` never fails and records
`sessionAt = db.CurrentBucketStorageIndex(po)` and `start = sessionAt` if `live`,
`0` otherwise.  For the server it returns, every store iterator call of
`SetNextBatch(from, to)` starts at `start` when `from = 0` and at `from`
otherwise, the first round makes such a call, and a non-empty batch is returned
with that same value as `from'`. -/
theorem constructor_fixes_start (live : Bool) (po : Nat) (currentIndex : Nat → Nat) :
    ∃ s, NewSwarmSyncerServer live po currentIndex = .ok s ∧
      s.po = po ∧ s.sessionAt = currentIndex po ∧
      s.start = (if live then currentIndex po else 0) ∧
      ∀ (from_ to_ : Nat) (rounds : List Round),
        (∀ c ∈ (s.SetNextBatch from_ to_ rounds).calls,
          c.1 = if from_ = 0 then s.start else from_) ∧
        (rounds ≠ [] → (s.SetNextBatch from_ to_ rounds).calls.head?
          = some ((if from_ = 0 then s.start else from_),
                  effTo s (if from_ = 0 then s.start else from_) to_, po)) ∧
        (∀ ret, (s.SetNextBatch from_ to_ rounds).ret = some ret → ret.hashes ≠ [] →
          ret.from_ = if from_ = 0 then s.start else from_) := by
  refine ⟨_, rfl, rfl, rfl, rfl, ?_⟩
  intro from_ to_ rounds
  obtain ⟨⟨rest, h1, h2, h3⟩, h4⟩ := pollLoop_from
    { po := po, sessionAt := currentIndex po, start := if live then currentIndex po else 0 }
    (effFrom { po := po, sessionAt := currentIndex po,
               start := if live then currentIndex po else 0 } from_)
    rounds false
    { batch := [], i := 0,
      to_ := effTo { po := po, sessionAt := currentIndex po,
                     start := if live then currentIndex po else 0 }
        (effFrom { po := po, sessionAt := currentIndex po,
                   start := if live then currentIndex po else 0 } from_) to_ } []
  simp only [List.nil_append] at h1
  refine ⟨?_, ?_, ?_⟩
  · intro c hc
    have : c ∈ rest := by rw [← h1]; exact hc
    exact h2 c this
  · intro hne
    have := h3 rfl hne
    rw [← h1] at this
    exact this
  · exact h4

/-- C10, as stated, fails: the historical server created at `sessionAt = 3` and
asked for `(1, 5)`, on a store whose iterator stays inside `[1, 5)`, returns the
hashes of indices 1 to 4; those of indices 3 and 4 are not below `sessionAt`. -/
theorem historical_bound_counterexample :
    NewSwarmSyncerServer false 0 (fun _ => 3) = .ok histServer ∧
    IteratorInRange [storeRound exEntries] ∧
    (histServer.SetNextBatch 1 5 [storeRound exEntries]).ret
      = some { hashes := exHash 1 ++ exHash 2 ++ exHash 3 ++ exHash 4,
               from_ := 1, to_ := 4, proof := none, err := none } ∧
    yielded ((storeRound exEntries).iter (effFrom histServer 1)
      (effTo histServer (effFrom histServer 1) 5) histServer.po).items
      = [(exHash 1, 1), (exHash 2, 2), (exHash 3, 3), (exHash 4, 4)] ∧
    ¬ (∀ it ∈ [(exHash 1, 1), (exHash 2, 2), (exHash 3, 3), (exHash 4, 4)],
        it.2 < histServer.sessionAt) := by
  refine ⟨by rfl, storeRound_inRange exEntries, ?_, by decide, by decide⟩
  set_option maxRecDepth 100000 in decide

/-- C10 (amended). For a request `(from, to)` with `from < to ≤ sessionAt`
(`from` after `0` has been replaced by the server's start; for a historical
server the start is `0`), the store yielding 32-byte addresses and only indices
in the range `[from, to)` it is asked for, every hash of a non-empty batch
returned by `SetNextBatch` has a local index strictly smaller than `sessionAt`. -/
theorem bounded_window_below_sessionAt (s : SwarmSyncerServer) (from_ to_ : Nat)
    (rounds : List Round) (ret : BatchReturn) (h32 : Addresses32 rounds)
    (hrange : IteratorInRange rounds)
    (hwin : effFrom s from_ < to_) (hto : to_ ≤ s.sessionAt)
    (hret : (s.SetNextBatch from_ to_ rounds).ret = some ret) (hne : ret.hashes ≠ []) :
    ∃ r ∈ rounds,
      ret.hashes = packed (yielded (r.iter (effFrom s from_) to_ s.po).items) ∧
      ∀ it ∈ yielded (r.iter (effFrom s from_) to_ s.po).items, it.2 < s.sessionAt := by
  have ht : effTo s (effFrom s from_) to_ = to_ := by
    unfold effTo
    have : ¬ (to_ ≤ effFrom s from_ ∨ effFrom s from_ ≥ s.sessionAt) := by omega
    simp [this]
  obtain ⟨r, hr, hh, _, _, _⟩ := SetNextBatch_batch s from_ to_ rounds ret h32 hret hne
  rw [ht] at hh
  refine ⟨r, hr, hh, ?_⟩
  intro it hit
  have := (hrange r hr _ _ _ it (List.mem_of_mem_take hit)).2
  omega

/-- C10 (amended), at a concrete input: the request `(1, 3)`, `sessionAt = 3`. -/
theorem bounded_window_below_sessionAt_witness :
    ∃ r ∈ [storeRound exEntries],
      exHash 1 ++ exHash 2
        = packed (yielded (r.iter (effFrom histServer 1) 3 histServer.po).items) ∧
      ∀ it ∈ yielded (r.iter (effFrom histServer 1) 3 histServer.po).items,
        it.2 < histServer.sessionAt :=
  bounded_window_below_sessionAt histServer 1 3 [storeRound exEntries]
    { hashes := exHash 1 ++ exHash 2, from_ := 1, to_ := 2, proof := none, err := none }
    exEntries_addresses (storeRound_inRange exEntries) (by decide) (by decide)
    (by decide) (by decide)

/-! ## C11: the batches of a live server -/

/-- C11, as stated, fails: the live server created at `sessionAt = 3` and asked
for `(1, 3)`, on a store whose iterator stays inside `[1, 3)`, returns the hashes
of indices 1 and 2, which are below `sessionAt`. -/
theorem live_bound_counterexample :
    NewSwarmSyncerServer true 0 (fun _ => 3) = .ok liveServer ∧
    IteratorInRange [storeRound exEntries] ∧
    (liveServer.SetNextBatch 1 3 [storeRound exEntries]).ret
      = some { hashes := exHash 1 ++ exHash 2, from_ := 1, to_ := 2,
               proof := none, err := none } ∧
    yielded ((storeRound exEntries).iter (effFrom liveServer 1)
      (effTo liveServer (effFrom liveServer 1) 3) liveServer.po).items
      = [(exHash 1, 1), (exHash 2, 2)] ∧
    ¬ (∀ it ∈ [(exHash 1, 1), (exHash 2, 2)], liveServer.sessionAt ≤ it.2) := by
  refine ⟨by rfl, storeRound_inRange exEntries, by decide, by decide, by decide⟩

/-- C11 (amended). For a live server and a request `(from, to)` with `from = 0`
or `from ≥ sessionAt`, the store yielding 32-byte addresses and only indices in
the range it is asked for, every hash of a non-empty batch returned by
`SetNextBatch` has a local index greater than or equal to `sessionAt`. -/
theorem live_window_from_sessionAt (po : Nat) (currentIndex : Nat → Nat)
    (s : SwarmSyncerServer) (from_ to_ : Nat) (rounds : List Round) (ret : BatchReturn)
    (hlive : NewSwarmSyncerServer true po currentIndex = .ok s)
    (h32 : Addresses32 rounds) (hrange : IteratorInRange rounds)
    (hfrom : from_ = 0 ∨ s.sessionAt ≤ from_)
    (hret : (s.SetNextBatch from_ to_ rounds).ret = some ret) (hne : ret.hashes ≠ []) :
    ∃ r ∈ rounds,
      ret.hashes = packed (yielded
        (r.iter (effFrom s from_) (effTo s (effFrom s from_) to_) s.po).items) ∧
      ∀ it ∈ yielded (r.iter (effFrom s from_) (effTo s (effFrom s from_) to_) s.po).items,
        s.sessionAt ≤ it.2 := by
  have hs : s.start = s.sessionAt := by
    simp only [NewSwarmSyncerServer, Except.ok.injEq] at hlive
    subst hlive
    simp
  have hf : s.sessionAt ≤ effFrom s from_ := by
    unfold effFrom
    split
    · rw [hs]
    · rename_i h0
      rcases hfrom with h | h
      · exact absurd h h0
      · exact h
  obtain ⟨r, hr, hh, _, _, _⟩ := SetNextBatch_batch s from_ to_ rounds ret h32 hret hne
  refine ⟨r, hr, hh, ?_⟩
  intro it hit
  have := (hrange r hr _ _ _ it (List.mem_of_mem_take hit)).1
  omega

/-- C11 (amended), at a concrete input: the request `(0, 0)` on the live server. -/
theorem live_window_from_sessionAt_witness :
    ∃ r ∈ [storeRound exEntries],
      exHash 3 ++ exHash 4 = packed (yielded
        (r.iter (effFrom liveServer 0) (effTo liveServer (effFrom liveServer 0) 0)
          liveServer.po).items) ∧
      ∀ it ∈ yielded (r.iter (effFrom liveServer 0)
          (effTo liveServer (effFrom liveServer 0) 0) liveServer.po).items,
        liveServer.sessionAt ≤ it.2 :=
  live_window_from_sessionAt 0 (fun _ => 3) liveServer 0 0 [storeRound exEntries]
    { hashes := exHash 3 ++ exHash 4, from_ := 3, to_ := 4, proof := none, err := none }
    (by rfl) exEntries_addresses (storeRound_inRange exEntries) (Or.inl rfl)
    (by decide) (by decide)

/-! ## C12: the reply built by `handleOfferedHashesMsg` -/

/-- C12. When `handleOfferedHashesMsg` accepts an offer `req`, `c.nextBatch` is
called once, on the client found (with `sessionAt` set to `req.From` for a live
stream) and with `req.To + 1` (in `uint64`); with `(from', to')` its result, no
`WantedHashesMsg` is scheduled if `from' = to'`, and otherwise the one scheduled
is `{Stream: req.Stream, Want: want.Bytes(), From: from', To: to'}`, to be sent
on the client's priority. -/
theorem next_window_reply {σ : Type} (env : ClientEnv σ) (store : σ) (req : OfferedHashesMsg)
    (r : OfferedResult σ) (h : handleOfferedHashesMsg env store req = .ok r) :
    r.nextBatchArg = (req.To + 1) % 2 ^ 64 ∧
    (∃ c, env.getOrSetClient req.Stream req.From req.To = .ok c ∧
      r.client = (if c.stream.Live then { c with sessionAt := req.From } else c)) ∧
    r.reply =
      (if (env.nextBatch r.client r.nextBatchArg).1 = (env.nextBatch r.client r.nextBatchArg).2
       then none
       else some ({ Stream := req.Stream, Want := r.want.Bytes,
                    From := (env.nextBatch r.client r.nextBatchArg).1,
                    To := (env.nextBatch r.client r.nextBatchArg).2 }, r.client.priority)) := by
  unfold handleOfferedHashesMsg at h
  cases hc : env.getOrSetClient req.Stream req.From req.To with
  | error e => simp [hc] at h
  | ok c =>
    cases hnew : BitVector.New (req.Hashes.length / HashSize) with
    | error e => simp [hc, hnew] at h
    | ok want =>
      cases hloop : offeredLoop env.NeedData req.Hashes (req.Hashes.length + 1) 0
          { store := store, want := want, calls := [], waiters := [] } with
      | err e => simp [hc, hnew, hloop] at h
      | crash => simp [hc, hnew, hloop] at h
      | ok st =>
        simp only [hc, hnew, hloop] at h
        by_cases hft : (env.nextBatch (if c.stream.Live = true then
              { c with sessionAt := req.From } else c) ((req.To + 1) % 2 ^ 64)).1 =
            (env.nextBatch (if c.stream.Live = true then
              { c with sessionAt := req.From } else c) ((req.To + 1) % 2 ^ 64)).2
        · rw [if_pos hft] at h
          simp only [Outcome.ok.injEq] at h
          subst h
          exact ⟨rfl, ⟨c, rfl, rfl⟩, by simp only [hft, if_true]⟩
        · rw [if_neg hft] at h
          simp only [Outcome.ok.injEq] at h
          subst h
          exact ⟨rfl, ⟨c, rfl, rfl⟩, by simp only [hft, if_false]⟩

/-- C12, at a concrete input: the offer of three hashes, next window `(4, 132)`. -/
theorem next_window_reply_witness :
    exOfferResult.nextBatchArg = (exOffer.To + 1) % 2 ^ 64 ∧
    (∃ c, exClientEnv.getOrSetClient exOffer.Stream exOffer.From exOffer.To = .ok c ∧
      exOfferResult.client = (if c.stream.Live then { c with sessionAt := exOffer.From } else c)) ∧
    exOfferResult.reply =
      (if (exClientEnv.nextBatch exOfferResult.client exOfferResult.nextBatchArg).1
          = (exClientEnv.nextBatch exOfferResult.client exOfferResult.nextBatchArg).2
       then none
       else some ({ Stream := exOffer.Stream, Want := exOfferResult.want.Bytes,
                    From := (exClientEnv.nextBatch exOfferResult.client
                      exOfferResult.nextBatchArg).1,
                    To := (exClientEnv.nextBatch exOfferResult.client
                      exOfferResult.nextBatchArg).2 }, exOfferResult.client.priority)) :=
  next_window_reply exClientEnv () exOffer exOfferResult (by rfl)

/-! ## C13, C14: the goroutines of `handleOfferedHashesMsg` -/

theorem loopSteps_no_goBatchDone : ∀ (cs : List (List Nat × Bool)) (k : Nat),
    HandlerStep.goBatchDone ∉ loopSteps k cs := by
  intro cs
  induction cs with
  | nil => intro k; simp [loopSteps]
  | cons c cs ih =>
    intro k
    obtain ⟨h, a⟩ := c
    cases a <;> simp [loopSteps, ih]

theorem loopSteps_no_goReply : ∀ (cs : List (List Nat × Bool)) (k : Nat) (m : WantedHashesMsg)
    (p : Nat), HandlerStep.goReply m p ∉ loopSteps k cs := by
  intro cs
  induction cs with
  | nil => intro k m p; simp [loopSteps]
  | cons c cs ih =>
    intro k m p
    obtain ⟨h, a⟩ := c
    cases a <;> simp [loopSteps, ih]

theorem loopSteps_goWaiter : ∀ (cs : List (List Nat × Bool)) (k i : Nat) (h : List Nat),
    cs[i]? = some (h, true) → HandlerStep.goWaiter (k + i) ∈ loopSteps k cs := by
  intro cs
  induction cs with
  | nil => intro k i h hc; simp at hc
  | cons c cs ih =>
    intro k i h hc
    obtain ⟨h0, a⟩ := c
    cases i with
    | zero =>
      simp only [List.getElem?_cons_zero, Option.some.injEq, Prod.mk.injEq] at hc
      obtain ⟨_, rfl⟩ := hc
      simp [loopSteps]
    | succ i =>
      simp only [List.getElem?_cons_succ] at hc
      have := ih (k + 1) i h hc
      rw [show k + (i + 1) = k + 1 + i by omega]
      cases a <;> simp [loopSteps, this]

theorem goReply_mem_handlerSteps {σ : Type} (r : OfferedResult σ) (m : WantedHashesMsg) (p : Nat)
    (h : HandlerStep.goReply m p ∈ handlerSteps r) : r.reply = some (m, p) := by
  unfold handlerSteps at h
  simp only [List.mem_append, List.mem_cons, List.mem_singleton, List.not_mem_nil, or_false,
    false_or, loopSteps_no_goReply, reduceCtorEq] at h
  cases hr : r.reply with
  | none => rw [hr] at h; simp at h
  | some mp =>
    obtain ⟨m', p'⟩ := mp
    rw [hr] at h
    simp only [List.mem_singleton, HandlerStep.goReply.injEq] at h
    rw [h.1, h.2]

theorem waiters_started {σ : Type} (r : OfferedResult σ) (done prog : List HandlerStep)
    (hsplit : handlerSteps r = done ++ prog) (hb : HandlerStep.goBatchDone ∈ done)
    (i : Nat) (h : List Nat) (hc : r.calls[i]? = some (h, true)) :
    HandlerStep.goWaiter i ∈ done := by
  have hw := loopSteps_goWaiter r.calls 0 i h hc
  rw [Nat.zero_add] at hw
  have hsteps : handlerSteps r = loopSteps 0 r.calls ++ (HandlerStep.goBatchDone ::
      (HandlerStep.nextBatch r.nextBatchArg :: ((match r.reply with
        | some (m, p) => [HandlerStep.goReply m p]
        | none => []) ++ [HandlerStep.ret]))) := by
    unfold handlerSteps
    rcases r.reply with _ | ⟨m, p⟩ <;> simp
  rw [hsteps] at hsplit
  rcases List.append_eq_append_iff.1 hsplit with ⟨a', h1, _⟩ | ⟨c', h1, _⟩
  · rw [h1]; exact List.mem_append_left _ hw
  · exfalso
    have : HandlerStep.goBatchDone ∈ loopSteps 0 r.calls := by
      rw [h1]; exact List.mem_append_left _ hb
    exact loopSteps_no_goBatchDone _ _ this

theorem sendPriority_mem_replyTask (msg : WantedHashesMsg) (prio : Nat) (sel : Selected)
    (sendErr : Option String) (m : WantedHashesMsg) (p : Nat)
    (h : PeerAction.sendPriority m p ∈ replyTask msg prio sel sendErr) :
    sel = .next none ∧ m = msg ∧ p = prio := by
  unfold replyTask at h
  cases sel with
  | timer => simp at h
  | quit => simp at h
  | next e =>
    cases e with
    | some e => simp at h
    | none =>
      cases sendErr with
      | none => simpa using h
      | some e => simpa using h

theorem runStep_inv {σ : Type} (r : OfferedResult σ) (st st1 : OfferRun)
    (done : List HandlerStep) (past : List RunEvent) (e : RunEvent)
    (hinv : RunInv r st done past) (hstep : runStep st e = some st1) :
    ∃ done1, RunInv r st1 done1 (past ++ [e]) := by
  obtain ⟨h1, h2, h3, h4, h5⟩ := hinv
  have h2' : ∀ i, HandlerStep.goWaiter i ∈ done →
      i ∈ st.wg ∨ RunEvent.waiterDone i ∈ past ++ [e] := by
    intro i hi
    rcases h2 i hi with h | h
    · exact Or.inl h
    · exact Or.inr (List.mem_append_left _ h)
  have h5' : ∀ m p, PeerAction.sendPriority m p ∈ st.actions →
      r.reply = some (m, p) ∧ ∃ se, RunEvent.reply (.next none) se ∈ past ++ [e] := by
    intro m p hm
    obtain ⟨ha, se, hse⟩ := h5 m p hm
    exact ⟨ha, se, List.mem_append_left _ hse⟩
  cases e with
  | handler =>
    simp only [runStep] at hstep
    cases hp : st.program with
    | nil => rw [hp] at hstep; simp at hstep
    | cons s rest =>
      rw [hp] at hstep h1
      have hsplit : handlerSteps r = (done ++ [s]) ++ rest := by rw [h1]; simp
      have hmem : s ∈ handlerSteps r := by rw [h1]; simp
      cases s with
      | goWaiter i =>
        simp only [Option.some.injEq] at hstep; subst hstep
        refine ⟨done ++ [.goWaiter i], hsplit, ?_, ?_, h4, h5'⟩
        · intro j hj
          rcases List.mem_append.1 hj with hj | hj
          · rcases h2' j hj with h | h
            · exact Or.inl (List.mem_cons_of_mem _ h)
            · exact Or.inr h
          · simp only [List.mem_singleton, HandlerStep.goWaiter.injEq] at hj
            subst hj; exact Or.inl (List.mem_cons_self _ _)
        · intro hb; exact List.mem_append_left _ (h3 hb)
      | goBatchDone =>
        simp only [Option.some.injEq] at hstep; subst hstep
        refine ⟨done ++ [.goBatchDone], hsplit, ?_, ?_, h4, h5'⟩
        · intro j hj
          rcases List.mem_append.1 hj with hj | hj
          · exact h2' j hj
          · simp at hj
        · intro _; simp
      | goReply m p =>
        simp only [Option.some.injEq] at hstep; subst hstep
        refine ⟨done ++ [.goReply m p], hsplit, ?_, ?_, ?_, h5'⟩
        · intro j hj
          rcases List.mem_append.1 hj with hj | hj
          · exact h2' j hj
          · simp at hj
        · intro hb; exact List.mem_append_left _ (h3 hb)
        · intro m' p' hmp
          simp only [Option.some.injEq, Prod.mk.injEq] at hmp
          obtain ⟨rfl, rfl⟩ := hmp
          exact goReply_mem_handlerSteps r _ _ hmem
      | needData i a =>
        simp only [Option.some.injEq] at hstep; subst hstep
        refine ⟨done ++ [.needData i a], hsplit, ?_, ?_, h4, h5'⟩
        · intro j hj
          rcases List.mem_append.1 hj with hj | hj
          · exact h2' j hj
          · simp at hj
        · intro hb; exact List.mem_append_left _ (h3 hb)
      | nextBatch a =>
        simp only [Option.some.injEq] at hstep; subst hstep
        refine ⟨done ++ [.nextBatch a], hsplit, ?_, ?_, h4, h5'⟩
        · intro j hj
          rcases List.mem_append.1 hj with hj | hj
          · exact h2' j hj
          · simp at hj
        · intro hb; exact List.mem_append_left _ (h3 hb)
      | ret =>
        simp only [Option.some.injEq] at hstep; subst hstep
        refine ⟨done ++ [.ret], hsplit, ?_, ?_, h4, h5'⟩
        · intro j hj
          rcases List.mem_append.1 hj with hj | hj
          · exact h2' j hj
          · simp at hj
        · intro hb; exact List.mem_append_left _ (h3 hb)
  | waiterDone i =>
    simp only [runStep] at hstep
    split_ifs at hstep with hi
    simp only [Option.some.injEq] at hstep; subst hstep
    refine ⟨done, h1, ?_, h3, h4, h5'⟩
    intro j hj
    by_cases hji : j = i
    · subst hji; exact Or.inr (by simp)
    · rcases h2' j hj with h | h
      · exact Or.inl ((List.mem_erase_of_ne hji).2 h)
      · exact Or.inr h
  | post v =>
    simp only [runStep] at hstep
    split_ifs at hstep with hi
    simp only [Option.some.injEq] at hstep; subst hstep
    exact ⟨done, h1, h2', by simp, h4, h5'⟩
  | batchDoneQuit =>
    simp only [runStep] at hstep
    split_ifs at hstep with hi
    simp only [Option.some.injEq] at hstep; subst hstep
    exact ⟨done, h1, h2', by simp, h4, h5'⟩
  | reply sel se =>
    simp only [runStep] at hstep
    cases hr : st.reply with
    | none => rw [hr] at hstep; simp at hstep
    | some mp =>
      obtain ⟨m, p⟩ := mp
      rw [hr] at hstep
      have hrr := h4 m p hr
      have hact : ∀ (acts : List PeerAction), acts = st.actions ++ replyTask m p sel se →
          ∀ m' p', PeerAction.sendPriority m' p' ∈ acts →
            r.reply = some (m', p') ∧
            ∃ se', RunEvent.reply (.next none) se' ∈ past ++ [RunEvent.reply sel se] := by
        intro acts hacts m' p' hm
        rw [hacts] at hm
        rcases List.mem_append.1 hm with hm | hm
        · exact h5' m' p' hm
        · obtain ⟨hs, rfl, rfl⟩ := sendPriority_mem_replyTask _ _ _ _ _ _ hm
          subst hs
          exact ⟨hrr, se, by simp⟩
      cases sel with
      | timer =>
        simp only [Option.some.injEq] at hstep; subst hstep
        exact ⟨done, h1, h2', h3, by simp, hact _ rfl⟩
      | quit =>
        simp only [Option.some.injEq] at hstep; subst hstep
        exact ⟨done, h1, h2', h3, by simp, hact _ rfl⟩
      | next v =>
        simp only at hstep
        cases hn : st.next with
        | nil => rw [hn] at hstep; simp at hstep
        | cons w rest =>
          rw [hn] at hstep
          simp only at hstep
          split_ifs at hstep with hw
          simp only [Option.some.injEq] at hstep; subst hstep
          exact ⟨done, h1, h2', h3, by simp, hact _ rfl⟩

theorem runEvents_inv {σ : Type} (r : OfferedResult σ) :
    ∀ (evs past : List RunEvent) (st st' : OfferRun) (done : List HandlerStep),
      RunInv r st done past → runEvents st evs = some st' →
      ∃ done', RunInv r st' done' (past ++ evs) := by
  intro evs
  induction evs with
  | nil =>
    intro past st st' done hinv h
    simp only [runEvents, Option.some.injEq] at h
    subst h
    exact ⟨done, by simpa using hinv⟩
  | cons e evs ih =>
    intro past st st' done hinv h
    simp only [runEvents] at h
    cases hs : runStep st e with
    | none => rw [hs] at h; simp at h
    | some st1 =>
      rw [hs] at h
      obtain ⟨done1, hinv1⟩ := runStep_inv r st st1 done past e hinv hs
      obtain ⟨done', hinv'⟩ := ih (past ++ [e]) st1 st' done1 hinv1 h
      exact ⟨done', by simpa using hinv'⟩

theorem start_inv {σ : Type} (r : OfferedResult σ) (nx : List (Option String)) :
    RunInv r (OfferRun.start r nx) [] [] := by
  refine ⟨by simp [OfferRun.start], ?_, ?_, ?_, ?_⟩ <;> simp [OfferRun.start]

theorem runEvents_append : ∀ (a b : List RunEvent) (st st' : OfferRun),
    runEvents st (a ++ b) = some st' →
    ∃ mid, runEvents st a = some mid ∧ runEvents mid b = some st' := by
  intro a
  induction a with
  | nil => intro b st st' h; exact ⟨st, rfl, h⟩
  | cons e a ih =>
    intro b st st' h
    simp only [List.cons_append, runEvents] at h ⊢
    cases hs : runStep st e with
    | none => rw [hs] at h; simp at h
    | some st1 =>
      rw [hs] at h
      exact ih b st1 st' h

theorem post_after_waiters {σ : Type} (r : OfferedResult σ) (nx : List (Option String))
    (pre rest : List RunEvent) (e : Option String) (st : OfferRun)
    (h : runEvents (OfferRun.start r nx) (pre ++ RunEvent.post e :: rest) = some st)
    (i : Nat) (hsh : List Nat) (hc : r.calls[i]? = some (hsh, true)) :
    RunEvent.waiterDone i ∈ pre := by
  obtain ⟨mid, h1, h2⟩ := runEvents_append _ _ _ _ h
  obtain ⟨done, hsplit, hw, hb, _, _⟩ := runEvents_inv r pre [] _ mid [] (start_inv r nx) h1
  simp only [runEvents] at h2
  cases hs : runStep mid (.post e) with
  | none => rw [hs] at h2; simp at h2
  | some st1 =>
    simp only [runStep] at hs
    split_ifs at hs with hcond
    have hstarted := waiters_started r done mid.program hsplit (hb hcond.1) i hsh hc
    rcases hw i hstarted with hmem | hmem
    · rw [hcond.2] at hmem; simp at hmem
    · simpa using hmem

theorem handler_runs_through : ∀ (prog : List HandlerStep) (st : OfferRun), st.program = prog →
    ∃ st', runEvents st (List.replicate prog.length .handler) = some st' ∧
      st'.program = [] ∧ (∀ i, HandlerStep.goWaiter i ∈ prog → i ∈ st'.wg) ∧
      (∀ i, i ∈ st.wg → i ∈ st'.wg) := by
  intro prog
  induction prog with
  | nil =>
    intro st hp
    exact ⟨st, rfl, hp, by simp, fun _ h => h⟩
  | cons s rest ih =>
    intro st hp
    have hstep : ∃ st1, runStep st .handler = some st1 ∧ st1.program = rest ∧
        (∀ i, i ∈ st.wg → i ∈ st1.wg) ∧ (∀ i, s = .goWaiter i → i ∈ st1.wg) := by
      simp only [runStep, hp]
      cases s with
      | goWaiter i =>
        exact ⟨_, rfl, rfl, fun j hj => List.mem_cons_of_mem _ hj, fun j hj => by
          simp only [HandlerStep.goWaiter.injEq] at hj
          subst hj; exact List.mem_cons_self _ _⟩
      | goBatchDone => exact ⟨_, rfl, rfl, fun _ h => h, fun j hj => by simp at hj⟩
      | goReply m p => exact ⟨_, rfl, rfl, fun _ h => h, fun j hj => by simp at hj⟩
      | needData i a => exact ⟨_, rfl, rfl, fun _ h => h, fun j hj => by simp at hj⟩
      | nextBatch a => exact ⟨_, rfl, rfl, fun _ h => h, fun j hj => by simp at hj⟩
      | ret => exact ⟨_, rfl, rfl, fun _ h => h, fun j hj => by simp at hj⟩
    obtain ⟨st1, h1, h2, h3, h4⟩ := hstep
    obtain ⟨st', hr, hp', hw, hold⟩ := ih st1 h2
    refine ⟨st', ?_, hp', ?_, fun i hi => hold i (h3 i hi)⟩
    · simp only [List.length_cons, List.replicate_succ, runEvents, h1]
      exact hr
    · intro i hi
      rcases List.mem_cons.1 hi with hi | hi
      · exact hold i (h4 i hi.symm)
      · exact hw i hi

theorem nextBatch_mem_handlerSteps {σ : Type} (r : OfferedResult σ) :
    HandlerStep.nextBatch r.nextBatchArg ∈ handlerSteps r := by
  simp [handlerSteps]

/-- C13, as stated, fails: for the offer of three hashes, two of them wanted,
the handler has called `c.nextBatch` after seven of its own steps, while the
waiters of hashes 0 and 2 are both still counted by the `WaitGroup`: none of
them has returned. -/
theorem nextBatch_before_waiters_counterexample :
    handleOfferedHashesMsg exClientEnv () exOffer = .ok exOfferResult ∧
    runEvents (OfferRun.start exOfferResult []) (List.replicate 7 .handler)
      = some exRunAtNextBatch ∧
    HandlerStep.nextBatch 4 ∈ handlerSteps exOfferResult ∧
    HandlerStep.nextBatch 4 ∉ exRunAtNextBatch.program ∧
    exRunAtNextBatch.wg = [2, 0] :=
  ⟨by rfl, by decide, by decide, by decide, by decide⟩

/-- C13 (amended). `c.nextBatch` is called by the handler itself: the handler
performs all its steps, the call of `c.nextBatch` among them, and returns
without any waiter having returned (all of them are then still pending).  What
comes only after every waiter returned by `NeedData` for the offer has returned
is the value posted on `c.next` by the batch-done goroutine: in every run, each
waiter has returned before that value is posted. -/
theorem nextBatch_without_waiting {σ : Type} (r : OfferedResult σ) (nx : List (Option String))
    (pre rest : List RunEvent) (e : Option String) (st : OfferRun)
    (hrun : runEvents (OfferRun.start r nx) (pre ++ RunEvent.post e :: rest) = some st) :
    (∃ st', runEvents (OfferRun.start r nx)
        (List.replicate (handlerSteps r).length .handler) = some st' ∧
      st'.program = [] ∧ ∀ i hsh, r.calls[i]? = some (hsh, true) → i ∈ st'.wg) ∧
    HandlerStep.nextBatch r.nextBatchArg ∈ handlerSteps r ∧
    ∀ i hsh, r.calls[i]? = some (hsh, true) → RunEvent.waiterDone i ∈ pre := by
  refine ⟨?_, nextBatch_mem_handlerSteps r, fun i hsh hc =>
    post_after_waiters r nx pre rest e st hrun i hsh hc⟩
  obtain ⟨st', h1, h2, h3, _⟩ := handler_runs_through (handlerSteps r) (OfferRun.start r nx) rfl
  refine ⟨st', h1, h2, ?_⟩
  intro i hsh hc
  apply h3
  have := loopSteps_goWaiter r.calls 0 i hsh hc
  rw [Nat.zero_add] at this
  simp only [handlerSteps, List.append_assoc, List.mem_append]
  exact Or.inl this

/-- C13 (amended), at a concrete input: a run for the offer of three hashes in
which both waiters return, then `nil` is posted. -/
theorem nextBatch_without_waiting_witness :
    (∃ st', runEvents (OfferRun.start exOfferResult [])
        (List.replicate (handlerSteps exOfferResult).length .handler) = some st' ∧
      st'.program = [] ∧ ∀ i hsh, exOfferResult.calls[i]? = some (hsh, true) → i ∈ st'.wg) ∧
    HandlerStep.nextBatch exOfferResult.nextBatchArg ∈ handlerSteps exOfferResult ∧
    ∀ i hsh, exOfferResult.calls[i]? = some (hsh, true) →
      RunEvent.waiterDone i ∈ List.replicate 9 RunEvent.handler ++
        [RunEvent.waiterDone 2, RunEvent.waiterDone 0] :=
  nextBatch_without_waiting exOfferResult []
    (List.replicate 9 .handler ++ [.waiterDone 2, .waiterDone 0]) [.reply (.next none) none]
    none exRunEnd (by decide)

/-- C14. The reply goroutine has these outcomes only: on the timer it drops the
peer with the timeout error, on a non-nil error from `c.next` it drops the peer
with that error, on `c.quit` it does nothing, and on `nil` from `c.next` it
calls `SendPriority` with the message (and drops the peer if that call fails).
In every run, a `SendPriority` was made only with the message built by the
handler and only after `nil` was received from `c.next`; and the batch-done
goroutine of the offer has posted on `c.next` only after all waiters of the
offer had returned. -/
theorem reply_task_outcomes {σ : Type} (r : OfferedResult σ) (nx : List (Option String))
    (evs : List RunEvent) (st : OfferRun)
    (hrun : runEvents (OfferRun.start r nx) evs = some st) :
    (∀ msg prio sendErr,
      replyTask msg prio .timer sendErr = [.drop "handle offered hashes timeout"] ∧
      (∀ e, replyTask msg prio (.next (some e)) sendErr = [.drop e]) ∧
      replyTask msg prio .quit sendErr = [] ∧
      replyTask msg prio (.next none) none = [.sendPriority msg prio] ∧
      (∀ e, replyTask msg prio (.next none) (some e) = [.sendPriority msg prio, .drop e])) ∧
    (∀ m p, PeerAction.sendPriority m p ∈ st.actions →
      r.reply = some (m, p) ∧ ∃ se, RunEvent.reply (.next none) se ∈ evs) ∧
    (∀ pre rest e, evs = pre ++ RunEvent.post e :: rest →
      ∀ i hsh, r.calls[i]? = some (hsh, true) → RunEvent.waiterDone i ∈ pre) := by
  refine ⟨fun msg prio sendErr => ⟨rfl, fun _ => rfl, rfl, rfl, fun _ => rfl⟩, ?_, ?_⟩
  · obtain ⟨done, _, _, _, _, h5⟩ := runEvents_inv r evs [] _ st [] (start_inv r nx) hrun
    simpa using h5
  · intro pre rest e hev i hsh hc
    rw [hev] at hrun
    exact post_after_waiters r nx pre rest e st hrun i hsh hc

/-- C14, at a concrete input: the run in which the reply goroutine receives `nil`
and sends the `WantedHashesMsg`. -/
theorem reply_task_outcomes_witness :
    (∀ msg prio sendErr,
      replyTask msg prio .timer sendErr = [.drop "handle offered hashes timeout"] ∧
      (∀ e, replyTask msg prio (.next (some e)) sendErr = [.drop e]) ∧
      replyTask msg prio .quit sendErr = [] ∧
      replyTask msg prio (.next none) none = [.sendPriority msg prio] ∧
      (∀ e, replyTask msg prio (.next none) (some e) = [.sendPriority msg prio, .drop e])) ∧
    (∀ m p, PeerAction.sendPriority m p ∈ exRunEnd.actions →
      exOfferResult.reply = some (m, p) ∧
      ∃ se, RunEvent.reply (.next none) se ∈ exRunEvents) ∧
    (∀ pre rest e, exRunEvents = pre ++ RunEvent.post e :: rest →
      ∀ i hsh, exOfferResult.calls[i]? = some (hsh, true) → RunEvent.waiterDone i ∈ pre) :=
  reply_task_outcomes exOfferResult [] exRunEvents exRunEnd (by decide)

/-! ## C15, C16: errors of `handleWantedHashesMsg` -/

theorem wantedLoop_fail (env : ServerEnv) (s : Server) (want : BitVector) (hashes : List Nat)
    (l i : Nat) (e : String) (hs : hashes = s.currentBatch) (hi : i < l)
    (hwant : want.Get i = true) (hfail : env.GetData (hashAt hashes i) = .error e)
    (hget : ∀ j, j < i → want.Get j = true → ∃ d, env.GetData (hashAt hashes j) = .ok d)
    (hdel : ∀ c, env.Deliver c s.priority = none) :
    ∀ (fuel k : Nat) (acc : List (Chunk × Nat)), k ≤ i → l - k ≤ fuel →
      ∃ out, wantedLoop env s want hashes l fuel k acc
          = (acc ++ out, some (.getData (hashAt hashes i) e)) ∧
        out.map deliveryView =
          ((List.range' k (i - k)).filter (fun j => want.Get j)).map (wantedAt env s) := by
  intro fuel
  induction fuel with
  | zero => intro k acc hk hf; omega
  | succ fuel ih =>
    intro k acc hk hf
    unfold wantedLoop
    have hkl : k < l := by omega
    simp only [hkl, if_true]
    by_cases hki : k = i
    · subst hki
      have hfail' : env.GetData ((hashes.drop (k * HashSize)).take HashSize) = .error e := hfail
      simp only [hwant, if_true, hfail']
      exact ⟨[], by simp [hashAt], by simp⟩
    · have hlt : k < i := by omega
      have hr : i - k = (i - (k + 1)) + 1 := by omega
      by_cases hw : want.Get k = true
      · obtain ⟨d, hd⟩ := hget k hlt hw
        have hd' : env.GetData ((hashes.drop (k * HashSize)).take HashSize) = .ok d := hd
        simp only [hw, if_true, hd', hdel]
        obtain ⟨out, h1, h2⟩ := ih (k + 1)
          (acc ++ [({ Addr := (hashes.drop (k * HashSize)).take HashSize, SData := d }, s.priority)])
          (by omega) (by omega)
        refine ⟨({ Addr := (hashes.drop (k * HashSize)).take HashSize, SData := d }, s.priority)
          :: out, by simpa using h1, ?_⟩
        rw [hr, List.range'_succ, List.filter_cons_of_pos (by simpa using hw)]
        simp only [List.map_cons, h2]
        congr 1
        simp only [deliveryView, wantedAt, ← hs, hashAt, hd']
      · obtain ⟨out, h1, h2⟩ := ih (k + 1) acc (by omega) (by omega)
        refine ⟨out, by simpa [hw] using h1, ?_⟩
        rw [hr, List.range'_succ, List.filter_cons_of_neg (by simpa using hw)]
        exact h2

/-- C15, as stated, fails: `GetData` fails for the wanted hash of index 2, but
`Deliver` already fails for the wanted chunk of index 0; the handler returns the
error of `Deliver`, not one that wraps the hash and the `GetData` error, and the
wanted chunk of index 0 has not been delivered. -/
theorem getData_error_counterexample :
    exPeer.getServer exWanted.Stream = .ok exServer ∧
    BitVector.NewFromBytes exWanted.Want (exServer.currentBatch.length / HashSize)
      = .ok { len := 3, b := [5] } ∧
    BitVector.Get { len := 3, b := [5] } 2 = true ∧
    missingChunkClosedEnv.GetData (hashAt exServer.currentBatch 2) = .error "chunk not found" ∧
    (∃ d, missingChunkClosedEnv.GetData (hashAt exServer.currentBatch 0) = .ok d) ∧
    (handleWantedHashesMsg missingChunkClosedEnv exPeer exWanted).ret
      = some (.deliver "connection closed") ∧
    (handleWantedHashesMsg missingChunkClosedEnv exPeer exWanted).delivered = [] :=
  ⟨by rfl, by rfl, by decide, by rfl, ⟨_, rfl⟩, by decide, by decide⟩

/-- C15 (amended). If `Want` decodes, `i` is the first wanted index whose
`GetData` fails, with error `e`, and `Deliver` succeeds, then
`handleWantedHashesMsg` returns the error that wraps the hash `currentBatch[i]`
and `e`, having delivered exactly the wanted chunks of index `< i`, in order,
and none of index `≥ i`. -/
theorem getData_failure_stops (env : ServerEnv) (p : Peer) (req : WantedHashesMsg)
    (s : Server) (want : BitVector) (i : Nat) (e : String)
    (hs : p.getServer req.Stream = .ok s)
    (hw : BitVector.NewFromBytes req.Want (s.currentBatch.length / HashSize) = .ok want)
    (hi : i < s.currentBatch.length / HashSize) (hwant : want.Get i = true)
    (hfail : env.GetData (hashAt s.currentBatch i) = .error e)
    (hget : ∀ j, j < i → want.Get j = true →
      ∃ d, env.GetData (hashAt s.currentBatch j) = .ok d)
    (hdel : ∀ c, env.Deliver c s.priority = none) :
    (handleWantedHashesMsg env p req).ret = some (.getData (hashAt s.currentBatch i) e) ∧
    (handleWantedHashesMsg env p req).delivered.map deliveryView =
      ((List.range i).filter (fun j => want.Get j)).map (wantedAt env s) := by
  obtain ⟨out, h1, h2⟩ := wantedLoop_fail env s want s.currentBatch
    (s.currentBatch.length / HashSize) i e rfl hi hwant hfail hget hdel
    (s.currentBatch.length / HashSize) 0 [] (Nat.zero_le _) (Nat.sub_le _ _)
  simp only [handleWantedHashesMsg, hs, hw, h1, List.nil_append, Nat.sub_zero] at h2 ⊢
  exact ⟨trivial, by rw [h2, List.range_eq_range']⟩

/-- C15 (amended), at a concrete input: a SYNC server whose store lacks the chunk
of index 2. -/
theorem getData_failure_stops_witness :
    (handleWantedHashesMsg missingChunkEnv exPeer exWanted).ret
      = some (.getData (hashAt exServer.currentBatch 2) "chunk not found") ∧
    (handleWantedHashesMsg missingChunkEnv exPeer exWanted).delivered.map deliveryView =
      ((List.range 2).filter (fun j => BitVector.Get { len := 3, b := [5] } j)).map
        (wantedAt missingChunkEnv exServer) :=
  getData_failure_stops missingChunkEnv exPeer exWanted exServer { len := 3, b := [5] } 2
    "chunk not found" (by rfl) (by rfl) (by decide) (by decide) (by rfl)
    (by
      intro j hj _
      interval_cases j
      · exact ⟨_, rfl⟩
      · exact ⟨_, rfl⟩)
    (fun _ => rfl)

/-- C16. Mismatched bitvector size is rejected: if the byte length of `Want`
differs from `ceil(l/8)`, `l = len(currentBatch)/32`, or if `l = 0`, then
`handleWantedHashesMsg` returns an error and delivers no chunk (and so it does
when the stream has no server). -/
theorem wrong_size_rejected (env : ServerEnv) (p : Peer) (req : WantedHashesMsg)
    (h : ∀ s, p.getServer req.Stream = .ok s →
      req.Want.length ≠ bvByteLen (s.currentBatch.length / HashSize) ∨
      s.currentBatch.length / HashSize = 0) :
    (∃ e, (handleWantedHashesMsg env p req).ret = some e) ∧
    (handleWantedHashesMsg env p req).delivered = [] := by
  unfold handleWantedHashesMsg
  cases hs : p.getServer req.Stream with
  | error e => exact ⟨⟨_, rfl⟩, rfl⟩
  | ok s =>
    have hbad : ∃ e, BitVector.NewFromBytes req.Want (s.currentBatch.length / HashSize)
        = .error e := by
      unfold BitVector.NewFromBytes
      rcases h s hs with h1 | h1
      · by_cases h0 : s.currentBatch.length / HashSize = 0
        · exact ⟨"invalid length", by simp [h0]⟩
        · exact ⟨"invalid length", by simp [h0, h1]⟩
      · exact ⟨"invalid length", by simp [h1]⟩
    obtain ⟨e, he⟩ := hbad
    simp only [he]
    exact ⟨⟨_, rfl⟩, trivial⟩

/-- C16, at a concrete input: two bytes of `Want` for a batch of three hashes. -/
theorem wrong_size_rejected_witness :
    (∃ e, (handleWantedHashesMsg exServerEnv exPeer
      { Stream := exStream, Want := [5, 0], From := 4, To := 132 }).ret = some e) ∧
    (handleWantedHashesMsg exServerEnv exPeer
      { Stream := exStream, Want := [5, 0], From := 4, To := 132 }).delivered = [] :=
  wrong_size_rejected exServerEnv exPeer { Stream := exStream, Want := [5, 0], From := 4, To := 132 }
    (by
      intro s hs
      have : s = exServer := by
        have h' : exPeer.getServer exStream = .ok exServer := by rfl
        have hs' : exPeer.getServer exStream = .ok s := hs
        rw [h'] at hs'
        simp only [Except.ok.injEq] at hs'
        exact hs'.symm
      subst this
      exact Or.inl (by decide))

/-! ## C17: the length of an offer -/

theorem handleOfferedHashesMsg_accepts {σ : Type} (env : ClientEnv σ) (store : σ)
    (req : OfferedHashesMsg) (c : Client) (N : Nat)
    (hc : env.getOrSetClient req.Stream req.From req.To = .ok c) (hN : 1 ≤ N)
    (hlen : req.Hashes.length = N * HashSize) :
    ∃ r, handleOfferedHashesMsg env store req = .ok r ∧
      r.client = (if c.stream.Live then { c with sessionAt := req.From } else c) ∧
      r.nextBatchArg = (req.To + 1) % 2 ^ 64 ∧
      r.reply =
        (if (env.nextBatch r.client r.nextBatchArg).1 = (env.nextBatch r.client r.nextBatchArg).2
         then none
         else some ({ Stream := req.Stream, Want := r.want.Bytes,
                      From := (env.nextBatch r.client r.nextBatchArg).1,
                      To := (env.nextBatch r.client r.nextBatchArg).2 }, r.client.priority)) := by
  have hdiv : req.Hashes.length / HashSize = N := by
    rw [hlen]; exact Nat.mul_div_cancel N (by decide)
  have hnew : BitVector.New N = .ok { len := N, b := List.replicate (bvByteLen N) 0 } := by
    unfold BitVector.New BitVector.NewFromBytes
    have h0 : ¬ (N = 0) := by omega
    simp [h0]
  obtain ⟨st', tail, hrun, _⟩ :=
    offeredLoop_run env.NeedData req.Hashes N hlen (req.Hashes.length + 1) 0
      { store := store, want := { len := N, b := List.replicate (bvByteLen N) 0 },
        calls := [], waiters := [] } (Nat.zero_le _)
      (by rw [hlen]; simp only [HashSize]; omega)
      (by simp only [List.length_replicate, bvByteLen]; omega)
      (by intro j _; exact BitVector.Get_replicate _ _ _)
  simp only [Nat.zero_mul] at hrun
  unfold handleOfferedHashesMsg
  simp only [hc, hdiv, hnew, hrun]
  by_cases hft : (env.nextBatch (if c.stream.Live = true then
        { c with sessionAt := req.From } else c) ((req.To + 1) % 2 ^ 64)).1 =
      (env.nextBatch (if c.stream.Live = true then
        { c with sessionAt := req.From } else c) ((req.To + 1) % 2 ^ 64)).2
  · rw [if_pos hft]
    exact ⟨_, rfl, rfl, rfl, by simp only [hft, if_true]⟩
  · rw [if_neg hft]
    exact ⟨_, rfl, rfl, rfl, by simp only [hft, if_false]⟩

/-- C17, as stated, fails: an offer of 129 hashes, more than `BatchSize`, is
accepted: the handler returns `nil` and schedules the `WantedHashesMsg` for the
next window. -/
theorem oversize_offer_counterexample :
    BatchSize < bigOffer.Hashes.length / HashSize ∧
    bigOffer.Hashes.length % HashSize = 0 ∧
    ∃ r, handleOfferedHashesMsg exClientEnv () bigOffer = .ok r ∧
      r.reply = some ({ Stream := exStream, Want := r.want.Bytes, From := 130, To := 258 }, 1) := by
  have hlen : bigOffer.Hashes.length = 129 * HashSize := by
    show (List.replicate (129 * 32) 0).length = 129 * HashSize
    rw [List.length_replicate]
    rfl
  refine ⟨by rw [hlen]; decide, by rw [hlen]; decide, ?_⟩
  obtain ⟨r, h1, h2, h3, h4⟩ := handleOfferedHashesMsg_accepts exClientEnv () bigOffer
    { stream := exStream, priority := 1, sessionAt := 0 } 129 rfl (by decide) hlen
  refine ⟨r, h1, ?_⟩
  rw [h4, h3, h2]
  rfl

/-- C17 (amended). An offer with fewer than 32 bytes of hashes is rejected: the
handler returns the error of the bitvector of length 0 and no `WantedHashesMsg`
is built.  No batch size is checked: an offer of `N ≥ 1` packed hashes, whatever
`N`, is accepted and answered according to the next window only. -/
theorem offer_length_handling {σ : Type} (env : ClientEnv σ) (store : σ)
    (req : OfferedHashesMsg) (c : Client)
    (hc : env.getOrSetClient req.Stream req.From req.To = .ok c) :
    (req.Hashes.length < HashSize →
      handleOfferedHashesMsg env store req = .err (.bitvector 0 "invalid length")) ∧
    (∀ N, 1 ≤ N → req.Hashes.length = N * HashSize →
      ∃ r, handleOfferedHashesMsg env store req = .ok r ∧
        r.reply =
          (if (env.nextBatch r.client r.nextBatchArg).1
              = (env.nextBatch r.client r.nextBatchArg).2
           then none
           else some ({ Stream := req.Stream, Want := r.want.Bytes,
                        From := (env.nextBatch r.client r.nextBatchArg).1,
                        To := (env.nextBatch r.client r.nextBatchArg).2 },
                      r.client.priority))) := by
  constructor
  · intro hlt
    have hdiv : req.Hashes.length / HashSize = 0 := Nat.div_eq_of_lt hlt
    unfold handleOfferedHashesMsg
    simp only [hc, hdiv]
    rfl
  · intro N hN hlen
    obtain ⟨r, h1, _, _, h4⟩ := handleOfferedHashesMsg_accepts env store req c N hc hN hlen
    exact ⟨r, h1, h4⟩

/-- C17 (amended), at a concrete input: the offer of 129 hashes. -/
theorem offer_length_handling_witness :
    (bigOffer.Hashes.length < HashSize →
      handleOfferedHashesMsg exClientEnv () bigOffer = .err (.bitvector 0 "invalid length")) ∧
    (∀ N, 1 ≤ N → bigOffer.Hashes.length = N * HashSize →
      ∃ r, handleOfferedHashesMsg exClientEnv () bigOffer = .ok r ∧
        r.reply =
          (if (exClientEnv.nextBatch r.client r.nextBatchArg).1
              = (exClientEnv.nextBatch r.client r.nextBatchArg).2
           then none
           else some ({ Stream := bigOffer.Stream, Want := r.want.Bytes,
                        From := (exClientEnv.nextBatch r.client r.nextBatchArg).1,
                        To := (exClientEnv.nextBatch r.client r.nextBatchArg).2 },
                      r.client.priority))) :=
  offer_length_handling exClientEnv () bigOffer
    { stream := exStream, priority := 1, sessionAt := 0 } (by rfl)

/-! ## C18, C19: `handleSubscribeMsg` -/

/-- C18. When `handleSubscribeMsg` returns `nil`, the offer loops it has launched
are: one for `req.Stream` at `req.Priority`, with window
`(History.From, History.To)` if the stream is not live and `History` is present
and `(0, 0)` otherwise; and a second one, for `getHistoryStream(req.Stream)` at
`getHistoryPriority(req.Priority)` with window `(History.From, History.To)`,
exactly when the stream is live and `History` is present.  The server table
gains two entries in that case and one in every other. -/
theorem subscribe_offer_loops {α : Type} (env : SubscribeEnv α) (p : Peer) (req : SubscribeMsg)
    (h : (handleSubscribeMsg env p req).ret = none) :
    (handleSubscribeMsg env p req).offers.map
        (fun l => (l.server.stream, l.server.priority, l.From, l.To)) =
      (req.Stream, req.Priority,
        (match req.Stream.Live, req.History with
          | false, some hist => hist.From
          | _, _ => 0),
        (match req.Stream.Live, req.History with
          | false, some hist => hist.To
          | _, _ => 0)) ::
      (match req.Stream.Live, req.History with
        | true, some hist =>
          [(getHistoryStream req.Stream, env.getHistoryPriority req.Priority,
            hist.From, hist.To)]
        | _, _ => []) ∧
    (handleSubscribeMsg env p req).peer.servers.length =
      p.servers.length +
        (match req.Stream.Live, req.History with
          | true, some _ => 2
          | _, _ => 1) := by
  unfold handleSubscribeMsg at h ⊢
  cases hf : env.GetServerFunc req.Stream.Name with
  | error e => simp [hf, subscribeFail] at h
  | ok f =>
    simp only [hf] at h ⊢
    cases hs : f req.Stream.Key req.Stream.Live with
    | error e => simp [hs, subscribeFail] at h
    | ok srv =>
      simp only [hs, Peer.setServer] at h ⊢
      cases hr : env.reject p req.Stream with
      | some e => simp [hr, subscribeFail] at h
      | none =>
        simp only [hr] at h ⊢
        cases hl : req.Stream.Live with
        | false =>
          cases hh : req.History with
          | none => simp
          | some hist => simp
        | true =>
          cases hh : req.History with
          | none => simp
          | some hist =>
            simp only [hl, hh] at h ⊢
            cases hs2 : f req.Stream.Key false with
            | error e => simp [hs2, subscribeFail] at h
            | ok srv2 =>
              simp only [hs2] at h ⊢
              cases hr2 : env.reject ⟨(req.Stream, ⟨req.Stream, req.Priority, []⟩) :: p.servers⟩
                  (getHistoryStream req.Stream) with
              | some e => simp [hr2, subscribeFail] at h
              | none => simp

/-- C18, at a concrete input: a live subscription with history `(0, 100)`. -/
theorem subscribe_offer_loops_witness :
    (handleSubscribeMsg exSubscribeEnv { servers := [] } exSubscribeLive).offers.map
        (fun l => (l.server.stream, l.server.priority, l.From, l.To)) =
      (exSubscribeLive.Stream, exSubscribeLive.Priority,
        (match exSubscribeLive.Stream.Live, exSubscribeLive.History with
          | false, some hist => hist.From
          | _, _ => 0),
        (match exSubscribeLive.Stream.Live, exSubscribeLive.History with
          | false, some hist => hist.To
          | _, _ => 0)) ::
      (match exSubscribeLive.Stream.Live, exSubscribeLive.History with
        | true, some hist =>
          [(getHistoryStream exSubscribeLive.Stream,
            exSubscribeEnv.getHistoryPriority exSubscribeLive.Priority, hist.From, hist.To)]
        | _, _ => []) ∧
    (handleSubscribeMsg exSubscribeEnv { servers := [] } exSubscribeLive).peer.servers.length =
      ({ servers := [] } : Peer).servers.length +
        (match exSubscribeLive.Stream.Live, exSubscribeLive.History with
          | true, some _ => 2
          | _, _ => 1) :=
  subscribe_offer_loops exSubscribeEnv { servers := [] } exSubscribeLive (by decide)

/-- C19. The `SubscribeErrorMsg` sent by `handleSubscribeMsg` are: the one with
`Error: err.Error()` when it returns a non-nil error `err`, and none when it
returns `nil`.  It returns the error of the registry lookup for an unknown
stream name, the error of the server factory, and the error of `setServer`. -/
theorem subscribe_error_sent {α : Type} (env : SubscribeEnv α) (p : Peer) (req : SubscribeMsg) :
    (handleSubscribeMsg env p req).sent =
      (match (handleSubscribeMsg env p req).ret with
        | some e => [e]
        | none => []) ∧
    (∀ e, env.GetServerFunc req.Stream.Name = .error e →
      (handleSubscribeMsg env p req).ret = some e) ∧
    (∀ f e, env.GetServerFunc req.Stream.Name = .ok f →
      f req.Stream.Key req.Stream.Live = .error e →
      (handleSubscribeMsg env p req).ret = some e) ∧
    (∀ f srv e, env.GetServerFunc req.Stream.Name = .ok f →
      f req.Stream.Key req.Stream.Live = .ok srv → env.reject p req.Stream = some e →
      (handleSubscribeMsg env p req).ret = some e) := by
  refine ⟨?_, ?_, ?_, ?_⟩
  · unfold handleSubscribeMsg
    cases hf : env.GetServerFunc req.Stream.Name with
    | error e => rfl
    | ok f =>
      simp only
      cases hs : f req.Stream.Key req.Stream.Live with
      | error e => rfl
      | ok srv =>
        simp only [Peer.setServer]
        cases hr : env.reject p req.Stream with
        | some e => rfl
        | none =>
          simp only
          cases hl : req.Stream.Live with
          | false => cases hh : req.History <;> rfl
          | true =>
            cases hh : req.History with
            | none => rfl
            | some hist =>
              simp only
              cases hs2 : f req.Stream.Key false with
              | error e => rfl
              | ok srv2 =>
                simp only
                cases hr2 : env.reject
                    ⟨(req.Stream, ⟨req.Stream, req.Priority, []⟩) :: p.servers⟩
                    (getHistoryStream req.Stream) with
                | some e => rfl
                | none => rfl
  · intro e hf
    simp [handleSubscribeMsg, hf, subscribeFail]
  · intro f e hf hs
    simp [handleSubscribeMsg, hf, hs, subscribeFail]
  · intro f srv e hf hs hr
    simp [handleSubscribeMsg, hf, hs, hr, subscribeFail, Peer.setServer]

/-! ## C20: the SYNC server factory -/

/-- C20, as stated, fails: the key "73" parses to bin 255, and the factory
returns a server for bin 255 and no error; 255 is above every maximum proximity
order smaller than 255. -/
theorem bin_255_accepted_counterexample :
    ParseSyncBinKey "73" = .ok 255 ∧
    (RegisterSwarmSyncerServer (fun _ => 3)).2 "73" true
      = .ok { po := 255, sessionAt := 3, start := 3 } :=
  ⟨by rfl, by rfl⟩

/-- C20 (amended). The factory registered under "SYNC" fails exactly when
`ParseSyncBinKey` fails, with that error; for every key that parses, to a bin
between 0 and 255, it returns the server of that bin.  No bin is compared with a
maximum proximity order. -/
theorem sync_factory_follows_parse (currentIndex : Nat → Nat) (t : String) (live : Bool) :
    (RegisterSwarmSyncerServer currentIndex).1 = "SYNC" ∧
    (∀ e, ParseSyncBinKey t = .error e →
      (RegisterSwarmSyncerServer currentIndex).2 t live = .error e) ∧
    (∀ po, ParseSyncBinKey t = .ok po →
      po ≤ 255 ∧
      (RegisterSwarmSyncerServer currentIndex).2 t live
        = .ok { po := po, sessionAt := currentIndex po,
                start := if live then currentIndex po else 0 }) := by
  refine ⟨rfl, ?_, ?_⟩
  · intro e he
    simp [RegisterSwarmSyncerServer, he]
  · intro po hpo
    refine ⟨?_, by simp [RegisterSwarmSyncerServer, hpo, NewSwarmSyncerServer]⟩
    unfold ParseSyncBinKey at hpo
    cases hp : ParseUint t syncBinKeyBase 8 with
    | error e => rw [hp] at hpo; simp at hpo
    | ok bin =>
      rw [hp] at hpo
      simp only [Except.ok.injEq] at hpo
      omega


/-! ## C21: `SwarmSyncerClient.NeedData` -/

/-- C21: `NeedData` returns nil exactly when the chunk that `GetOrCreateRequest`
returns for the key has `ReqC == nil`, and otherwise the waiter that calls
`WaitToStore` on that chunk; for the same chunk the result is the same with the
other value of `ignoreExistingRequest` and of the flag `created`. -/
theorem NeedData_follows_ReqC (st : Stream) (flag : Bool)
    (db : List Nat → RequestChunk) (created : List Nat → Bool) (key : List Nat) :
    let s : SwarmSyncerClient := ⟨flag, st⟩
    let chunk := db key
    ((s.NeedData (fun k => (db k, created k)) key = none ↔ chunk.ReqC = none) ∧
      s.NeedData (fun k => (db k, created k)) key =
        (if chunk.ReqC = none then none else some (Waiter.waitToStore chunk))) ∧
    s.NeedData (fun k => (db k, created k)) key =
      SwarmSyncerClient.NeedData ⟨!flag, st⟩ (fun k => (db k, !created k)) key := by
  intro s chunk
  refine ⟨⟨?_, rfl⟩, rfl⟩
  show (if (db key).ReqC = none then none else some (Waiter.waitToStore (db key))) = none ↔ _
  by_cases h : (db key).ReqC = none
  · simp [h, chunk]
  · simp [h, chunk]

/-! ## C22, C23: the printable form of a stream -/

/-- The characters of the printable form. -/
theorem String_toList (s : Stream) :
    s.String.toList =
      s.Name.toList ++ '|' :: (s.Key.toList ++ ['|', if s.Live then 'l' else 'h']) := by
  cases s with
  | mk n k l =>
    cases l <;> simp [Stream.String, String.toList, String.data_append]

/-- Two lists that are cut at their first `c` agree before and after it. -/
theorem split_first_bar (c : Char) :
    ∀ (a a' r r' : List Char), c ∉ a → c ∉ a' → a ++ c :: r = a' ++ c :: r' →
      a = a' ∧ r = r'
  | [], [], r, r', _, _, h => by simpa using h
  | [], y :: a', r, r', _, h2, h => by
    simp only [List.nil_append, List.cons_append, List.cons.injEq] at h
    exact absurd (by rw [h.1]; exact List.mem_cons_self _ _) h2
  | x :: a, [], r, r', h1, _, h => by
    simp only [List.nil_append, List.cons_append, List.cons.injEq] at h
    exact absurd (by rw [← h.1]; exact List.mem_cons_self _ _) h1
  | x :: a, y :: a', r, r', h1, h2, h => by
    simp only [List.cons_append, List.cons.injEq] at h
    have ih := split_first_bar c a a' r r'
      (fun hm => h1 (List.mem_cons_of_mem _ hm)) (fun hm => h2 (List.mem_cons_of_mem _ hm)) h.2
    exact ⟨by rw [h.1, ih.1], ih.2⟩

/-- C22: `s.String()` is `s.Name`, a bar, `s.Key`, a bar and `l` for a live stream,
`h` otherwise: as a string and character by character. -/
theorem String_is_name_key_type (s : Stream) :
    s.String = s.Name ++ "|" ++ s.Key ++ "|" ++ (if s.Live then "l" else "h") ∧
    s.String.toList =
      s.Name.toList ++ ['|'] ++ s.Key.toList ++ ['|'] ++ [if s.Live then 'l' else 'h'] ∧
    s.String.length = s.Name.length + s.Key.length + 3 := by
  refine ⟨rfl, ?_, ?_⟩
  · rw [String_toList]; simp
  · show s.String.toList.length = s.Name.toList.length + s.Key.toList.length + 3
    rw [String_toList]; simp; omega

/-- C23, as stated, fails: the streams with Name `a|b`, Key `c` and with Name `a`,
Key `b|c` have the same printable form. -/
theorem same_String_counterexample :
    ¬ ∀ s1 s2 : Stream, s1.String = s2.String → s1 = s2 := by
  intro h
  exact absurd (h ⟨"a|b", "c", true⟩ ⟨"a", "b|c", true⟩ (by decide)) (by decide)

/-- C23, amended: two streams whose Names hold no bar, or whose Keys hold no bar,
and that have the same printable form are the same stream. -/
theorem String_injective (s1 s2 : Stream)
    (hbar : ('|' ∉ s1.Name.toList ∧ '|' ∉ s2.Name.toList) ∨
      ('|' ∉ s1.Key.toList ∧ '|' ∉ s2.Key.toList))
    (h : s1.String = s2.String) : s1 = s2 := by
  have hl : s1.String.toList = s2.String.toList := by rw [h]
  rw [String_toList, String_toList] at hl
  have key : s1.Name.toList = s2.Name.toList ∧ s1.Key.toList = s2.Key.toList ∧
      (if s1.Live then 'l' else 'h') = (if s2.Live then 'l' else 'h') := by
    rcases hbar with ⟨h1, h2⟩ | ⟨h1, h2⟩
    · obtain ⟨hn, hr⟩ := split_first_bar '|' _ _ _ _ h1 h2 hl
      have := List.append_inj' hr rfl
      simp only [List.cons.injEq, and_true, true_and] at this
      exact ⟨hn, this.1, this.2⟩
    · have hl2 : (s1.Name.toList ++ '|' :: s1.Key.toList) ++ ['|', if s1.Live then 'l' else 'h'] =
          (s2.Name.toList ++ '|' :: s2.Key.toList) ++ ['|', if s2.Live then 'l' else 'h'] := by
        simpa using hl
      have h3 := List.append_inj' hl2 rfl
      simp only [List.cons.injEq, and_true, true_and] at h3
      have h4 := congrArg List.reverse h3.1
      simp only [List.reverse_append, List.reverse_cons, List.append_assoc,
        List.singleton_append] at h4
      obtain ⟨hk, hn⟩ := split_first_bar '|' _ _ _ _
        (by simpa using h1) (by simpa using h2) h4
      exact ⟨List.reverse_injective hn, List.reverse_injective hk, h3.2⟩
  cases s1 with
  | mk n1 k1 l1 =>
    cases s2 with
    | mk n2 k2 l2 =>
      simp only at key
      have hn : n1 = n2 := String.ext key.1
      have hk : k1 = k2 := String.ext key.2.1
      have hlive : l1 = l2 := by
        have := key.2.2
        cases l1 <;> cases l2 <;> simp_all
      rw [hn, hk, hlive]

/-- C23, amended, on the historical SYNC stream of a key that holds a bar. -/
theorem String_injective_witness :
    (('|' ∉ "SYNC".toList ∧ '|' ∉ "SYNC".toList) ∨
      ('|' ∉ "a|b".toList ∧ '|' ∉ "a|b".toList)) ∧
    (Stream.mk "SYNC" "a|b" false).String = (Stream.mk "SYNC" "a|b" false).String ∧
    Stream.mk "SYNC" "a|b" false = Stream.mk "SYNC" "a|b" false :=
  ⟨Or.inl ⟨by decide, by decide⟩, rfl,
    String_injective ⟨"SYNC", "a|b", false⟩ ⟨"SYNC", "a|b", false⟩
      (Or.inl ⟨by decide, by decide⟩) rfl⟩

/-! ## C25: the strings that `ParseSyncBinKey` accepts -/

set_option maxRecDepth 100000 in
/-- The digit read from a byte below 128, by the table of its values. -/
theorem digit_byte : ∀ b < 128,
    (if 48 ≤ b ∧ b ≤ 57 then some (b - 48)
      else if 97 ≤ (b ||| 32) ∧ (b ||| 32) ≤ 122 then some ((b ||| 32) - 97 + 10) else none) =
    (if (48 ≤ b ∧ b ≤ 57) ∨ (97 ≤ b ∧ b ≤ 122) ∨ (65 ≤ b ∧ b ≤ 90) then
      some (if b ≤ 57 then b - 48 else if 97 ≤ b then b - 97 + 10 else b - 65 + 10)
      else none) := by decide

/-- The bytes that `digitVal` reads as a digit are the base-36 digits, with their value. -/
theorem digitVal_eq (c : Char) :
    digitVal c = if isBase36Digit c then some (base36DigitValue c) else none := by
  unfold digitVal isBase36Digit base36DigitValue
  by_cases h : 128 ≤ c.toNat
  · simp only [h, if_true]
    rw [if_neg]; omega
  · simp only [h, if_false]
    exact digit_byte c.toNat (by omega)

/-- A base-36 digit is worth less than 36. -/
theorem base36DigitValue_lt (c : Char) (h : isBase36Digit c) : base36DigitValue c < 36 := by
  unfold isBase36Digit at h
  unfold base36DigitValue
  split_ifs <;> omega

/-- Reading further digits does not lower the value read so far. -/
theorem foldl_ge (cs : List Char) : ∀ n : Nat,
    n ≤ cs.foldl (fun n c => n * 36 + base36DigitValue c) n := by
  induction cs with
  | nil => intro n; exact le_refl _
  | cons c cs ih =>
    intro n
    simp only [List.foldl_cons]
    exact le_trans (by omega) (ih _)

/-- The loop of `ParseUint` in base 36 with 8 bits, started below 256: it returns the
value of the numeral when all bytes are digits and the value fits, an error otherwise. -/
theorem parseUintLoop_ok (cs : List Char) : ∀ (n : Nat), n ≤ 255 →
    (((∀ c ∈ cs, isBase36Digit c) ∧
        cs.foldl (fun n c => n * 36 + base36DigitValue c) n ≤ 255) →
      parseUintLoop 36 255 cs n =
        .ok (cs.foldl (fun n c => n * 36 + base36DigitValue c) n)) ∧
    (¬ ((∀ c ∈ cs, isBase36Digit c) ∧
        cs.foldl (fun n c => n * 36 + base36DigitValue c) n ≤ 255) →
      ∃ e, parseUintLoop 36 255 cs n = .error e) := by
  induction cs with
  | nil =>
    intro n hn
    refine ⟨fun _ => rfl, fun h => absurd ⟨by simp, by simpa using hn⟩ h⟩
  | cons c cs ih =>
    intro n hn
    simp only [List.foldl_cons, List.mem_cons, forall_eq_or_imp]
    unfold parseUintLoop
    rw [digitVal_eq]
    by_cases hc : isBase36Digit c
    · have hd := base36DigitValue_lt c hc
      have hcut : ¬ n ≥ MaxUint64 / 36 + 1 := by
        have : MaxUint64 / 36 + 1 = 512409557603043101 := by decide
        omega
      simp only [hc, if_true, true_and]
      rw [if_neg (by omega), if_neg hcut]
      by_cases hbig : n * 36 + base36DigitValue c > 255
      · rw [if_pos hbig]
        refine ⟨fun h => ?_, fun _ => ⟨_, rfl⟩⟩
        have := foldl_ge cs (n * 36 + base36DigitValue c)
        omega
      · rw [if_neg hbig]
        exact ih _ (by omega)
    · simp only [hc, if_false, false_and]
      exact ⟨fun h => h.elim, fun _ => ⟨_, rfl⟩⟩

/-- The call `strconv.ParseUint(s, 36, 8)`. -/
theorem ParseUint_bin (s : String) :
    (validBinKey s → ParseUint s syncBinKeyBase 8 = .ok (base36Value s.toList)) ∧
    (¬ validBinKey s → ∃ e, ParseUint s syncBinKeyBase 8 = .error e) := by
  unfold validBinKey ParseUint
  by_cases hs : s.toList = []
  · rw [if_pos hs]
    exact ⟨fun h => absurd hs h.1, fun _ => ⟨_, rfl⟩⟩
  · rw [if_neg hs]
    have h := parseUintLoop_ok s.toList 0 (by omega)
    refine ⟨fun hv => h.1 hv.2, fun hv => h.2 (fun hc => hv ⟨hs, hc⟩)⟩

/-- The result of `ParseSyncBinKey` on a valid key. -/
theorem ParseSyncBinKey_valid (s : String) (h : validBinKey s) :
    ParseSyncBinKey s = .ok (base36Value s.toList) ∧
    ParseSyncBinKey.returned s = (base36Value s.toList, none) := by
  have hp := (ParseUint_bin s).1 h
  have hv : base36Value s.toList % 256 = base36Value s.toList := Nat.mod_eq_of_lt (by
    have := h.2.2; omega)
  unfold ParseSyncBinKey ParseSyncBinKey.returned
  rw [hp]
  exact ⟨congrArg Except.ok hv, congrArg (fun v => (v, (none : Option String))) hv⟩

/-- The result of `ParseSyncBinKey` on any other string. -/
theorem ParseSyncBinKey_invalid (s : String) (h : ¬ validBinKey s) :
    ∃ e, ParseSyncBinKey s = .error e ∧ ParseSyncBinKey.returned s = (0, some e) := by
  obtain ⟨e, he⟩ := (ParseUint_bin s).2 h
  refine ⟨e, ?_, ?_⟩
  · unfold ParseSyncBinKey; rw [he]
  · unfold ParseSyncBinKey.returned; rw [he]

/-- C25: `ParseSyncBinKey(s)` succeeds exactly on the non-empty strings of base-36
digits (`0-9`, `a-z`, `A-Z`) whose value is at most 255, and returns that value;
on every other string it returns the bin 0 and an error. -/
theorem ParseSyncBinKey_spec (s : String) :
    (∀ v, ParseSyncBinKey s = .ok v ↔ validBinKey s ∧ v = base36Value s.toList) ∧
    (ParseSyncBinKey.returned s).1 = (if validBinKey s then base36Value s.toList else 0) ∧
    ((ParseSyncBinKey.returned s).2 = none ↔ validBinKey s) ∧
    (∀ e, ParseSyncBinKey s = .error e ↔ ParseSyncBinKey.returned s = (0, some e)) := by
  by_cases h : validBinKey s
  · obtain ⟨h1, h2⟩ := ParseSyncBinKey_valid s h
    rw [h1, h2]
    refine ⟨fun v => ?_, by simp [h], by simp [h], fun e => by simp⟩
    constructor
    · intro hv
      exact ⟨h, (Except.ok.inj hv).symm⟩
    · rintro ⟨_, rfl⟩; rfl
  · obtain ⟨e, h1, h2⟩ := ParseSyncBinKey_invalid s h
    rw [h1, h2]
    refine ⟨fun v => by simp [h], by simp [h], by simp [h], fun e2 => ?_⟩
    constructor
    · intro he; rw [Except.error.inj he]
    · intro he
      simp only [Prod.mk.injEq, Option.some.injEq, true_and] at he
      rw [he]

/-! ## C24: the round trip of the bin key -/

set_option maxRecDepth 1000000 in
/-- The key of every bin, by evaluation of the 256 cases. -/
theorem format_table : ∀ bin < 256,
    ParseSyncBinKey.returned (FormatSyncBinKey bin) = (bin, none) ∧
    (∀ c ∈ (FormatSyncBinKey bin).toList, isLowerBase36Digit c) ∧
    base36Value (FormatSyncBinKey bin).toList = bin ∧
    ((FormatSyncBinKey bin).toList.head? = some '0' ↔ bin = 0) ∧
    (FormatSyncBinKey bin).length = (if bin < 36 then 1 else 2) := by
  decide

/-- C24: for every bin of 0..255, `ParseSyncBinKey(FormatSyncBinKey(bin))` returns
`bin` and no error, and `FormatSyncBinKey(bin)` is the base-36 numeral of `bin`:
lower-case digits, of value `bin`, with a leading zero only for bin 0, one digit
long below 36 and two from 36 on. -/
theorem bin_key_round_trip (bin : Nat) (hbin : bin < 256) :
    ParseSyncBinKey (FormatSyncBinKey bin) = .ok bin ∧
    ParseSyncBinKey.returned (FormatSyncBinKey bin) = (bin, none) ∧
    (∀ c ∈ (FormatSyncBinKey bin).toList, isLowerBase36Digit c) ∧
    base36Value (FormatSyncBinKey bin).toList = bin ∧
    ((FormatSyncBinKey bin).toList.head? = some '0' ↔ bin = 0) ∧
    (FormatSyncBinKey bin).length = (if bin < 36 then 1 else 2) := by
  obtain ⟨h1, h2, h3, h4, h5⟩ := format_table bin hbin
  refine ⟨?_, h1, h2, h3, h4, h5⟩
  have hp : ∀ r, ParseUint (FormatSyncBinKey bin) syncBinKeyBase 8 = r →
      ParseSyncBinKey.returned (FormatSyncBinKey bin) = (bin, none) →
      ParseSyncBinKey (FormatSyncBinKey bin) = .ok bin := by
    intro r hr
    unfold ParseSyncBinKey ParseSyncBinKey.returned
    rw [hr]
    cases r with
    | error e => intro h; simp at h
    | ok v =>
      intro h
      simp only [Prod.mk.injEq, and_true] at h
      exact congrArg Except.ok h
  exact hp _ rfl h1

/-- C24 on the last bin: the key of 255 is `73`. -/
theorem bin_key_round_trip_witness :
    255 < 256 ∧ FormatSyncBinKey 255 = "73" ∧ ParseSyncBinKey (FormatSyncBinKey 255) = .ok 255 :=
  ⟨by decide, by decide, (bin_key_round_trip 255 (by decide)).1⟩

/-! ## C26: `randomNode` -/

/-- The loop of one excluded `e` leaves the slice as it is when none of the
elements it still reads is `e`. -/
theorem excludeLoop_no_match (e : Nat) (ids : IDSlice) : ∀ (k j i : Nat),
    (∀ m < k, ∃ x, ids.array[j + m]? = some x ∧ x ≠ e) →
    excludeLoop e k j ids i = some ids := by
  intro k
  induction k with
  | zero => intro j i _; rfl
  | succ k ih =>
    intro j i h
    obtain ⟨x, hx, hne⟩ := h 0 (by omega)
    rw [Nat.add_zero] at hx
    unfold excludeLoop
    rw [hx]
    simp only [hne, if_false]
    apply ih
    intro m hm
    have := h (m + 1) (by omega)
    rwa [show j + (m + 1) = j + 1 + m by omega] at this

/-- The removal at the position of `c` in a slice `A ++ c :: C` of an array that goes
on with `T`. -/
theorem remove_at (A C T : List Nat) (c : Nat) :
    IDSlice.remove { array := A ++ c :: C ++ T, len := (A ++ c :: C).length } A.length =
      some { array := A ++ C ++ (List.drop C.length (c :: C) ++ T), len := (A ++ C).length } := by
  unfold IDSlice.remove
  have hcond : A.length + 1 ≤ (A ++ c :: C).length ∧
      (A ++ c :: C).length ≤ (A ++ c :: C ++ T).length := by
    simp only [List.length_append, List.length_cons]; omega
  simp only [hcond, and_self, if_true, Option.some.injEq, IDSlice.mk.injEq]
  refine ⟨?_, by simp⟩
  have h1 : List.take A.length (A ++ c :: C ++ T) = A := by
    rw [List.append_assoc]; exact List.take_left' rfl
  have h2 : List.take (A ++ c :: C).length (A ++ c :: C ++ T) = A ++ c :: C :=
    List.take_left' rfl
  have h3 : List.drop (A.length + 1) (A ++ c :: C) = C := by
    rw [List.drop_append_eq_append_drop]
    simp
  have h4 : List.drop ((A ++ c :: C).length - 1) (A ++ c :: C ++ T) =
      List.drop C.length (c :: C) ++ T := by
    have : (A ++ c :: C).length - 1 = A.length + C.length := by
      simp only [List.length_append, List.length_cons]; omega
    rw [this, List.append_assoc, List.drop_append, List.drop_append_of_le_length]
    simp
  rw [h1, h2, h3, h4]

/-- What the loop reads behind a removed element of a slice comes from the elements
that followed it. -/
theorem tail_reads (C T : List Nat) (c : Nat) (t : Nat) (h1 : 1 ≤ C.length) (ht : t ≤ C.length) :
    ∃ x ∈ C, (C ++ (List.drop C.length (c :: C) ++ T))[t]? = some x := by
  by_cases hlt : t < C.length
  · exact ⟨C[t], List.getElem_mem _, by rw [List.getElem?_append_left hlt]; exact List.getElem?_eq_getElem hlt⟩
  · have htC : t = C.length := by omega
    subst htC
    refine ⟨C[C.length - 1], List.getElem_mem _, ?_⟩
    rw [List.getElem?_append_right (le_refl _), Nat.sub_self]
    obtain ⟨n, hn⟩ : ∃ n, C.length = n + 1 := ⟨C.length - 1, by omega⟩
    simp only [hn, List.drop_succ_cons, Nat.add_sub_cancel]
    rw [List.getElem?_append_left (by simp; omega), List.getElem?_drop]
    simp only [Nat.add_zero]
    exact List.getElem?_eq_getElem (by omega)

/-- Leaving out `e` changes nothing in a list that does not hold it. -/
theorem filter_ne_self (e : Nat) (A : List Nat) (hA : e ∉ A) :
    A.filter (fun x => decide (x ≠ e)) = A := by
  rw [List.filter_eq_self]
  intro x hx
  simp only [ne_eq, decide_not, Bool.not_eq_eq_eq_not, Bool.not_true, decide_eq_false_iff_not]
  rintro rfl
  exact hA hx

/-- The loop of one excluded `e` over a slice that holds `e` at most once, entered at
the end of the part `A` already read: the slice left holds the elements other
than `e`, in order. -/
theorem excludeLoop_once (e : Nat) (T : List Nat) : ∀ (C A : List Nat),
    e ∉ A → C.count e ≤ 1 →
    ∃ r, excludeLoop e C.length A.length { array := A ++ C ++ T, len := (A ++ C).length }
          A.length = some r ∧
      r.len ≤ r.array.length ∧
      r.array.take r.len = (A ++ C).filter (fun x => decide (x ≠ e)) := by
  intro C
  induction C with
  | nil =>
    intro A hA _
    refine ⟨_, rfl, by simp, ?_⟩
    simp only [List.append_nil, List.take_left']
    exact (filter_ne_self e A hA).symm
  | cons c C ih =>
    intro A hA hcount
    have hget : (A ++ c :: C ++ T)[A.length]? = some c := by
      rw [List.append_assoc, List.getElem?_append_right (le_refl _)]
      simp
    by_cases hc : c = e
    · subst hc
      have hcC : c ∉ C := by
        rw [List.count_cons_self] at hcount
        exact List.count_eq_zero.mp (by omega)
      refine ⟨{ array := A ++ C ++ (List.drop C.length (c :: C) ++ T),
                len := (A ++ C).length }, ?_, ?_, ?_⟩
      · rw [List.length_cons]
        unfold excludeLoop
        simp only [hget, if_true, remove_at A C T c]
        apply excludeLoop_no_match
        intro m hm
        obtain ⟨x, hxC, hx⟩ := tail_reads C T c (m + 1) (by omega) (by omega)
        refine ⟨x, ?_, fun hxe => hcC (by rw [← hxe]; exact hxC)⟩
        rw [List.append_assoc, List.getElem?_append_right (by omega)]
        rw [show A.length + 1 + m - A.length = m + 1 by omega]
        exact hx
      · simp only [List.length_append, List.length_cons, List.length_drop]
        omega
      · simp only
        rw [List.take_left' rfl, List.filter_append, filter_ne_self c A hA, List.filter_cons]
        simp only [ne_eq, not_true_eq_false, decide_False, Bool.false_eq_true, if_false]
        have := filter_ne_self c C hcC
        simp only [ne_eq] at this
        rw [this]
    · have h1 := ih (A ++ [c]) (by
        simp only [List.mem_append, List.mem_singleton, not_or]
        exact ⟨hA, fun h => hc h.symm⟩) (by
        rwa [List.count_cons_of_ne (Ne.symm hc)] at hcount)
      simp only [List.append_assoc, List.singleton_append, List.length_append,
        List.length_singleton, List.length_cons] at h1
      obtain ⟨r, hr, hlen, htake⟩ := h1
      refine ⟨r, ?_, ?_, ?_⟩
      · rw [List.length_cons]
        unfold excludeLoop
        simp only [hget, hc, if_false]
        simp only [List.append_assoc, List.length_append, List.length_cons] at hr ⊢
        exact hr
      · exact hlen
      · simpa using htake

/-- The loop over `exclude` on a slice that holds no excluded ID twice leaves the
elements that are not excluded, in order. -/
theorem excludeAll_once : ∀ (exclude P T : List Nat), (∀ e ∈ exclude, P.count e ≤ 1) →
    ∃ r, excludeAll exclude { array := P ++ T, len := P.length } = some r ∧
      r.len ≤ r.array.length ∧
      r.array.take r.len = P.filter (fun x => decide (x ∉ exclude)) := by
  intro exclude
  induction exclude with
  | nil =>
    intro P T _
    refine ⟨_, rfl, by simp, ?_⟩
    simp
  | cons e es ih =>
    intro P T hocc
    obtain ⟨r1, hr1, hlen1, htake1⟩ := excludeLoop_once e T P [] (List.not_mem_nil e)
      (hocc e (List.mem_cons_self _ _))
    simp only [List.nil_append, List.length_nil] at hr1 htake1
    have hsplit : r1 = { array := r1.array.take r1.len ++ r1.array.drop r1.len,
                         len := (r1.array.take r1.len).length } := by
      rw [List.take_append_drop, List.length_take, Nat.min_eq_left hlen1]
    obtain ⟨r, hr, hlen, htake⟩ := ih (r1.array.take r1.len) (r1.array.drop r1.len)
      (by
        intro e2 he2
        rw [htake1]
        exact le_trans ((List.filter_sublist P).count_le e2)
          (hocc e2 (List.mem_cons_of_mem _ he2)))
    rw [← hsplit] at hr
    refine ⟨r, ?_, hlen, ?_⟩
    · show (match excludeLoop e P.length 0 { array := P ++ T, len := P.length } 0 with
        | none => none
        | some ids1 => excludeAll es ids1) = some r
      rw [hr1]
      exact hr
    · rw [htake, htake1, List.filter_filter]
      congr 1
      funext x
      simp only [List.mem_cons, not_or, ne_eq, decide_not, Bool.decide_and]
      rw [Bool.and_comm]

/-- On candidates that hold no excluded ID twice `randomNode` returns nil when every
candidate is excluded, and otherwise picks among those that are not. -/
theorem randomNode_once (intn : Nat → Nat) (ids exclude : List Nat)
    (hocc : ∀ e ∈ exclude, ids.count e ≤ 1) :
    randomNode intn ids exclude =
      (if (ids.filter (fun x => decide (x ∉ exclude))).length = 0 then Picked.nil
       else
        match (ids.filter (fun x => decide (x ∉ exclude)))[intn
            (ids.filter (fun x => decide (x ∉ exclude))).length]? with
        | none => Picked.crash
        | some id => Picked.node id) := by
  obtain ⟨r, hr, hlen, htake⟩ := excludeAll_once exclude ids [] hocc
  rw [List.append_nil] at hr
  have hl : r.len = (ids.filter (fun x => decide (x ∉ exclude))).length := by
    rw [← htake, List.length_take, Nat.min_eq_left hlen]
  unfold randomNode
  rw [hr]
  simp only
  rw [htake, hl]

/-- C26, as stated, fails: with the candidates `[1, 2, 2, 3]` and 2 excluded, the
loop leaves the slice `[1, 2, 3]`, and with `rand.Intn(3) = 1` the node
returned by `randomNode`, and by `RandomUpNode`, is the excluded node 2; with
the candidates `[2, 9, 2]` and 2 excluded the loop leaves the empty slice and
nil is returned although the candidate 9 is not excluded. -/
theorem repeated_candidate_counterexample :
    excludeAll [2] { array := [1, 2, 2, 3], len := 4 }
      = some { array := [1, 2, 3, 3], len := 3 } ∧
    randomNode (fun _ => 1) [1, 2, 2, 3] [2] = Picked.node 2 ∧
    RandomUpNode (fun _ => 1) [1, 2, 2, 3] [2] = Picked.node 2 ∧
    2 ∈ [2] ∧
    excludeAll [2] { array := [2, 9, 2], len := 3 }
      = some { array := [2, 2, 2], len := 0 } ∧
    randomNode (fun _ => 0) [2, 9, 2] [2] = Picked.nil ∧
    9 ∈ [2, 9, 2] ∧ 9 ∉ [2] := by
  decide

/-- C26, amended: on candidates that hold no excluded ID twice, as on every list of
pairwise distinct IDs, with `rand.Intn(l)` below `l`: `randomNode` returns nil
exactly when every candidate is excluded, and otherwise a node whose ID is a
candidate and is not excluded; `RandomUpNode` returns the same. -/
theorem randomNode_respects_exclude (intn : Nat → Nat) (ids exclude : List Nat)
    (hocc : ∀ e ∈ exclude, ids.count e ≤ 1) (hintn : ∀ l, 0 < l → intn l < l) :
    (randomNode intn ids exclude = Picked.nil ↔ ∀ id ∈ ids, id ∈ exclude) ∧
    (randomNode intn ids exclude ≠ Picked.nil →
      ∃ id, randomNode intn ids exclude = Picked.node id ∧ id ∈ ids ∧ id ∉ exclude) ∧
    RandomUpNode intn ids exclude = randomNode intn ids exclude := by
  refine ⟨?_, ?_, rfl⟩
  · rw [randomNode_once intn ids exclude hocc]
    by_cases h0 : (ids.filter (fun x => decide (x ∉ exclude))).length = 0
    · rw [if_pos h0]
      refine ⟨fun _ => ?_, fun _ => rfl⟩
      have hnil := List.length_eq_zero.mp h0
      rw [List.filter_eq_nil_iff] at hnil
      intro id hid
      have := hnil id hid
      simpa using this
    · rw [if_neg h0]
      have hlt := hintn _ (Nat.pos_of_ne_zero h0)
      rw [List.getElem?_eq_getElem hlt]
      refine ⟨fun h => by simp at h, fun hall => ?_⟩
      exfalso
      apply h0
      rw [List.length_eq_zero, List.filter_eq_nil_iff]
      intro id hid
      simpa using hall id hid
  · rw [randomNode_once intn ids exclude hocc]
    by_cases h0 : (ids.filter (fun x => decide (x ∉ exclude))).length = 0
    · rw [if_pos h0]
      intro h
      exact absurd rfl h
    · rw [if_neg h0]
      have hlt := hintn _ (Nat.pos_of_ne_zero h0)
      rw [List.getElem?_eq_getElem hlt]
      intro _
      refine ⟨_, rfl, ?_⟩
      have hmem := List.getElem_mem hlt
      rw [List.mem_filter] at hmem
      exact ⟨hmem.1, by simpa using hmem.2⟩

/-- C26, amended, at a concrete input: four distinct candidates, two of them
excluded, and the last of the rest picked. -/
theorem randomNode_respects_exclude_witness :
    randomNode (fun l => l - 1) [1, 2, 3, 4] [2, 3] = Picked.node 4 ∧
    (∀ e ∈ [2, 3], [1, 2, 3, 4].count e ≤ 1) ∧
    (randomNode (fun l => l - 1) [1, 2, 3, 4] [2, 3] = Picked.nil ↔
      ∀ id ∈ [1, 2, 3, 4], id ∈ [2, 3]) ∧
    (randomNode (fun l => l - 1) [1, 2, 3, 4] [2, 3] ≠ Picked.nil →
      ∃ id, randomNode (fun l => l - 1) [1, 2, 3, 4] [2, 3] = Picked.node id ∧
        id ∈ [1, 2, 3, 4] ∧ id ∉ [2, 3]) ∧
    RandomUpNode (fun l => l - 1) [1, 2, 3, 4] [2, 3]
      = randomNode (fun l => l - 1) [1, 2, 3, 4] [2, 3] :=
  ⟨by decide, by decide, randomNode_respects_exclude (fun l => l - 1) [1, 2, 3, 4] [2, 3] (by decide)
    (fun _ h => Nat.sub_lt h Nat.one_pos)⟩

/-! ## C27: `WaitTillHealthy` -/

/-- The exit of `WaitTillHealthy` at a tick depends on `GotNN` and `Full` alone: it
returns `(nil, nil)` exactly when every kademlia has both. -/
theorem WaitTillHealthy_tick (kademlias : List Nat) (healthy : Nat → Health)
    (rest : List HealthEvent) (ill : List Nat) :
    WaitTillHealthy kademlias (.tick healthy :: rest) ill =
      (if ∀ id ∈ kademlias, (healthy id).GotNN = true ∧ (healthy id).Full = true then
        some { ill := none, err := none }
       else WaitTillHealthy kademlias rest (illAt kademlias healthy)) := by
  have hiff : (illAt kademlias healthy).length = 0 ↔
      ∀ id ∈ kademlias, (healthy id).GotNN = true ∧ (healthy id).Full = true := by
    rw [List.length_eq_zero]
    unfold illAt
    rw [List.filter_eq_nil_iff]
    constructor
    · intro h id hid
      have := h id hid
      cases hg : (healthy id).GotNN <;> cases hf : (healthy id).Full <;> simp_all
    · intro h id hid
      obtain ⟨hg, hf⟩ := h id hid
      simp [hg, hf]
  show (if (illAt kademlias healthy).length = 0 then some { ill := none, err := none }
    else WaitTillHealthy kademlias rest (illAt kademlias healthy)) = _
  by_cases h : (illAt kademlias healthy).length = 0
  · rw [if_pos h, if_pos (hiff.mp h)]
  · rw [if_neg h, if_neg (fun h2 => h (hiff.mpr h2))]

/-- C27 at the failing input: one kademlia that has its nearest neighbours and full
bins but does not know its nearest neighbours is not healthy, and at the first
tick `WaitTillHealthy` returns `(nil, nil)`. -/
theorem WaitTillHealthy_ignores_KnowNN :
    (Health.mk true false true).health = false ∧
    illAt [1] (fun _ => { GotNN := true, KnowNN := false, Full := true }) = [] ∧
    WaitTillHealthy [1] [.tick (fun _ => { GotNN := true, KnowNN := false, Full := true })] []
      = some { ill := none, err := none } := by
  decide

/-! ## C28: the bounds returned with a batch -/

/-- C28: a call of `SetNextBatch` that returns a non-empty batch returns as `to` the
index given to the last call of the callback, the index of the last hash of the
batch, whatever `to` was asked for, and as `from` the start it iterated from:
the `from` asked for, or the server's `start` when that is 0. -/
theorem returned_to_is_last_index (s : SwarmSyncerServer) (from_ to_ : Nat)
    (rounds : List Round) (ret : BatchReturn) (h32 : Addresses32 rounds)
    (hret : (s.SetNextBatch from_ to_ rounds).ret = some ret) (hne : ret.hashes ≠ []) :
    ret.from_ = (if from_ = 0 then s.start else from_) ∧
    ∃ r ∈ rounds, ∃ last,
      (yielded (r.iter (effFrom s from_) (effTo s (effFrom s from_) to_) s.po).items).getLast?
        = some last ∧
      ret.to_ = last.2 ∧
      ret.hashes = packed (yielded
        (r.iter (effFrom s from_) (effTo s (effFrom s from_) to_) s.po).items) := by
  obtain ⟨r, hr, hh, hf, ht, hy⟩ := SetNextBatch_batch s from_ to_ rounds ret h32 hret hne
  refine ⟨hf, r, hr, ?_⟩
  cases hl : (yielded (r.iter (effFrom s from_) (effTo s (effFrom s from_) to_) s.po).items).getLast? with
  | none => exact absurd (List.getLast?_eq_none_iff.mp hl) hy
  | some last =>
    refine ⟨last, rfl, ?_, hh⟩
    rw [ht, hl]; rfl

/-- C28 at a concrete input: asked for `(1, 3)`, the server returns the batch of
indices 1 and 2 with `to = 2`. -/
theorem returned_to_is_last_index_witness :
    (1 : Nat) = (if (1 : Nat) = 0 then histServer.start else 1) ∧
    ∃ r ∈ [storeRound exEntries], ∃ last,
      (yielded (r.iter (effFrom histServer 1) (effTo histServer (effFrom histServer 1) 3)
        histServer.po).items).getLast? = some last ∧
      2 = last.2 ∧
      exHash 1 ++ exHash 2 = packed (yielded
        (r.iter (effFrom histServer 1) (effTo histServer (effFrom histServer 1) 3)
          histServer.po).items) :=
  returned_to_is_last_index histServer 1 3 [storeRound exEntries]
    { hashes := exHash 1 ++ exHash 2, from_ := 1, to_ := 2, proof := none, err := none }
    exEntries_addresses (by decide) (by decide)

/-! ## C29: the index given to `nextBatch` -/

/-- The argument of `c.nextBatch` and the reply, for every offer that
`handleOfferedHashesMsg` accepts. -/
theorem handleOfferedHashesMsg_arg {σ : Type} (env : ClientEnv σ) (store : σ)
    (req : OfferedHashesMsg) (r : OfferedResult σ)
    (h : handleOfferedHashesMsg env store req = .ok r) :
    r.nextBatchArg = (req.To + 1) % 2 ^ 64 ∧
    r.reply =
      (if (env.nextBatch r.client r.nextBatchArg).1 = (env.nextBatch r.client r.nextBatchArg).2
       then none
       else some ({ Stream := req.Stream, Want := r.want.Bytes,
                    From := (env.nextBatch r.client r.nextBatchArg).1,
                    To := (env.nextBatch r.client r.nextBatchArg).2 }, r.client.priority)) := by
  unfold handleOfferedHashesMsg at h
  cases hc : env.getOrSetClient req.Stream req.From req.To with
  | error e => simp [hc] at h
  | ok c =>
    cases hnew : BitVector.New (req.Hashes.length / HashSize) with
    | error e => simp [hc, hnew] at h
    | ok want =>
      cases hloop : offeredLoop env.NeedData req.Hashes (req.Hashes.length + 1) 0
          { store := store, want := want, calls := [], waiters := [] } with
      | err e => simp [hc, hnew, hloop] at h
      | crash => simp [hc, hnew, hloop] at h
      | ok st =>
        simp only [hc, hnew, hloop] at h
        by_cases hft : (env.nextBatch (if c.stream.Live = true then
              { c with sessionAt := req.From } else c) ((req.To + 1) % 2 ^ 64)).1 =
            (env.nextBatch (if c.stream.Live = true then
              { c with sessionAt := req.From } else c) ((req.To + 1) % 2 ^ 64)).2
        · rw [if_pos hft] at h
          simp only [Outcome.ok.injEq] at h
          subst h
          exact ⟨rfl, by simp only [hft, if_true]⟩
        · rw [if_neg hft] at h
          simp only [Outcome.ok.injEq] at h
          subst h
          exact ⟨rfl, by simp only [hft, if_false]⟩

/-- C29: the index that `handleOfferedHashesMsg` gives to `c.nextBatch` is
`(req.To + 1) mod 2^64`: `req.To + 1` below `MaxUint64`, and 0 for an offer with
`To = MaxUint64`, whose next window is then the one computed from index 0. -/
theorem nextBatch_index_wraps {σ : Type} (env : ClientEnv σ) (store : σ)
    (req : OfferedHashesMsg) (r : OfferedResult σ)
    (h : handleOfferedHashesMsg env store req = .ok r) :
    r.nextBatchArg = (req.To + 1) % 2 ^ 64 ∧
    (req.To < MaxUint64 → r.nextBatchArg = req.To + 1) ∧
    (req.To = MaxUint64 →
      r.nextBatchArg = 0 ∧
      r.reply =
        (if (env.nextBatch r.client 0).1 = (env.nextBatch r.client 0).2 then none
         else some ({ Stream := req.Stream, Want := r.want.Bytes,
                      From := (env.nextBatch r.client 0).1,
                      To := (env.nextBatch r.client 0).2 }, r.client.priority))) := by
  obtain ⟨h1, h2⟩ := handleOfferedHashesMsg_arg env store req r h
  refine ⟨h1, fun hlt => ?_, fun hmax => ?_⟩
  · rw [h1]
    unfold MaxUint64 at hlt
    exact Nat.mod_eq_of_lt (by omega)
  · have h0 : r.nextBatchArg = 0 := by
      rw [h1, hmax]; decide
    rw [h0] at h2
    exact ⟨h0, h2⟩

/-- C29 at a concrete input: the offer `openOffer` has `To = MaxUint64`, and the
window asked next is the one of index 0. -/
theorem nextBatch_index_wraps_witness :
    handleOfferedHashesMsg exClientEnv () openOffer = .ok openOfferResult ∧
    openOffer.To = MaxUint64 ∧
    openOfferResult.nextBatchArg = 0 ∧
    openOfferResult.reply
      = some ({ Stream := exStream, Want := [5], From := 0, To := 128 }, 1) :=
  ⟨by rfl, rfl,
    ((nextBatch_index_wraps exClientEnv () openOffer openOfferResult (by rfl)).2.2 rfl).1, rfl⟩

/-! ## C30: a late failure of `handleSubscribeMsg` -/

/-- C30: when a live subscription with a history range fails at the second factory
call or at the second `setServer`, the handler returns that error and sends it
in a `SubscribeErrorMsg`, the live server stays in the table and its offer loop
(window `(0, 0)`) has been launched; when the factory lookup, the first factory
call or the first `setServer` fails, the table is unchanged and no offer loop
is launched. -/
theorem subscribe_no_rollback {α : Type} (env : SubscribeEnv α) (p : Peer) (req : SubscribeMsg)
    (e : String) :
    ((∃ f h, env.GetServerFunc req.Stream.Name = .ok f ∧
        (∃ a, f req.Stream.Key req.Stream.Live = .ok a) ∧
        env.reject p req.Stream = none ∧ req.Stream.Live = true ∧ req.History = some h ∧
        (f req.Stream.Key false = .error e ∨
          ((∃ a, f req.Stream.Key false = .ok a) ∧
            env.reject ⟨(req.Stream, ⟨req.Stream, req.Priority, []⟩) :: p.servers⟩
              (getHistoryStream req.Stream) = some e))) →
      handleSubscribeMsg env p req =
        { peer := ⟨(req.Stream, ⟨req.Stream, req.Priority, []⟩) :: p.servers⟩,
          offers := [⟨⟨req.Stream, req.Priority, []⟩, 0, 0⟩],
          sent := [e], ret := some e } ∧
      (handleSubscribeMsg env p req).peer.getServer req.Stream
        = .ok ⟨req.Stream, req.Priority, []⟩) ∧
    ((env.GetServerFunc req.Stream.Name = .error e ∨
        ∃ f, env.GetServerFunc req.Stream.Name = .ok f ∧
          (f req.Stream.Key req.Stream.Live = .error e ∨
            ((∃ a, f req.Stream.Key req.Stream.Live = .ok a) ∧
              env.reject p req.Stream = some e))) →
      handleSubscribeMsg env p req = { peer := p, offers := [], sent := [e], ret := some e }) := by
  constructor
  · rintro ⟨f, h, hf, ⟨a, ha⟩, hr, hl, hh, hlate⟩
    have hres : handleSubscribeMsg env p req =
        { peer := ⟨(req.Stream, ⟨req.Stream, req.Priority, []⟩) :: p.servers⟩,
          offers := [⟨⟨req.Stream, req.Priority, []⟩, 0, 0⟩],
          sent := [e], ret := some e } := by
      unfold handleSubscribeMsg
      rw [hl] at ha
      rcases hlate with h2 | ⟨⟨b, hb⟩, hr2⟩
      · simp [hf, hl, ha, hh, hr, h2, Peer.setServer, subscribeFail]
      · simp [hf, hl, ha, hh, hr, hb, hr2, Peer.setServer, subscribeFail]
    refine ⟨hres, ?_⟩
    rw [hres]
    simp [Peer.getServer, List.lookup]
  · intro hearly
    unfold handleSubscribeMsg
    rcases hearly with h1 | ⟨f, hf, h2 | ⟨⟨a, ha⟩, hr⟩⟩
    · simp [h1, subscribeFail]
    · simp [hf, h2, subscribeFail]
    · simp [hf, ha, hr, Peer.setServer, subscribeFail]

/-- C30 at a concrete input: the factory builds no historical server, and the live
server of `exStream` stays registered. -/
theorem subscribe_no_rollback_witness :
    handleSubscribeMsg liveOnlyEnv ⟨[]⟩ exSubscribeLive =
      { peer := ⟨[(exStream, ⟨exStream, 2, []⟩)]⟩,
        offers := [⟨⟨exStream, 2, []⟩, 0, 0⟩],
        sent := ["no history"], ret := some "no history" } ∧
    (handleSubscribeMsg liveOnlyEnv ⟨[]⟩ exSubscribeLive).peer.getServer exStream
      = .ok ⟨exStream, 2, []⟩ :=
  (subscribe_no_rollback liveOnlyEnv ⟨[]⟩ exSubscribeLive "no history").1
    ⟨fun _ live => if live then .ok () else .error "no history", ⟨0, 100⟩, rfl, ⟨(), rfl⟩,
      rfl, rfl, rfl, Or.inl rfl⟩

end SwarmStream
